import Mathlib

/-!
# Beeswax sterilizer firmware: inner buffer and fuzzy regulator

A shallow embedding of

* `stmlib/Extensions/inner_buffer/inner_buffer.c` (the two-queue buffer that carries
  temperature samples and file / printer chunks between threads), and
* the fuzzy logic of `beeswax_sterilizer/src/regulator.c` with the tables of
  `beeswax_sterilizer/appconf.h`,

followed by the properties established for them.

Conventions.  A `uint16_t` field is a `Nat` that every write reduces modulo `65536`.
A pointer to a `struct inner_buffer_item` is the number of the allocation that produced
it, and a pointer argument that may be `NULL` is an `Option`.  The `bfp == NULL` guard
that opens every buffer function has no counterpart: the functions below are applied to
a buffer object, so that guard is never taken.  The mutex `inbfmtx` serialises the
critical sections; the functions are modelled as atomic steps.
-/

namespace InnerBuffer

/-! ## inner_buffer.h / inner_buffer.c -/

/-- Reduction of an arithmetic result to `uint16_t`. -/
def u16 (n : Nat) : Nat := n % 65536

/-- Address of a `struct inner_buffer_item`. -/
abbrev Item := Nat

/-- The object `inner_buffer_t`.  The STAILQ queues are lists with the head first; the
memory pool pointer and the two unused head pointers are left out. -/
structure inner_buffer_t where
  emptyhead : List Item
  fullhead : List Item
  buffersize : Nat
  itemnum : Nat
  freeitem : Nat
  underflow : Nat
  overflow : Nat
  postoverflow : Nat
  malloc_error : Bool
  pool_error : Bool
deriving DecidableEq, Repr

/-- What `bzero(bfp, sizeof(inner_buffer_t))` leaves. -/
def zeroed : inner_buffer_t :=
  { emptyhead := [], fullhead := [], buffersize := 0, itemnum := 0, freeitem := 0,
    underflow := 0, overflow := 0, postoverflow := 0,
    malloc_error := false, pool_error := false }

/-- The `for` loop of `innerBufferInit`, with the loop counter `bfp->freeitem` kept in the
buffer.  `core` is the number of `chCoreAlloc` calls that succeed and `pool` the number of
`chPoolAlloc` calls that succeed; the item allocated in round `i` has address `i`.
`STAILQ_INSERT_HEAD` on an empty queue and `STAILQ_INSERT_TAIL` on a non-empty one both
append at the end. -/
def initLoop (core pool : Nat) : Nat → inner_buffer_t → inner_buffer_t
  | 0, bf => bf
  | fuel + 1, bf =>
    if bf.freeitem < bf.buffersize then
      if core ≤ bf.freeitem then { bf with malloc_error := true }
      else if pool ≤ bf.freeitem then { bf with pool_error := true }
      else
        initLoop core pool fuel
          { bf with emptyhead := bf.emptyhead ++ [bf.freeitem]
                    freeitem := u16 (bf.freeitem + 1) }
    else bf

/-- `innerBufferInit(bfp, mempool, items, buffersize)` with non-NULL pointers: a zero
`buffersize` leaves the object as it was. -/
def innerBufferInit (bf : inner_buffer_t) (core pool buffersize : Nat) : inner_buffer_t :=
  if buffersize = 0 then bf
  else initLoop core pool buffersize { zeroed with buffersize := buffersize }

/-- `getEmptyInnerBufferItem`: the new buffer and the returned pointer. -/
def getEmptyInnerBufferItem (bf : inner_buffer_t) : inner_buffer_t × Option Item :=
  match bf.emptyhead with
  | [] => ({ bf with underflow := u16 (bf.underflow + 1) }, none)
  | item :: rest =>
    ({ bf with emptyhead := rest, freeitem := u16 (bf.freeitem + 65535) }, some item)

/-- `postFullInnerBufferItem`. -/
def postFullInnerBufferItem (bf : inner_buffer_t) : Option Item → inner_buffer_t
  | none => bf
  | some item =>
    if bf.itemnum = bf.buffersize then { bf with postoverflow := u16 (bf.postoverflow + 1) }
    else { bf with fullhead := bf.fullhead ++ [item], itemnum := u16 (bf.itemnum + 1) }

/-- `getFullInnerBufferItem`: the new buffer and the returned pointer. -/
def getFullInnerBufferItem (bf : inner_buffer_t) : inner_buffer_t × Option Item :=
  match bf.fullhead with
  | [] => (bf, none)
  | item :: rest =>
    ({ bf with fullhead := rest, itemnum := u16 (bf.itemnum + 65535) }, some item)

/-- `releaseEmptyInnerBufferItem`. -/
def releaseEmptyInnerBufferItem (bf : inner_buffer_t) : Option Item → inner_buffer_t
  | none => bf
  | some item =>
    if bf.freeitem = bf.buffersize then { bf with overflow := u16 (bf.overflow + 1) }
    else { bf with emptyhead := bf.emptyhead ++ [item], freeitem := u16 (bf.freeitem + 1) }

/-! ### Callers and the items they hold -/

/-- One call of a thread on the buffer. -/
inductive Call where
  | getEmpty
  | postFull (item : Item)
  | getFull
  | releaseEmpty (item : Item)
deriving DecidableEq, Repr

/-- A buffer together with the item pointers that are in the hands of callers. -/
structure Sys where
  bf : inner_buffer_t
  held : List Item
deriving DecidableEq, Repr

/-- The pointer a `get` returned becomes held. -/
def take (held : List Item) : Option Item → List Item
  | none => held
  | some item => item :: held

/-- Effect of one call.  An item given to `postFull` / `releaseEmpty` leaves the caller's
hands when the buffer links it into a queue; a rejected item is in no queue and stays
with the caller. -/
def Sys.step (s : Sys) : Call → Sys
  | .getEmpty =>
    let r := getEmptyInnerBufferItem s.bf
    { bf := r.1, held := take s.held r.2 }
  | .postFull item =>
    { bf := postFullInnerBufferItem s.bf (some item)
      held := if s.bf.itemnum = s.bf.buffersize then s.held else s.held.erase item }
  | .getFull =>
    let r := getFullInnerBufferItem s.bf
    { bf := r.1, held := take s.held r.2 }
  | .releaseEmpty item =>
    { bf := releaseEmptyInnerBufferItem s.bf (some item)
      held := if s.bf.freeitem = s.bf.buffersize then s.held else s.held.erase item }

/-- The state after a sequence of calls. -/
def Sys.run (s : Sys) (calls : List Call) : Sys := calls.foldl Sys.step s

/-- A call is well-formed when `postFull` / `releaseEmpty` are given an item the caller
holds. -/
def Sys.ok (s : Sys) : Call → Bool
  | .postFull item => decide (item ∈ s.held)
  | .releaseEmpty item => decide (item ∈ s.held)
  | _ => true

/-- Every call of the sequence is well-formed in the state it is made in. -/
def Sys.valid : Sys → List Call → Bool
  | _, [] => true
  | s, c :: cs => s.ok c && Sys.valid (s.step c) cs

/-- The system right after `innerBufferInit`: nothing is held. -/
def Sys.init (bf : inner_buffer_t) (core pool buffersize : Nat) : Sys :=
  { bf := innerBufferInit bf core pool buffersize, held := [] }

/-- The bookkeeping invariant of a buffer of capacity `N`. -/
def Inv (N : Nat) (s : Sys) : Prop :=
  s.bf.buffersize = N ∧
  s.bf.freeitem + s.bf.itemnum + s.held.length = N ∧
  s.bf.freeitem = s.bf.emptyhead.length ∧
  s.bf.itemnum = s.bf.fullhead.length ∧
  (s.bf.emptyhead ++ s.bf.fullhead ++ s.held).Perm (List.range N)

/-! ### What the callers observe -/

/-- The items that the `getFullInnerBufferItem` calls of a sequence return (the calls that
return `NULL` add nothing), in the order of the calls. -/
def Sys.taken : Sys → List Call → List Item
  | _, [] => []
  | s, .getFull :: cs =>
    (match (getFullInnerBufferItem s.bf).2 with
      | none => []
      | some item => [item]) ++ Sys.taken (s.step .getFull) cs
  | s, c :: cs => Sys.taken (s.step c) cs

/-- The items that the `postFullInnerBufferItem` calls of a sequence link into the filled
queue (the calls rejected by the guard `itemnum == buffersize` add nothing), in the order
of the calls. -/
def Sys.posted : Sys → List Call → List Item
  | _, [] => []
  | s, .postFull item :: cs =>
    (if s.bf.itemnum = s.bf.buffersize then [] else [item]) ++
      Sys.posted (s.step (.postFull item)) cs
  | s, c :: cs => Sys.posted (s.step c) cs

end InnerBuffer

namespace Regulator

/-! ## Single-precision arithmetic

The regulator computes in C `float`.  A `float` is modelled as an IEEE-754 binary32 datum:
a finite value (kept as the exact rational it denotes), an infinity or a NaN, and every
operation rounds its exact result to the nearest binary32 value, ties to even, each
operation on its own (a product and the sum that consumes it are rounded separately).  The two
zeros are identified; each divisor of the program that can be zero is a `+0` (a converted
integer `0`, or a sum that started from `0`), so a division by zero yields `+inf`, `-inf`
or NaN by the sign of the dividend. -/

/-- A binary32 datum. -/
inductive F32 where
  | fin (q : ℚ)
  | inf (neg : Bool)
  | nan
deriving DecidableEq, Repr

/-- Nearest integer, ties to the even one. -/
def rne (q : ℚ) : ℤ :=
  if q - ⌊q⌋ < 1 / 2 then ⌊q⌋
  else if 1 / 2 < q - ⌊q⌋ then ⌊q⌋ + 1
  else if ⌊q⌋ % 2 = 0 then ⌊q⌋ else ⌊q⌋ + 1

/-- Exponent of the unit in the last place of the binade of `q`: 24 significant bits,
least normal exponent `-126` (below it the spacing stays `2 ^ (-149)`). -/
def ulpExp (q : ℚ) : ℤ := max (Int.log 2 |q|) (-126) - 23

/-- Rounding of an exact result to binary32: to nearest, ties to even, overflowing to an
infinity from `2 ^ 128` on. -/
def rnd (q : ℚ) : F32 :=
  if (2 : ℚ) ^ 128 ≤ |(rne (q / 2 ^ ulpExp q) : ℚ) * 2 ^ ulpExp q| then F32.inf (decide (q < 0))
  else F32.fin ((rne (q / 2 ^ ulpExp q) : ℚ) * 2 ^ ulpExp q)

/-- The conversion `(float)n` of an integer. -/
def ofInt (n : ℤ) : F32 := rnd n

/-- Single-precision `a + b`. -/
def F32.add : F32 → F32 → F32
  | .fin a, .fin b => rnd (a + b)
  | .fin _, .inf s => .inf s
  | .inf s, .fin _ => .inf s
  | .inf s, .inf t => if s = t then .inf s else .nan
  | _, _ => .nan

/-- Single-precision `a * b`. -/
def F32.mul : F32 → F32 → F32
  | .fin a, .fin b => rnd (a * b)
  | .fin a, .inf s => if a = 0 then .nan else .inf (xor s (decide (a < 0)))
  | .inf s, .fin b => if b = 0 then .nan else .inf (xor s (decide (b < 0)))
  | .inf s, .inf t => .inf (xor s t)
  | _, _ => .nan

/-- Single-precision `a / b`. -/
def F32.div : F32 → F32 → F32
  | .fin a, .fin b =>
    if b = 0 then (if a = 0 then .nan else .inf (decide (a < 0))) else rnd (a / b)
  | .fin _, .inf _ => .fin 0
  | .inf s, .fin b => .inf (xor s (decide (b < 0)))
  | _, _ => .nan

/-- The comparison `a < b`; false when an operand is a NaN. -/
def F32.lt : F32 → F32 → Bool
  | .fin a, .fin b => decide (a < b)
  | .fin _, .inf s => !s
  | .inf s, .fin _ => s
  | .inf s, .inf t => s && !t
  | _, _ => false

/-- The comparison `a == b`; false when an operand is a NaN. -/
def F32.eq : F32 → F32 → Bool
  | .fin a, .fin b => decide (a = b)
  | .inf s, .inf t => decide (s = t)
  | _, _ => false

/-- The conversion `(uint32_t)x`: the value truncated toward zero; undefined (`none`) for
a NaN, an infinity, and a value whose integral part is not a `uint32_t`. -/
def toU32 : F32 → Option Nat
  | .fin q =>
    if q ≤ -1 ∨ (2 : ℚ) ^ 32 ≤ q then none
    else some (Int.toNat (if 0 ≤ q then ⌊q⌋ else ⌈q⌉))
  | _ => none

/-- The expansion of `min(a,b)` of regulator.h: `(((a) < (b)) ? (a) : (b))`. -/
def min (a b : F32) : F32 := if F32.lt a b then a else b

/-! ## regulator.h: membership functions and rules -/

/-- The functions a `fuzzyfic_func` pointer can refer to. -/
inductive FuzzyficFunc where
  | triangle
  | halfTrapeze
  | trapeze
deriving DecidableEq, Repr

/-- The type `input_mf`; the `int16_t` fields are integers. -/
structure input_mf where
  rangefrom : ℤ
  rangeto : ℤ
  maxfrom : ℤ
  maxto : ℤ
  fuzzyfic_func : FuzzyficFunc
deriving DecidableEq, Repr

/-- The type `output_mf`. -/
structure output_mf where
  maxpoint : ℕ
deriving DecidableEq, Repr

/-- The type `fuzzy_rule`; an antecedent pointer may be `NULL`. -/
structure fuzzy_rule where
  if_side1 : Option input_mf
  if_side2 : Option input_mf
  then_side : output_mf
deriving DecidableEq, Repr

/-- `FUZZY_RULES_NUM` of appconf.h. -/
abbrev FUZZY_RULES_NUM : ℕ := 14

/-- `FUZZY_INPUT_NUM` of appconf.h. -/
abbrev FUZZY_INPUT_NUM : ℕ := 2

/-- `PWM_CLOCK` of appconf.h. -/
def PWM_CLOCK : ℕ := 10000

/-- `PWM_COUNT` of appconf.h. -/
def PWM_COUNT : ℕ := 10000

/-! ## regulator.c: fuzzification -/

/-- `fuzzyficTriangleTypeMf(mf, input)`. -/
def fuzzyficTriangleTypeMf : Option input_mf → ℤ → F32
  | none, _ => .fin 2
  | some mfp, input =>
    if input < mfp.rangefrom ∨ input > mfp.rangeto then .fin 0
    else if input ≥ mfp.rangefrom ∧ input ≤ mfp.maxfrom then
      F32.div (ofInt (input - mfp.rangefrom)) (ofInt (mfp.maxfrom - mfp.rangefrom))
    else if input > mfp.maxfrom ∧ input ≤ mfp.rangeto then
      F32.div (ofInt (mfp.rangeto - input)) (ofInt (mfp.rangeto - mfp.maxfrom))
    else .fin 2

/-- The second block of `fuzzyficHalfTrapezeTypeMf` (`rangeto == maxfrom`, rising edge)
and the final `return 2.0`. -/
def halfTrapezeRising (mfp : input_mf) (input : ℤ) : F32 :=
  if mfp.rangeto = mfp.maxfrom then
    if input < mfp.rangefrom then .fin 0
    else if input > mfp.rangeto then .fin 1
    else if input ≥ mfp.rangefrom ∧ input ≤ mfp.rangeto then
      F32.div (ofInt (input - mfp.rangefrom)) (ofInt (mfp.rangeto - mfp.rangefrom))
    else .fin 2
  else .fin 2

/-- `fuzzyficHalfTrapezeTypeMf(mf, input)`: the block for `rangefrom == maxfrom` (falling
edge) falls through to the second block when none of its `return`s is taken. -/
def fuzzyficHalfTrapezeTypeMf : Option input_mf → ℤ → F32
  | none, _ => .fin 2
  | some mfp, input =>
    if mfp.rangefrom = mfp.maxfrom then
      if input < mfp.rangefrom then .fin 1
      else if input > mfp.rangeto then .fin 0
      else if input ≥ mfp.rangefrom ∧ input ≤ mfp.rangeto then
        F32.div (ofInt (mfp.rangeto - input)) (ofInt (mfp.rangeto - mfp.rangefrom))
      else halfTrapezeRising mfp input
    else halfTrapezeRising mfp input

/-- `fuzzyficTrapezeTypeMf(mf, input)`. -/
def fuzzyficTrapezeTypeMf : Option input_mf → ℤ → F32
  | none, _ => .fin 2
  | some mfp, input =>
    if input < mfp.rangefrom ∨ input > mfp.rangeto then .fin 0
    else if input ≥ mfp.rangefrom ∧ input < mfp.maxfrom then
      F32.div (ofInt (input - mfp.rangefrom)) (ofInt (mfp.maxfrom - mfp.rangefrom))
    else if input ≥ mfp.maxfrom ∧ input ≤ mfp.maxto then ofInt 1
    else if input > mfp.maxto ∧ input ≤ mfp.rangeto then
      F32.div (ofInt (mfp.rangeto - input)) (ofInt (mfp.rangeto - mfp.maxto))
    else .fin 2

/-- The call `mf->fuzzyfic_func(mf, input)` through the function pointer. -/
def input_mf.call (mf : input_mf) (input : ℤ) : F32 :=
  match mf.fuzzyfic_func with
  | .triangle => fuzzyficTriangleTypeMf (some mf) input
  | .halfTrapeze => fuzzyficHalfTrapezeTypeMf (some mf) input
  | .trapeze => fuzzyficTrapezeTypeMf (some mf) input

/-- The static structure `fuzzy_logic`, together with the counter
`fuzzyreg.fuzzy_errors` (`uint8_t`) that `evaluation_rules` increments. -/
structure fuzzy_logic_t where
  fuzzy_temp : Fin FUZZY_RULES_NUM → F32
  fuzzy_dtemp : Fin FUZZY_RULES_NUM → F32
  fuzzy_pwm : Fin FUZZY_RULES_NUM → F32
  errors : Fin FUZZY_INPUT_NUM → Fin FUZZY_RULES_NUM → Bool
  fuzzy_errors : ℕ

/-- What `bzero(&fuzzy_logic, sizeof(fuzzy_logic))` and `fuzzyreg.fuzzy_errors = 0`
leave. -/
def fuzzy_logic_zero : fuzzy_logic_t :=
  { fuzzy_temp := fun _ => .fin 0, fuzzy_dtemp := fun _ => .fin 0, fuzzy_pwm := fun _ => .fin 0,
    errors := fun _ _ => false, fuzzy_errors := 0 }

/-- The value the first loop of `fuzzyfication_input` stores for rule `i`: `2.0` when
`rules[i].if_side1` is `NULL`, else the degree of `temp`. -/
def tempDegree (rules : Fin FUZZY_RULES_NUM → fuzzy_rule) (temp : ℤ)
    (i : Fin FUZZY_RULES_NUM) : F32 :=
  match (rules i).if_side1 with
  | none => .fin 2
  | some mf => mf.call temp

/-- The value the second loop of `fuzzyfication_input` stores for rule `i`: `3.0` when
`rules[i].if_side2` is `NULL`, else the degree of `dtemp`. -/
def dtempDegree (rules : Fin FUZZY_RULES_NUM → fuzzy_rule) (dtemp : ℤ)
    (i : Fin FUZZY_RULES_NUM) : F32 :=
  match (rules i).if_side2 with
  | none => .fin 3
  | some mf => mf.call dtemp

/-- Body of the first loop of `fuzzyfication_input`. -/
def fuzzyficTemp (rules : Fin FUZZY_RULES_NUM → fuzzy_rule) (temp : ℤ)
    (fl : fuzzy_logic_t) (i : Fin FUZZY_RULES_NUM) : fuzzy_logic_t :=
  { fl with fuzzy_temp := Function.update fl.fuzzy_temp i (tempDegree rules temp i) }

/-- Body of the second loop of `fuzzyfication_input`. -/
def fuzzyficDtemp (rules : Fin FUZZY_RULES_NUM → fuzzy_rule) (dtemp : ℤ)
    (fl : fuzzy_logic_t) (i : Fin FUZZY_RULES_NUM) : fuzzy_logic_t :=
  { fl with fuzzy_dtemp := Function.update fl.fuzzy_dtemp i (dtempDegree rules dtemp i) }

/-- `fuzzyfication_input(temp, dtemp)` over the rule table `rules`. -/
def fuzzyfication_input (rules : Fin FUZZY_RULES_NUM → fuzzy_rule) (temp dtemp : ℤ)
    (fl : fuzzy_logic_t) : fuzzy_logic_t :=
  (List.finRange FUZZY_RULES_NUM).foldl (fuzzyficDtemp rules dtemp)
    ((List.finRange FUZZY_RULES_NUM).foldl (fuzzyficTemp rules temp) fl)

/-! ## regulator.c: rule evaluation and defuzzification -/

/-- Reduction of an arithmetic result to `uint8_t`. -/
def u8 (n : ℕ) : ℕ := n % 256

/-- The first `if` of the loop body of `evaluation_rules`. -/
def flagTemp (fl : fuzzy_logic_t) (i : Fin FUZZY_RULES_NUM) : fuzzy_logic_t :=
  if F32.eq (fl.fuzzy_temp i) (.fin 2) then
    { fl with errors := Function.update fl.errors 0 (Function.update (fl.errors 0) i true)
              fuzzy_errors := u8 (fl.fuzzy_errors + 1) }
  else fl

/-- The second `if` of the loop body of `evaluation_rules`. -/
def flagDtemp (fl : fuzzy_logic_t) (i : Fin FUZZY_RULES_NUM) : fuzzy_logic_t :=
  if F32.eq (fl.fuzzy_dtemp i) (.fin 2) then
    { fl with errors := Function.update fl.errors 1 (Function.update (fl.errors 1) i true)
              fuzzy_errors := u8 (fl.fuzzy_errors + 1) }
  else fl

/-- The fire strength the loop body of `evaluation_rules` computes from the two degrees
of a rule: the temperature degree when the delta degree is `3.0`, else `min` of both. -/
def strength (t d : F32) : F32 :=
  if F32.eq d (.fin 3) then t else min t d

/-- The rest of the loop body of `evaluation_rules`: the fire strength of rule `i`. -/
def fire (fl : fuzzy_logic_t) (i : Fin FUZZY_RULES_NUM) : fuzzy_logic_t :=
  { fl with fuzzy_pwm := Function.update fl.fuzzy_pwm i
              (strength (fl.fuzzy_temp i) (fl.fuzzy_dtemp i)) }

/-- Loop body of `evaluation_rules`. -/
def evalRule (fl : fuzzy_logic_t) (i : Fin FUZZY_RULES_NUM) : fuzzy_logic_t :=
  fire (flagDtemp (flagTemp fl i) i) i

/-- Number of the degrees in `l` that `evaluation_rules` sees as the error value `2.0`. -/
def errorDegrees (v : Fin FUZZY_RULES_NUM → F32) (l : List (Fin FUZZY_RULES_NUM)) : ℕ :=
  l.countP fun i => F32.eq (v i) (.fin 2)

/-- `evaluation_rules()`. -/
def evaluation_rules (fl : fuzzy_logic_t) : fuzzy_logic_t :=
  (List.finRange FUZZY_RULES_NUM).foldl evalRule fl

/-- Loop body of `defuzzyfication`: the pair `(sum_maximums, sum_wight)`. -/
def accumulate (rules : Fin FUZZY_RULES_NUM → fuzzy_rule) (fuzzy_pwm : Fin FUZZY_RULES_NUM → F32)
    (acc : F32 × F32) (i : Fin FUZZY_RULES_NUM) : F32 × F32 :=
  (F32.add acc.1 (F32.mul (fuzzy_pwm i) (ofInt ((rules i).then_side.maxpoint : ℤ))),
   F32.add acc.2 (fuzzy_pwm i))

/-- The pair `(sum_maximums, sum_wight)` after the loop of `defuzzyfication`. -/
def sums (rules : Fin FUZZY_RULES_NUM → fuzzy_rule) (fuzzy_pwm : Fin FUZZY_RULES_NUM → F32) :
    F32 × F32 :=
  (List.finRange FUZZY_RULES_NUM).foldl (accumulate rules fuzzy_pwm) (.fin 0, .fin 0)

/-- `defuzzyfication()`: `res = (uint32_t)(sum_maximums / sum_wight)`, then
`res * PWM_STEP`, which `PWM_STEP = PWM_CLOCK/100` expands to `res * PWM_CLOCK/100`,
computed in `uint32_t`.  `none` when the conversion to `uint32_t` is undefined. -/
def defuzzyfication (rules : Fin FUZZY_RULES_NUM → fuzzy_rule)
    (fuzzy_pwm : Fin FUZZY_RULES_NUM → F32) : Option ℕ :=
  (toU32 (F32.div (sums rules fuzzy_pwm).1 (sums rules fuzzy_pwm).2)).map
    fun res => (res * PWM_CLOCK % 2 ^ 32) / 100

/-! ## appconf.h: the configured tables -/

/-- `TEMP_MELTING`. -/
def TEMP_MELTING : input_mf := ⟨8320, 9600, 8320, 8320, .halfTrapeze⟩
/-- `TEMP_COLD`. -/
def TEMP_COLD : input_mf := ⟨8320, 10880, 9600, 9600, .triangle⟩
/-- `TEMP_MEDIUM`. -/
def TEMP_MEDIUM : input_mf := ⟨9600, 14848, 10880, 10880, .triangle⟩
/-- `TEMP_HOT`. -/
def TEMP_HOT : input_mf := ⟨10880, 14848, 14848, 14848, .halfTrapeze⟩
/-- `TEMP_STERILE`. -/
def TEMP_STERILE : input_mf := ⟨14592, 14848, 14592, 14848, .trapeze⟩

/-- `DELTATEMP_NEG`. -/
def DELTATEMP_NEG : input_mf := ⟨-1, 0, -1, -1, .halfTrapeze⟩
/-- `DELTATEMP_ZERO`. -/
def DELTATEMP_ZERO : input_mf := ⟨-1, 2, 0, 0, .triangle⟩
/-- `DELTATEMP_SPOS`. -/
def DELTATEMP_SPOS : input_mf := ⟨0, 4, 2, 2, .triangle⟩
/-- `DELTATEMP_POS`. -/
def DELTATEMP_POS : input_mf := ⟨2, 6, 4, 4, .triangle⟩
/-- `DELTATEMP_VPOS`. -/
def DELTATEMP_VPOS : input_mf := ⟨4, 6, 6, 6, .halfTrapeze⟩

/-- `TEMP_INPUT_MFS`: melting, cold, medium, hot, sterile. -/
def TEMP_INPUT_MFS : List input_mf :=
  [TEMP_MELTING, TEMP_COLD, TEMP_MEDIUM, TEMP_HOT, TEMP_STERILE]

/-- `DTEMP_INPUT_MFS`: neg, zero, spos, pos, vpos. -/
def DTEMP_INPUT_MFS : List input_mf :=
  [DELTATEMP_NEG, DELTATEMP_ZERO, DELTATEMP_SPOS, DELTATEMP_POS, DELTATEMP_VPOS]

/-- `PWM_OFF`. -/
def PWM_OFF : output_mf := ⟨0⟩
/-- `PWM_SMALL`. -/
def PWM_SMALL : output_mf := ⟨25⟩
/-- `PWM_HALF`. -/
def PWM_HALF : output_mf := ⟨50⟩
/-- `PWM_WIDE`. -/
def PWM_WIDE : output_mf := ⟨75⟩
/-- `PWM_FULL`. -/
def PWM_FULL : output_mf := ⟨100⟩

/-- `FUZZY_RULES`, the table `rules` of regulator.c. -/
def FUZZY_RULES : Fin FUZZY_RULES_NUM → fuzzy_rule :=
  ![⟨some TEMP_MELTING, none, PWM_FULL⟩,
    ⟨some TEMP_COLD, some DELTATEMP_NEG, PWM_FULL⟩,
    ⟨some TEMP_COLD, some DELTATEMP_ZERO, PWM_FULL⟩,
    ⟨some TEMP_COLD, some DELTATEMP_SPOS, PWM_WIDE⟩,
    ⟨some TEMP_COLD, some DELTATEMP_POS, PWM_HALF⟩,
    ⟨some TEMP_COLD, some DELTATEMP_VPOS, PWM_SMALL⟩,
    ⟨some TEMP_MEDIUM, some DELTATEMP_NEG, PWM_FULL⟩,
    ⟨some TEMP_MEDIUM, some DELTATEMP_ZERO, PWM_WIDE⟩,
    ⟨some TEMP_MEDIUM, some DELTATEMP_SPOS, PWM_HALF⟩,
    ⟨some TEMP_MEDIUM, some DELTATEMP_POS, PWM_SMALL⟩,
    ⟨some TEMP_MEDIUM, some DELTATEMP_VPOS, PWM_OFF⟩,
    ⟨some TEMP_HOT, none, PWM_OFF⟩,
    ⟨some TEMP_STERILE, some DELTATEMP_NEG, PWM_WIDE⟩,
    ⟨some TEMP_STERILE, some DELTATEMP_ZERO, PWM_SMALL⟩]


/-! ## Double-precision arithmetic

The rate `tg_alpha` is computed partly in C `double`: the product with the `double`
constant `SENSOR_TEMP_QUANTUM` and the division that follows it.  A `double` is an IEEE-754
binary64 datum, modelled like `F32` with 53 significant bits. -/

/-- A binary64 datum. -/
inductive F64 where
  | fin (q : ℚ)
  | inf (neg : Bool)
  | nan
deriving DecidableEq, Repr

/-- Exponent of the unit in the last place of the binade of `q` in binary64: 53 significant
bits, least normal exponent `-1022`. -/
def ulpExp64 (q : ℚ) : ℤ := max (Int.log 2 |q|) (-1022) - 52

/-- Rounding of an exact result to binary64: to nearest, ties to even, overflowing to an
infinity from `2 ^ 1024` on. -/
def rnd64 (q : ℚ) : F64 :=
  if (2 : ℚ) ^ 1024 ≤ |(rne (q / 2 ^ ulpExp64 q) : ℚ) * 2 ^ ulpExp64 q| then
    F64.inf (decide (q < 0))
  else F64.fin ((rne (q / 2 ^ ulpExp64 q) : ℚ) * 2 ^ ulpExp64 q)

/-- The promotion of a `float` to `double`, which is exact. -/
def F32.toF64 : F32 → F64
  | .fin q => .fin q
  | .inf s => .inf s
  | .nan => .nan

/-- The conversion of a `double` to `float`, as in an assignment to a `float` object. -/
def F64.toF32 : F64 → F32
  | .fin q => rnd q
  | .inf s => .inf s
  | .nan => .nan

/-- Single-precision `a - b`. -/
def F32.sub : F32 → F32 → F32
  | .fin a, .fin b => rnd (a - b)
  | .fin _, .inf s => .inf (!s)
  | .inf s, .fin _ => .inf s
  | .inf s, .inf t => if s = t then .nan else .inf s
  | _, _ => .nan

/-- Double-precision `a * b`. -/
def F64.mul : F64 → F64 → F64
  | .fin a, .fin b => rnd64 (a * b)
  | .fin a, .inf s => if a = 0 then .nan else .inf (xor s (decide (a < 0)))
  | .inf s, .fin b => if b = 0 then .nan else .inf (xor s (decide (b < 0)))
  | .inf s, .inf t => .inf (xor s t)
  | _, _ => .nan

/-- Double-precision `a / b`. -/
def F64.div : F64 → F64 → F64
  | .fin a, .fin b =>
    if b = 0 then (if a = 0 then .nan else .inf (decide (a < 0))) else rnd64 (a / b)
  | .fin _, .inf _ => .fin 0
  | .inf s, .fin b => .inf (xor s (decide (b < 0)))
  | _, _ => .nan

/-- The comparison `a >= b` of two `double`s; false when an operand is a NaN. -/
def F64.ge : F64 → F64 → Bool
  | .fin a, .fin b => decide (b ≤ a)
  | .fin _, .inf s => s
  | .inf s, .fin _ => !s
  | .inf s, .inf t => !s || t
  | _, _ => false

/-! ## appconf.h, regulator.h: constants of the regulator thread -/

/-- `CHANNEL_NUM` of appconf.h. -/
abbrev CHANNEL_NUM : ℕ := 3

/-- `CRIT_DTEMP_ERR_MSG` of appconf.h. -/
def CRIT_DTEMP_ERR_MSG : ℕ := 4
/-- `CRIT_TEMP_ERR_MSG` of appconf.h. -/
def CRIT_TEMP_ERR_MSG : ℕ := 5
/-- `FUZZY_LOGIC_ERR_MSG` of appconf.h. -/
def FUZZY_LOGIC_ERR_MSG : ℕ := 6
/-- `FUZZY_REG_START_MSG` of appconf.h. -/
def FUZZY_REG_START_MSG : ℕ := 14
/-- `FUZZY_REG_STOP_MSG` of appconf.h. -/
def FUZZY_REG_STOP_MSG : ℕ := 15
/-- `FUZZY_REG_DISABLE_MSG` of appconf.h. -/
def FUZZY_REG_DISABLE_MSG : ℕ := 16

/-- `CRITICAL_TEMP` of appconf.h. -/
def CRITICAL_TEMP : ℤ := 16000
/-- `MELTING_END_TEMP` of appconf.h. -/
def MELTING_END_TEMP : ℤ := 9600
/-- `SEC_IN_A_DAY` of regulator.h. -/
def SEC_IN_A_DAY : ℤ := 86400

/-- `SENSOR_TEMP_QUANTUM` of appconf.h, the `double` literal `0.0078125`. -/
def SENSOR_TEMP_QUANTUM : F64 := rnd64 (78125 / 10000000)

/-- `CRITICAL_TG_ALPHA` of appconf.h, the `double` literal `0.1`. -/
def CRITICAL_TG_ALPHA : F64 := rnd64 (1 / 10)

/-! ## regulator.c: the thread -/

/-- The type `fuzzyreg_state_t`. -/
inductive fuzzyreg_state_t where
  | FUZZYREG_STOP
  | FUZZYREG_ACTIVE
  | FUZZYREG_DISABLE
deriving DecidableEq, Repr

/-- The type `temperature_t`: `timestamp` is a `uint32_t` (milliseconds since midnight),
`temp` and `dtemp` are `int16_t` per channel. -/
structure temperature_t where
  timestamp : ℕ
  temp : Fin CHANNEL_NUM → ℤ
  dtemp : Fin CHANNEL_NUM → ℤ
  is_sterile : Bool

/-- The static structure `fuzzyreg` together with `fuzzy_logic` (field `fl`, which also
carries `fuzzyreg.fuzzy_errors`).  The PWM driver handles, the mailbox buffer and the log
file fields (`starttime`, `logbuff`, `lognum`, `logfile_error`) are left out: the calls on
the PWM driver, the display and the log file do not write any field kept here.  `mails`
records, in order, the codes handed to `sendErrMail`. -/
structure fuzzyreg_t where
  state : fuzzyreg_state_t
  dutycycle : Fin CHANNEL_NUM → ℕ
  curr_temp : temperature_t
  start_temp : Fin CHANNEL_NUM → ℤ
  idle_time : Fin CHANNEL_NUM → ℕ
  melting_time : Fin CHANNEL_NUM → ℕ
  tg_alpha : Fin CHANNEL_NUM → F32
  fl : fuzzy_logic_t
  mails : List ℕ

/-- What `regulatorInit` leaves after `bzero (&fuzzyreg, ...)` and
`bzero (&fuzzy_logic, ...)`: state `FUZZYREG_STOP` (the enumerator `0`). -/
def regulatorInit : fuzzyreg_t :=
  { state := .FUZZYREG_STOP, dutycycle := fun _ => 0,
    curr_temp := { timestamp := 0, temp := fun _ => 0, dtemp := fun _ => 0, is_sterile := false },
    start_temp := fun _ => 0, idle_time := fun _ => 0, melting_time := fun _ => 0,
    tg_alpha := fun _ => .fin 0, fl := fuzzy_logic_zero, mails := [] }

/-- `startRoutine()` of regulator.c. -/
def startRoutine (r : fuzzyreg_t) : fuzzyreg_t :=
  if r.state = .FUZZYREG_STOP then
    { r with fl := fuzzy_logic_zero, start_temp := r.curr_temp.temp, state := .FUZZYREG_ACTIVE }
  else r

/-- `stopRoutine()` of regulator.c. -/
def stopRoutine (r : fuzzyreg_t) : fuzzyreg_t :=
  if r.state = .FUZZYREG_ACTIVE then
    { r with dutycycle := fun _ => 0, state := .FUZZYREG_STOP }
  else r

/-- `disableRoutine()`. -/
def disableRoutine (r : fuzzyreg_t) : fuzzyreg_t :=
  { r with dutycycle := fun _ => 0, state := .FUZZYREG_DISABLE }

/-- The `switch (fuzzyreg.curr_msg)` of `Threadregulator`; `msg` is `0` when the mailbox
was empty. -/
def handleMsg (r : fuzzyreg_t) (msg : ℕ) : fuzzyreg_t :=
  if msg = FUZZY_REG_START_MSG then startRoutine r
  else if msg = FUZZY_REG_STOP_MSG then stopRoutine r
  else if msg = FUZZY_REG_DISABLE_MSG then disableRoutine r
  else r

/-- Conversion of an `int` result to `int16_t`. -/
def wrap16 (z : ℤ) : ℤ := (z + 32768) % 65536 - 32768

/-- The dividend `(float)res*SENSOR_TEMP_QUANTUM` of `tg_alpha`, a `double`. -/
def tempChange (res : ℤ) : F64 := F64.mul (F32.toF64 (ofInt res)) SENSOR_TEMP_QUANTUM

/-- The divisor used when the reference time is below the current timestamp:
`((float)timestamp - (float)ref) / 1000`. -/
def elapsedSameDay (timestamp ref : ℕ) : F32 :=
  F32.div (F32.sub (ofInt timestamp) (ofInt ref)) (ofInt 1000)

/-- The divisor used when the reference time is above the current timestamp:
`(float)SEC_IN_A_DAY - (float)timestamp/1000 + (float)ref/1000`. -/
def elapsedOverMidnight (timestamp ref : ℕ) : F32 :=
  F32.add (F32.sub (ofInt SEC_IN_A_DAY) (F32.div (ofInt timestamp) (ofInt 1000)))
    (F32.div (ofInt ref) (ofInt 1000))

/-- The quotient stored in the `float` `tg_alpha[i]`. -/
def tgAlpha (res : ℤ) (elapsed : F32) : F32 :=
  F64.toF32 (F64.div (tempChange res) (F32.toF64 elapsed))

/-- The two `if`s that assign `tg_alpha[i]`, `ref < timestamp` and then
`ref > timestamp`; the second one, when taken, overwrites, and with equal times the old
value stays. -/
def updateTgAlpha (old : F32) (res : ℤ) (ref timestamp : ℕ) : F32 :=
  if ref > timestamp then tgAlpha res (elapsedOverMidnight timestamp ref)
  else (if ref < timestamp then tgAlpha res (elapsedSameDay timestamp ref) else old)

/-- The final `if (fuzzyreg.tg_alpha[i] >= CRITICAL_TG_ALPHA) sendErrMail(...)`. -/
def critCheck (r : fuzzyreg_t) (i : Fin CHANNEL_NUM) : fuzzyreg_t :=
  if F64.ge (F32.toF64 (r.tg_alpha i)) CRITICAL_TG_ALPHA then
    { r with mails := r.mails ++ [CRIT_DTEMP_ERR_MSG] }
  else r

/-- The branch of "Check tg alpha" taken while the temperature is below `MELTING_END_TEMP`
and no melting time is recorded. -/
def idleBranch (r : fuzzyreg_t) (i : Fin CHANNEL_NUM) : fuzzyreg_t :=
  let res := wrap16 (r.curr_temp.temp i - r.start_temp i)
  let r1 :=
    if res ≥ 64 ∧ r.idle_time i = 0 then
      { r with idle_time := Function.update r.idle_time i r.curr_temp.timestamp
               start_temp := Function.update r.start_temp i (r.curr_temp.temp i) }
    else r
  if r1.idle_time i ≠ 0 then
    critCheck
      { r1 with tg_alpha := Function.update r1.tg_alpha i
                  (updateTgAlpha (r1.tg_alpha i) res (r1.idle_time i) r1.curr_temp.timestamp) } i
  else r1

/-- The other branch of "Check tg alpha". -/
def meltingBranch (r : fuzzyreg_t) (i : Fin CHANNEL_NUM) : fuzzyreg_t :=
  if r.melting_time i = 0 then
    { r with melting_time := Function.update r.melting_time i r.curr_temp.timestamp
             start_temp := Function.update r.start_temp i (r.curr_temp.temp i) }
  else
    let res := wrap16 (r.curr_temp.temp i - r.start_temp i)
    critCheck
      { r with tg_alpha := Function.update r.tg_alpha i
                 (updateTgAlpha (r.tg_alpha i) res (r.melting_time i) r.curr_temp.timestamp) } i

/-- The block "Check tg alpha" of `Threadregulator` for channel `i`. -/
def checkTgAlpha (r : fuzzyreg_t) (i : Fin CHANNEL_NUM) : fuzzyreg_t :=
  if r.curr_temp.temp i < MELTING_END_TEMP ∧ r.melting_time i = 0 then idleBranch r i
  else meltingBranch r i

/-- The critical-temperature test that opens the loop body of `case FUZZYREG_ACTIVE`. -/
def critTemp (r : fuzzyreg_t) (i : Fin CHANNEL_NUM) : fuzzyreg_t :=
  if r.curr_temp.temp i ≥ CRITICAL_TEMP then { r with mails := r.mails ++ [CRIT_TEMP_ERR_MSG] }
  else r

/-- Loop body of `case FUZZYREG_ACTIVE` for channel `i`.  `none` when the conversion in
`defuzzyfication` is undefined. -/
def channelStep (r : fuzzyreg_t) (i : Fin CHANNEL_NUM) : Option fuzzyreg_t :=
  (defuzzyfication FUZZY_RULES
      (evaluation_rules (fuzzyfication_input FUZZY_RULES (r.curr_temp.temp i)
        (r.curr_temp.dtemp i) (critTemp r i).fl)).fuzzy_pwm).map
    fun duty =>
      checkTgAlpha
        { critTemp r i with
          fl := evaluation_rules (fuzzyfication_input FUZZY_RULES (r.curr_temp.temp i)
            (r.curr_temp.dtemp i) (critTemp r i).fl)
          dutycycle := Function.update (critTemp r i).dutycycle i duty } i

/-- The `if (fuzzyreg.fuzzy_errors) sendErrMail(FUZZY_LOGIC_ERR_MSG)` that ends
`case FUZZYREG_ACTIVE`. -/
def fuzzyErrorMail (r : fuzzyreg_t) : fuzzyreg_t :=
  if r.fl.fuzzy_errors ≠ 0 then { r with mails := r.mails ++ [FUZZY_LOGIC_ERR_MSG] } else r

/-- `case FUZZYREG_ACTIVE` of the `switch (fuzzyreg.state)`: the three channels in order. -/
def activeCase (r : fuzzyreg_t) : Option fuzzyreg_t :=
  ((((channelStep r 0).bind fun r0 => channelStep r0 1).bind fun r1 => channelStep r1 2)).map
    fuzzyErrorMail

/-- What the thread does with a temperature item taken from the FIFO: copy it to
`fuzzyreg.curr_temp`, then the `switch (fuzzyreg.state)`. -/
def takeSample (r : fuzzyreg_t) (sample : temperature_t) : Option fuzzyreg_t :=
  match r.state with
  | .FUZZYREG_ACTIVE => activeCase { r with curr_temp := sample }
  | _ => some { r with curr_temp := sample }

/-- One turn of the `while (TRUE)` loop of `Threadregulator`: the message fetched from
the mailbox (`0` for none), then the item fetched from the temperature FIFO, if any. -/
def cycle (r : fuzzyreg_t) (msg : ℕ) (item : Option temperature_t) : Option fuzzyreg_t :=
  match item with
  | none => some (handleMsg r msg)
  | some sample => takeSample (handleMsg r msg) sample

/-- A sequence of turns of the loop. -/
def run : fuzzyreg_t → List (ℕ × Option temperature_t) → Option fuzzyreg_t
  | r, [] => some r
  | r, (msg, item) :: rest => (cycle r msg item).bind fun r1 => run r1 rest

/-! ### Sample inputs -/

/-- A temperature item with timestamp `timestamp` milliseconds that reads `temp` counts and
change `0` on every channel. -/
def sampleAt (timestamp : ℕ) (temp : ℤ) : temperature_t :=
  { timestamp := timestamp, temp := fun _ => temp, dtemp := fun _ => 0, is_sterile := false }

end Regulator

namespace Sterilizer

/-! ## sterilizer.h / sterilizer.c

The sterilizer thread and its result list.  What the thread reads from its collaborators
in one turn of its loop (mailbox, real-time clock, system time, the temperature snapshot of
the regulator, the status of `openResultFile`) is an `Input`; what it hands to them (mails
to the regulator, strings for the file buffer and for the printer buffer, strings for the
display list) is appended to logs kept beside the state.  A string is kept as the
arguments it is formatted from. -/

/-- Reduction of an arithmetic result to `uint8_t`. -/
def u8 (n : ℕ) : ℕ := n % 256

/-- Reduction of an arithmetic result to `systime_t`, 32 bits wide. -/
def u32 (n : ℕ) : ℕ := n % 4294967296

/-- `SENSOR_INIT_END` of appconf.h. -/
def SENSOR_INIT_END : ℕ := 10
/-- `START_STERILIZER` of appconf.h. -/
def START_STERILIZER : ℕ := 11
/-- `STOP_STERILZER` of appconf.h. -/
def STOP_STERILZER : ℕ := 12
/-- `STOPERROR_STERILIZER` of appconf.h. -/
def STOPERROR_STERILIZER : ℕ := 13
/-- `PRINT_RESULT_LIST` of appconf.h. -/
def PRINT_RESULT_LIST : ℕ := 17
/-- `RESULT_LIST_SIZE` of appconf.h. -/
def RESULT_LIST_SIZE : ℕ := 61
/-- `NUM_OF_TEMP_SWING` of appconf.h. -/
def NUM_OF_TEMP_SWING : ℕ := 5

/-- The type `sterilizer_state_t`. -/
inductive sterilizer_state_t where
  | STERILIZER_INIT
  | STERILIZER_STOP
  | STERILIZER_ACTIVE
  | STERILIZER_PRINT
  | STERILIZER_SAVE
  | STERILIZER_ERROR
deriving DecidableEq, Repr

/-- The fields of `RTCDateTime` the thread formats. -/
structure RTCDateTime where
  year : ℕ
  month : ℕ
  day : ℕ
  millisecond : ℕ
deriving DecidableEq, Repr

/-- The text `str` of a `struct result_item`, as the arguments `putResultToList` formats:
the number (`result.itemnum`), the time in seconds (`timestamp / 1000`), the three
temperatures and the status (`"Sterile\n"` for `true`, `"Failure\n"` for `false`). -/
structure result_item where
  num : ℕ
  sec : ℕ
  temp : Fin Regulator.CHANNEL_NUM → ℤ
  sterile : Bool

/-- A string handed to `saveString` or `printString`: the header (`blank` when it starts
with the two line feeds of the print header), the column line, an item, the footer. -/
inductive Line where
  | header (blank : Bool) (date : RTCDateTime)
  | columns
  | item (it : result_item)
  | footer (endtime : ℕ) (success : Bool)

/-- The static structure `result`; `itemnum`, `freeitem`, `underflow` and `file_error` are
`uint8_t`, `savetime` is a `systime_t`. -/
structure result_t where
  head : List result_item
  itemnum : ℕ
  freeitem : ℕ
  underflow : ℕ
  savetime : ℕ
  starttime : RTCDateTime
  endtime : ℕ
  finalresult : Bool
  file_error : ℕ

/-- The fields of the static structure `sterilizer` that the loop reads and writes. -/
structure sterilizer_t where
  state : sterilizer_state_t
  curr_temp : Regulator.temperature_t
  num_of_swing : ℕ

/-- The thread data: `sterilizer`, `result`, the number `pool` of free objects in the
memory pool `resultlist`, and the logs of what was handed out: mails to the regulator,
strings to the file buffer, strings to the printer buffer, and the display list (`none`
for the pointer `item->str` formed from a `NULL` item). -/
structure Sys where
  sterilizer : sterilizer_t
  result : result_t
  pool : ℕ
  regulator : List ℕ
  file : List Line
  printer : List Line
  display : List (Option result_item)

/-- What one turn of the loop reads from outside. -/
structure Input where
  /-- The message fetched from the mailbox, `0` for none. -/
  msg : ℕ
  /-- What `getDate` gives `startRoutine`. -/
  date : RTCDateTime
  /-- What `chVTGetSystemTime()` gives `startRoutine`. -/
  t_start : ℕ
  /-- What `chVTGetSystemTime()` gives `case STERILIZER_ACTIVE`. -/
  now : ℕ
  /-- What `getCurrentTemp` copies out. -/
  temp : Regulator.temperature_t
  /-- What `getTime` gives `stopRoutine`. -/
  endtime : ℕ
  /-- What `openResultFile` returns. -/
  open_status : ℕ

/-- `resultListInit()` on a pool with `pool` free objects. -/
def resultListInit (pool : ℕ) : result_t × ℕ :=
  ({ head := [], itemnum := 0, freeitem := RESULT_LIST_SIZE, underflow := 0, savetime := 0,
     starttime := ⟨0, 0, 0, 0⟩, endtime := 0, finalresult := false, file_error := 0 },
   pool + RESULT_LIST_SIZE)

/-- `sterilizerInit()`: `resultListInit()` on the empty pool, then
`bzero (&sterilizer, ...)`. -/
def sterilizerInit : Sys :=
  { sterilizer :=
      { state := .STERILIZER_INIT,
        curr_temp := { timestamp := 0, temp := fun _ => 0, dtemp := fun _ => 0,
                       is_sterile := false },
        num_of_swing := 0 },
    result := (resultListInit 0).1, pool := (resultListInit 0).2,
    regulator := [], file := [], printer := [], display := [] }

/-- `putResultToList(data)` for a non-NULL `data`.  `result.freeitem` is decremented before
the result of `chPoolAlloc` is looked at; `displayResultListItem(item->str)` is called in
both branches. -/
def putResultToList (s : Sys) (data : Regulator.temperature_t) : Sys :=
  match s.pool with
  | 0 =>
    { s with
      result := { s.result with freeitem := u8 (s.result.freeitem + 255)
                                underflow := u8 (s.result.underflow + 1) }
      display := s.display ++ [none] }
  | pool + 1 =>
    { s with
      pool := pool
      result := { s.result with
                  freeitem := u8 (s.result.freeitem + 255)
                  head := s.result.head ++
                    [⟨s.result.itemnum, data.timestamp / 1000, data.temp, data.is_sterile⟩]
                  itemnum := u8 (s.result.itemnum + 1) }
      display := s.display ++
        [some ⟨s.result.itemnum, data.timestamp / 1000, data.temp, data.is_sterile⟩] }

/-- The `while (head)` loop of `freeResultList`, over the items still linked. -/
def freeLoop : List result_item → result_t → ℕ → result_t × ℕ
  | [], res, pool => ({ res with head := [] }, pool)
  | _ :: rest, res, pool =>
    freeLoop rest
      { res with head := rest, itemnum := u8 (res.itemnum + 255),
                 freeitem := u8 (res.freeitem + 1) }
      (pool + 1)

/-- `freeResultList()`. -/
def freeResultList (s : Sys) : Sys :=
  match s.result.head with
  | [] => s
  | _ :: _ =>
    { s with result := (freeLoop s.result.head s.result s.pool).1
             pool := (freeLoop s.result.head s.result s.pool).2
             display := [] }

/-- `startRoutine()` of sterilizer.c. -/
def startRoutine (s : Sys) (inp : Input) : Sys :=
  if s.sterilizer.state = .STERILIZER_STOP then
    { freeResultList s with
      result := { (freeResultList s).result with
                  starttime := inp.date, finalresult := false, savetime := inp.t_start }
      regulator := s.regulator ++ [Regulator.FUZZY_REG_START_MSG]
      sterilizer := { s.sterilizer with state := .STERILIZER_ACTIVE, num_of_swing := 0 } }
  else s

/-- `stopRoutine()` of sterilizer.c. -/
def stopRoutine (s : Sys) (inp : Input) : Sys :=
  if s.sterilizer.state = .STERILIZER_ACTIVE then
    { s with
      regulator := s.regulator ++ [Regulator.FUZZY_REG_STOP_MSG]
      result := { s.result with endtime := inp.endtime }
      sterilizer := { s.sterilizer with state := .STERILIZER_SAVE } }
  else s

/-- `stopErrorRoutine()`. -/
def stopErrorRoutine (s : Sys) : Sys :=
  { s with sterilizer := { s.sterilizer with state := .STERILIZER_ERROR } }

/-- The `switch (sterilizer.curr_massage)` of `Threadsterilizer`. -/
def handleMsg (s : Sys) (inp : Input) : Sys :=
  if inp.msg = SENSOR_INIT_END then
    (if s.sterilizer.state = .STERILIZER_INIT then
      { s with sterilizer := { s.sterilizer with state := .STERILIZER_STOP } }
     else s)
  else if inp.msg = START_STERILIZER then startRoutine s inp
  else if inp.msg = STOP_STERILZER then stopRoutine s inp
  else if inp.msg = STOPERROR_STERILIZER then stopErrorRoutine s
  else if inp.msg = PRINT_RESULT_LIST then
    (if s.sterilizer.state = .STERILIZER_STOP then
      { s with sterilizer := { s.sterilizer with state := .STERILIZER_PRINT } }
     else s)
  else s

/-- The assignment `result.savetime = curr_time + S2ST(STERLIZER_SAVE_INTERVAL_S)`;
`interval` is `S2ST(STERLIZER_SAVE_INTERVAL_S)`, the save interval in system ticks. -/
def rearm (interval : ℕ) (s : Sys) (inp : Input) : Sys :=
  { s with result := { s.result with savetime := u32 (inp.now + interval) } }

/-- The closing `if (result.itemnum == RESULT_LIST_SIZE)` of `case STERILIZER_ACTIVE`. -/
def fullCheck (s : Sys) (inp : Input) : Sys :=
  if s.result.itemnum = RESULT_LIST_SIZE then
    stopRoutine { s with result := { s.result with finalresult := true } } inp
  else s

/-- What `case STERILIZER_ACTIVE` does at save time, after `getCurrentTemp`. -/
def sampleNow (interval : ℕ) (s : Sys) (inp : Input) : Sys :=
  if s.sterilizer.curr_temp.is_sterile then
    rearm interval (putResultToList s s.sterilizer.curr_temp) inp
  else if !s.result.head.isEmpty then
    (if s.sterilizer.num_of_swing ≤ NUM_OF_TEMP_SWING then
      rearm interval
        (freeResultList
          { s with sterilizer := { s.sterilizer with
                                   num_of_swing := u8 (s.sterilizer.num_of_swing + 1) } })
        inp
     else
      stopRoutine
        { putResultToList s s.sterilizer.curr_temp with
          result := { (putResultToList s s.sterilizer.curr_temp).result with
                      finalresult := false } }
        inp)
  else fullCheck (rearm interval s inp) inp

/-- `case STERILIZER_ACTIVE` of the `switch (sterilizer.state)`. -/
def activeCase (interval : ℕ) (s : Sys) (inp : Input) : Sys :=
  if inp.now ≥ s.result.savetime then
    sampleNow interval { s with sterilizer := { s.sterilizer with curr_temp := inp.temp } } inp
  else fullCheck s inp

/-- The strings of a report, in the order they are handed out. -/
def report (blank : Bool) (res : result_t) : List Line :=
  [Line.header blank res.starttime, Line.columns] ++ res.head.map Line.item ++
    [Line.footer res.endtime res.finalresult]

/-- `case STERILIZER_SAVE`. -/
def saveCase (s : Sys) (inp : Input) : Sys :=
  if !s.result.head.isEmpty then
    (if u8 inp.open_status ≠ 0 then
      { s with result := { s.result with file_error := u8 inp.open_status }
               sterilizer := { s.sterilizer with state := .STERILIZER_STOP } }
     else
      { s with result := { s.result with file_error := u8 inp.open_status }
               file := s.file ++ report false s.result
               sterilizer := { s.sterilizer with state := .STERILIZER_STOP } })
  else { s with sterilizer := { s.sterilizer with state := .STERILIZER_STOP } }

/-- `case STERILIZER_PRINT`. -/
def printCase (s : Sys) : Sys :=
  if !s.result.head.isEmpty then
    { s with printer := s.printer ++ report true s.result
             sterilizer := { s.sterilizer with state := .STERILIZER_STOP } }
  else { s with sterilizer := { s.sterilizer with state := .STERILIZER_STOP } }

/-- The `switch (sterilizer.state)` of `Threadsterilizer`. -/
def stateCase (interval : ℕ) (s : Sys) (inp : Input) : Sys :=
  match s.sterilizer.state with
  | .STERILIZER_ACTIVE => activeCase interval s inp
  | .STERILIZER_SAVE => saveCase s inp
  | .STERILIZER_PRINT => printCase s
  | _ => s

/-- One turn of the `while (TRUE)` loop of `Threadsterilizer`. -/
def cycle (interval : ℕ) (s : Sys) (inp : Input) : Sys :=
  stateCase interval (handleMsg s inp) inp

/-- A sequence of turns of the loop. -/
def run (interval : ℕ) (s : Sys) (inputs : List Input) : Sys :=
  inputs.foldl (cycle interval) s

/-- Every turn of the sequence takes a sample: there is no message and the system time
has reached `result.savetime`. -/
def sampling (interval : ℕ) : Sys → List Input → Bool
  | _, [] => true
  | s, inp :: rest =>
    decide (inp.msg = 0) && decide (s.result.savetime ≤ inp.now) &&
      sampling interval (cycle interval s inp) rest

/-! ### The text of the strings handed out

`chsnprintf` writes at most `sizeof(linebuff) - 1 = 49` characters.  Every number the
thread formats is non-negative, so the conversion `%d` gives the decimal digits and `%02d`
the decimal digits behind a `0` when there is one digit only.  The text `str` of a result
item was formatted by `putResultToList`; it is handed out as stored and is a parameter
here. -/

/-- The line feed character. -/
def LF : Char := Char.ofNat 10

/-- The tabulator character. -/
def TAB : Char := Char.ofNat 9

/-- The conversion `%d` of a non-negative number. -/
def dec (n : ℕ) : List Char := Nat.toDigits 10 n

/-- The conversion `%02d` of a non-negative number. -/
def dec2 (n : ℕ) : List Char := if n < 10 then '0' :: dec n else dec n

/-- The conversions `%02d:%02d:%02d` of `sec/3600`, `(sec%3600/60)`, `(sec%3600)%60`. -/
def clock (sec : ℕ) : List Char :=
  dec2 (sec / 3600) ++ [':'] ++ dec2 (sec % 3600 / 60) ++ [':'] ++ dec2 (sec % 3600 % 60)

/-- The format `Date: %d.%02d.%02d\nStart: %02d:%02d:%02d\n` on `year+1980`, `month`, `day`
and the clock of `sec = millisecond / 1000`. -/
def headerText (date : RTCDateTime) : List Char :=
  ['D', 'a', 't', 'e', ':', ' '] ++ dec (date.year + 1980) ++ ['.'] ++ dec2 date.month ++
    ['.'] ++ dec2 date.day ++ [LF, 'S', 't', 'a', 'r', 't', ':', ' '] ++
    clock (date.millisecond / 1000) ++ [LF]

/-- The column line `Nr.\tTime\t\tCH0\tCH1\tCH2\tStatus\n`. -/
def columnsText : List Char :=
  ['N', 'r', '.', TAB, 'T', 'i', 'm', 'e', TAB, TAB, 'C', 'H', '0', TAB, 'C', 'H', '1', TAB,
   'C', 'H', '2', TAB, 'S', 't', 'a', 't', 'u', 's', LF]

/-- The formats `End: %02d:%02d:%02d\nResult: SUCCESS\n` and
`End: %02d:%02d:%02d\nResult: FAILURE\n` on the clock of `sec = endtime / 1000`. -/
def footerText (endtime : ℕ) (success : Bool) : List Char :=
  ['E', 'n', 'd', ':', ' '] ++ clock (endtime / 1000) ++
    [LF, 'R', 'e', 's', 'u', 'l', 't', ':', ' '] ++
    (if success then ['S', 'U', 'C', 'C', 'E', 'S', 'S'] else ['F', 'A', 'I', 'L', 'U', 'R', 'E'])
    ++ [LF]

/-- The characters of a string handed to `saveString` or `printString`; the print header
is the format of the save header behind two line feeds. -/
def Line.text (str : result_item → List Char) : Line → List Char
  | .header blank date => ((if blank then [LF, LF] else []) ++ headerText date).take 49
  | .columns => columnsText.take 49
  | .item it => str it
  | .footer endtime success => (footerText endtime success).take 49

/-! ### Calls on the result list -/

/-- One call on the result list: `putResultToList(data)` with a non-NULL `data`, or
`freeResultList()`. -/
inductive ListCall where
  | put (data : Regulator.temperature_t)
  | free

/-- Effect of one call on the result list. -/
def listStep (s : Sys) : ListCall → Sys
  | .put data => putResultToList s data
  | .free => freeResultList s

/-- The thread data after a sequence of calls on the result list. -/
def listRun (s : Sys) (calls : List ListCall) : Sys := calls.foldl listStep s

/-- Every `putResultToList` of the sequence finds a free object in the pool: the sequence
stays within the capacity of the list. -/
def withinCapacity : Sys → List ListCall → Bool
  | _, [] => true
  | s, .put data :: cs => decide (s.pool ≠ 0) && withinCapacity (putResultToList s data) cs
  | s, .free :: cs => withinCapacity (freeResultList s) cs

/-- The facts about the result list that every sequence of calls keeps: the pool objects
not in the list number `RESULT_LIST_SIZE` less its length, `itemnum` is its length, and
the items are numbered in order from `0`. -/
def ListInv (s : Sys) : Prop :=
  s.pool + s.result.head.length = RESULT_LIST_SIZE ∧
  s.result.itemnum = s.result.head.length ∧
  s.result.head.map (fun it : result_item => it.num) = List.range s.result.head.length

/-! ### Sample inputs -/

/-- A turn of the loop with the given message, system time and sterile flag; every channel
reads 115 degrees (14720) at timestamp `now` milliseconds. -/
def sampleInput (msg now : ℕ) (sterile : Bool) : Input :=
  { msg := msg, date := ⟨37, 1, 1, 0⟩, t_start := now, now := now,
    temp := { timestamp := now, temp := fun _ => 14720, dtemp := fun _ => 0,
              is_sterile := sterile },
    endtime := now, open_status := 0 }

/-- The thread data after `sterilizerInit`, the message `SENSOR_INIT_END` and a Start
message handled at system time `0`. -/
def started : Sys :=
  handleMsg (handleMsg sterilizerInit (sampleInput SENSOR_INIT_END 0 false))
    (sampleInput START_STERILIZER 0 false)

/-- A sequence of `n` swings from system time `0` on, one sample per 600000 ticks: a
sterile sample, then a non-sterile one, `n` times. -/
def swings (n : ℕ) : List Input :=
  (List.range (2 * n)).map fun k => sampleInput 0 (600000 * k) (k % 2 == 0)

end Sterilizer

namespace FileBuffer

open InnerBuffer

/-! ## cardhandler.h / cardhandler.c, sterilizer.c: the result file buffer

The inner buffer `resfilequeue` with the memory its items refer to.  Besides its queue
link a `struct inner_buffer_item` has the field `data`, which `innerBufferInit` points at
an object of the memory pool, here a `struct fbuff_item` of the array `resfilebuff`; an
object is named by its index in the array.  The buffer functions write the queue links
and the counters of the buffer object only: they never write the field `data` nor the
object it points at. -/

/-- `FILE_BUFFER_ITEM_SIZE` of appconf.h. -/
def FILE_BUFFER_ITEM_SIZE : ℕ := 50

/-- `FILE_BUFFER_SIZE` of appconf.h. -/
def FILE_BUFFER_SIZE : ℕ := 10

/-- `struct fbuff_item` of cardhandler.h: the bytes `fbuff[FILE_BUFFER_ITEM_SIZE]` and the
`uint8_t` `element_num`. -/
structure fbuff_item where
  fbuff : List ℕ
  element_num : ℕ
deriving DecidableEq, Repr

/-- The buffer `resfilequeue`, the field `data` of every item (`none` for `NULL`), the
objects of `resfilebuff`, and the bytes handed to `f_write` so far. -/
structure Store where
  queue : inner_buffer_t
  data : Item → Option ℕ
  pool : ℕ → fbuff_item
  file : List ℕ

/-- The store after `innerBufferInit(&resfilequeue, &resfilepool, resfilebuff,
FILE_BUFFER_SIZE)` with all allocations succeeding.  Which object `chPoolAlloc` gives to
which item, and what the objects hold then, is left open: item `i` gets object `addr i`,
and the objects are `pool`. -/
def Store.init (addr : Item → ℕ) (pool : ℕ → fbuff_item) : Store :=
  { queue := innerBufferInit zeroed FILE_BUFFER_SIZE FILE_BUFFER_SIZE FILE_BUFFER_SIZE
    data := fun i => if i < FILE_BUFFER_SIZE then some (addr i) else none
    pool := pool
    file := [] }

/-- `saveString(str, size)` of sterilizer.c with `size = strlen(str)`: `none` when the call
does not come back with the string posted (no empty item, so that it sleeps and asks
again, or a `NULL` field `data`).  `dmaFillBuffer` copies `size` bytes to the front of
`fbuff`. -/
def saveString (st : Store) (str : List ℕ) : Option Store :=
  if str.length > FILE_BUFFER_ITEM_SIZE then some st
  else
    match getEmptyInnerBufferItem st.queue with
    | (_, none) => none
    | (q, some item) =>
      match st.data item with
      | none => none
      | some a =>
        some { st with
          pool := Function.update st.pool a
            { fbuff := str ++ (st.pool a).fbuff.drop str.length
              element_num := Sterilizer.u8 str.length }
          queue := postFullInnerBufferItem q (some item) }

/-- A sequence of `saveString` calls. -/
def saveStrings : Store → List (List ℕ) → Option Store
  | st, [] => some st
  | st, str :: rest => (saveString st str).bind fun st1 => saveStrings st1 rest

/-- The block of `Threadcardhandler` that writes an item of the result file buffer
(`if(!isInnerBufferEmpty(&resfilequeue)){...}`): `f_write` of the first `element_num`
bytes of `fbuff`, `bzero(buffer->fbuff, FILE_BUFFER_ITEM_SIZE)`, then
`releaseEmptyInnerBufferItem`.  `none` when the field `data` of the item is `NULL`. -/
def writeResultItem (st : Store) : Option Store :=
  match st.queue.fullhead with
  | [] => some st
  | _ :: _ =>
    match getFullInnerBufferItem st.queue with
    | (_, none) => some st
    | (q, some item) =>
      match st.data item with
      | none => none
      | some a =>
        some { st with
          file := st.file ++ (st.pool a).fbuff.take (st.pool a).element_num
          pool := Function.update st.pool a
            { st.pool a with fbuff := List.replicate FILE_BUFFER_ITEM_SIZE 0 }
          queue := releaseEmptyInnerBufferItem q (some item) }

end FileBuffer

namespace TempFIFO

open InnerBuffer

/-! ## regulator.c: the temperature FIFO

The inner buffer `tempFIFO`; the objects of its pool are the `temperature_t` of the array
`tempitems`. -/

/-- The buffer `tempFIFO`, the field `data` of every item (`none` for `NULL`) and the
objects of `tempitems`. -/
structure Store where
  queue : inner_buffer_t
  data : Item → Option ℕ
  pool : ℕ → Regulator.temperature_t

/-- What `Threadregulator` does with the temperature FIFO in one turn of its loop:
`getFullInnerBufferItem`, the copy of `*item->data` to `fuzzyreg.curr_temp` (returned
here), `bzero(item, sizeof(temperature_t))`, `releaseEmptyInnerBufferItem`.  The `bzero`
is applied to the item, not to the object `item->data` points at: a
`struct inner_buffer_item` is two pointers, not larger than a `temperature_t`, so all of
it is zeroed and its field `data` becomes `NULL`; the bytes written behind the item are
not part of this model.  `none` when the field `data` of the item is `NULL` already. -/
def takeTempItem (st : Store) : Option (Store × Option Regulator.temperature_t) :=
  match getFullInnerBufferItem st.queue with
  | (_, none) => some (st, none)
  | (q, some item) =>
    match st.data item with
    | none => none
    | some a =>
      some ({ st with data := Function.update st.data item none
                      queue := releaseEmptyInnerBufferItem q (some item) },
            some (st.pool a))

end TempFIFO

namespace InnerBuffer.Linked

/-! ## inner_buffer.c over the links of the queues

The lists of the model above stand for the two `STAILQ` queues as long as an item is linked
into at most one queue.  Here the queues are kept as the C macros of `<sys/queue.h>` keep
them: each item has one link `entries.stqe_next`, a queue head has `stqh_first` and
`stqh_last`, and an insertion writes the link of the inserted item whether or not that
item is linked already.  The address of a link is the item it belongs to; the address of
the `stqh_first` field of a head, which `stqh_last` holds while the queue is empty, is
`none`. -/

/-- A `STAILQ_HEAD`: `stqh_first` (`none` for `NULL`) and `stqh_last`, the address of the link
that the next insertion at the tail writes: `none` for the `stqh_first` field of this
head, `some x` for the `stqe_next` field of item `x`. -/
structure stailq_head where
  stqh_first : Option Item
  stqh_last : Option Item
deriving DecidableEq, Repr

/-- The links `entries.stqe_next` of the items (`none` for `NULL`). -/
abbrev Links := Item → Option Item

/-- `STAILQ_INIT(head)`: `stqh_first = NULL; stqh_last = &stqh_first`. -/
def STAILQ_INIT : stailq_head := { stqh_first := none, stqh_last := none }

/-- `STAILQ_INSERT_HEAD(head, elm, entries)`:
`if ((elm->next = head->stqh_first) == NULL) head->stqh_last = &elm->next;
head->stqh_first = elm`. -/
def STAILQ_INSERT_HEAD (head : stailq_head) (next : Links) (elm : Item) :
    stailq_head × Links :=
  ({ stqh_first := some elm
     stqh_last := if head.stqh_first = none then some elm else head.stqh_last },
   Function.update next elm head.stqh_first)

/-- `STAILQ_INSERT_TAIL(head, elm, entries)`:
`elm->next = NULL; *head->stqh_last = elm; head->stqh_last = &elm->next`. -/
def STAILQ_INSERT_TAIL (head : stailq_head) (next : Links) (elm : Item) :
    stailq_head × Links :=
  match head.stqh_last with
  | none => ({ stqh_first := some elm, stqh_last := some elm }, Function.update next elm none)
  | some x =>
    ({ head with stqh_last := some elm },
     Function.update (Function.update next elm none) x (some elm))

/-- `STAILQ_REMOVE_HEAD(head, entries)`:
`if ((head->stqh_first = head->stqh_first->next) == NULL)
head->stqh_last = &head->stqh_first`.  The callers test `STAILQ_EMPTY` first, so the
case of a `NULL` `stqh_first` is never evaluated. -/
def STAILQ_REMOVE_HEAD (head : stailq_head) (next : Links) : stailq_head :=
  match head.stqh_first with
  | none => head
  | some x =>
    match next x with
    | none => { stqh_first := none, stqh_last := none }
    | some y => { head with stqh_first := some y }

/-- The branch `if (STAILQ_EMPTY(head)) STAILQ_INSERT_HEAD(...) else STAILQ_INSERT_TAIL(...)`
that `innerBufferInit`, `postFullInnerBufferItem` and `releaseEmptyInnerBufferItem`
share. -/
def insert (head : stailq_head) (next : Links) (elm : Item) : stailq_head × Links :=
  if head.stqh_first = none then STAILQ_INSERT_HEAD head next elm
  else STAILQ_INSERT_TAIL head next elm

/-- The object `inner_buffer_t` with its two queue heads, and the links of the items. -/
structure inner_buffer_t where
  emptyhead : stailq_head
  fullhead : stailq_head
  next : Links
  buffersize : Nat
  itemnum : Nat
  freeitem : Nat
  underflow : Nat
  overflow : Nat
  postoverflow : Nat
  malloc_error : Bool
  pool_error : Bool

/-- What `bzero(bfp, sizeof(inner_buffer_t))` and the two `STAILQ_INIT` leave; no item
is allocated yet, the links are those of items zeroed at their allocation. -/
def zeroed : inner_buffer_t :=
  { emptyhead := STAILQ_INIT, fullhead := STAILQ_INIT, next := fun _ => none,
    buffersize := 0, itemnum := 0, freeitem := 0,
    underflow := 0, overflow := 0, postoverflow := 0,
    malloc_error := false, pool_error := false }

/-- The `for` loop of `innerBufferInit`; `core`, `pool` and the addresses of the items as in
`InnerBuffer.initLoop`.  `bzero(buffer, ...)` clears the link of the new item. -/
def initLoop (core pool : Nat) : Nat → inner_buffer_t → inner_buffer_t
  | 0, bf => bf
  | fuel + 1, bf =>
    if bf.freeitem < bf.buffersize then
      if core ≤ bf.freeitem then { bf with malloc_error := true }
      else if pool ≤ bf.freeitem then { bf with pool_error := true }
      else
        initLoop core pool fuel
          { bf with
            emptyhead :=
              (insert bf.emptyhead (Function.update bf.next bf.freeitem none) bf.freeitem).1
            next :=
              (insert bf.emptyhead (Function.update bf.next bf.freeitem none) bf.freeitem).2
            freeitem := u16 (bf.freeitem + 1) }
    else bf

/-- `innerBufferInit(bfp, mempool, items, buffersize)` with non-NULL pointers. -/
def innerBufferInit (bf : inner_buffer_t) (core pool buffersize : Nat) : inner_buffer_t :=
  if buffersize = 0 then bf
  else initLoop core pool buffersize { zeroed with buffersize := buffersize }

/-- `getEmptyInnerBufferItem`. -/
def getEmptyInnerBufferItem (bf : inner_buffer_t) : inner_buffer_t × Option Item :=
  match bf.emptyhead.stqh_first with
  | none => ({ bf with underflow := u16 (bf.underflow + 1) }, none)
  | some item =>
    ({ bf with emptyhead := STAILQ_REMOVE_HEAD bf.emptyhead bf.next
               freeitem := u16 (bf.freeitem + 65535) }, some item)

/-- `postFullInnerBufferItem`. -/
def postFullInnerBufferItem (bf : inner_buffer_t) : Option Item → inner_buffer_t
  | none => bf
  | some item =>
    if bf.itemnum = bf.buffersize then { bf with postoverflow := u16 (bf.postoverflow + 1) }
    else
      { bf with fullhead := (insert bf.fullhead bf.next item).1
                next := (insert bf.fullhead bf.next item).2
                itemnum := u16 (bf.itemnum + 1) }

/-- `getFullInnerBufferItem`. -/
def getFullInnerBufferItem (bf : inner_buffer_t) : inner_buffer_t × Option Item :=
  match bf.fullhead.stqh_first with
  | none => (bf, none)
  | some item =>
    ({ bf with fullhead := STAILQ_REMOVE_HEAD bf.fullhead bf.next
               itemnum := u16 (bf.itemnum + 65535) }, some item)

/-- `releaseEmptyInnerBufferItem`. -/
def releaseEmptyInnerBufferItem (bf : inner_buffer_t) : Option Item → inner_buffer_t
  | none => bf
  | some item =>
    if bf.freeitem = bf.buffersize then { bf with overflow := u16 (bf.overflow + 1) }
    else
      { bf with emptyhead := (insert bf.emptyhead bf.next item).1
                next := (insert bf.emptyhead bf.next item).2
                freeitem := u16 (bf.freeitem + 1) }

/-! ### Callers -/

/-- A buffer together with the item pointers that are in the hands of callers. -/
structure Sys where
  bf : inner_buffer_t
  held : List Item

/-- Effect of one call, as `InnerBuffer.Sys.step`. -/
def Sys.step (s : Sys) : Call → Sys
  | .getEmpty =>
    { bf := (getEmptyInnerBufferItem s.bf).1, held := take s.held (getEmptyInnerBufferItem s.bf).2 }
  | .postFull item =>
    { bf := postFullInnerBufferItem s.bf (some item)
      held := if s.bf.itemnum = s.bf.buffersize then s.held else s.held.erase item }
  | .getFull =>
    { bf := (getFullInnerBufferItem s.bf).1, held := take s.held (getFullInnerBufferItem s.bf).2 }
  | .releaseEmpty item =>
    { bf := releaseEmptyInnerBufferItem s.bf (some item)
      held := if s.bf.freeitem = s.bf.buffersize then s.held else s.held.erase item }

/-- The state after a sequence of calls. -/
def Sys.run (s : Sys) (calls : List Call) : Sys := calls.foldl Sys.step s

/-- A call is well-formed when `postFull` / `releaseEmpty` are given an item the caller
holds. -/
def Sys.ok (s : Sys) : Call → Bool
  | .postFull item => decide (item ∈ s.held)
  | .releaseEmpty item => decide (item ∈ s.held)
  | _ => true

/-- Every call of the sequence is well-formed in the state it is made in. -/
def Sys.valid : Sys → List Call → Bool
  | _, [] => true
  | s, c :: cs => s.ok c && Sys.valid (s.step c) cs

/-- The system right after `innerBufferInit`: nothing is held. -/
def Sys.init (bf : inner_buffer_t) (core pool buffersize : Nat) : Sys :=
  { bf := innerBufferInit bf core pool buffersize, held := [] }

/-- The items that the `getFullInnerBufferItem` calls of a sequence return, in the order of
the calls. -/
def Sys.taken : Sys → List Call → List Item
  | _, [] => []
  | s, .getFull :: cs =>
    (match (getFullInnerBufferItem s.bf).2 with
      | none => []
      | some item => [item]) ++ Sys.taken (s.step .getFull) cs
  | s, c :: cs => Sys.taken (s.step c) cs

/-- The items that the `postFullInnerBufferItem` calls of a sequence link into the filled
queue, in the order of the calls. -/
def Sys.posted : Sys → List Call → List Item
  | _, [] => []
  | s, .postFull item :: cs =>
    (if s.bf.itemnum = s.bf.buffersize then [] else [item]) ++
      Sys.posted (s.step (.postFull item)) cs
  | s, c :: cs => Sys.posted (s.step c) cs

/-! ### The list a linked queue stands for -/

/-- The links lead from `p` through exactly the items of the list, and end in `NULL`. -/
def Chain (next : Links) : Option Item → List Item → Prop
  | p, [] => p = none
  | p, x :: xs => p = some x ∧ Chain next (next x) xs

/-- The head and the links hold the queue with the items of the list, in order. -/
def Queue (head : stailq_head) (next : Links) (l : List Item) : Prop :=
  Chain next head.stqh_first l ∧ head.stqh_last = l.getLast?

/-- The linked buffer and the list buffer hold the same queues and the same counters. -/
def Rep (p : inner_buffer_t) (l : InnerBuffer.inner_buffer_t) : Prop :=
  Queue p.emptyhead p.next l.emptyhead ∧ Queue p.fullhead p.next l.fullhead ∧
  p.buffersize = l.buffersize ∧ p.itemnum = l.itemnum ∧ p.freeitem = l.freeitem ∧
  p.underflow = l.underflow ∧ p.overflow = l.overflow ∧ p.postoverflow = l.postoverflow ∧
  p.malloc_error = l.malloc_error ∧ p.pool_error = l.pool_error

end InnerBuffer.Linked

/-! # Properties -/

namespace InnerBuffer

/-! ## Initialisation -/

theorem initLoop_spec (core pool N : Nat) (hN : N < 65536) (hc : N ≤ core) (hp : N ≤ pool) :
    ∀ (fuel k : Nat) (bf : inner_buffer_t), bf.buffersize = N → bf.freeitem = k →
      bf.emptyhead = List.range k → k ≤ N → N - k ≤ fuel →
      initLoop core pool fuel bf = { bf with emptyhead := List.range N, freeitem := N } := by
  intro fuel
  induction fuel with
  | zero =>
    intro k bf hb hf he hk hfu
    have hkN : k = N := by omega
    subst hkN
    cases bf
    simp_all [initLoop]
  | succ fuel ih =>
    intro k bf hb hf he hk hfu
    obtain ⟨eh, fh, bs, inum, fi, uf, ovf, pof, me, pe⟩ := bf
    simp only at hb hf he
    subst hb hf he
    by_cases hlt : fi < bs
    · have hu : u16 (fi + 1) = fi + 1 := by unfold u16; omega
      have h1 : ¬ core ≤ fi := by omega
      have h2 : ¬ pool ≤ fi := by omega
      rw [initLoop, if_pos hlt, if_neg h1, if_neg h2]
      rw [ih (fi + 1) _ rfl (by simp [hu]) (by simp [List.range_succ]) (by omega) (by omega)]
    · have hkN : fi = bs := by omega
      subst hkN
      rw [initLoop, if_neg (by simp)]

theorem innerBufferInit_spec (bf : inner_buffer_t) (core pool N : Nat) (h0 : 0 < N)
    (hN : N < 65536) (hc : N ≤ core) (hp : N ≤ pool) :
    innerBufferInit bf core pool N =
      { zeroed with buffersize := N, emptyhead := List.range N, freeitem := N } := by
  unfold innerBufferInit
  rw [if_neg (by omega)]
  rw [initLoop_spec core pool N hN hc hp N 0 _ rfl rfl rfl (by omega) (by omega)]

theorem inv_init (bf : inner_buffer_t) (core pool N : Nat) (h0 : 0 < N)
    (hN : N < 65536) (hc : N ≤ core) (hp : N ≤ pool) :
    Inv N (Sys.init bf core pool N) := by
  unfold Sys.init
  rw [innerBufferInit_spec bf core pool N h0 hN hc hp]
  simp [Inv, zeroed]

/-! ## Preservation of the invariant -/

theorem inv_length (N : Nat) (s : Sys) (hi : Inv N s) :
    s.bf.emptyhead.length + s.bf.fullhead.length + s.held.length = N := by
  obtain ⟨_, hsum, hfree, hnum, _⟩ := hi
  omega

theorem inv_step (N : Nat) (hN : N < 65536) (s : Sys) (c : Call) (hi : Inv N s)
    (hok : s.ok c = true) : Inv N (s.step c) := by
  obtain ⟨hb, hsum, hfree, hnum, hperm⟩ := hi
  obtain ⟨⟨eh, fh, bs, inum, fi, uf, ovf, pof, me, pe⟩, held⟩ := s
  simp only at hb hsum hfree hnum hperm
  subst hb hfree hnum
  cases c with
  | getEmpty =>
    cases eh with
    | nil => exact ⟨rfl, hsum, rfl, rfl, hperm⟩
    | cons item rest =>
      simp only [Sys.step, getEmptyInnerBufferItem, take]
      simp only [List.length_cons] at hsum
      have hu : u16 (rest.length + 1 + 65535) = rest.length := by unfold u16; omega
      refine ⟨rfl, ?_, ?_, rfl, ?_⟩
      · simp only [List.length_cons, List.length_cons, hu]; omega
      · simp only [List.length_cons, hu]
      · exact List.perm_middle.trans hperm
  | getFull =>
    cases fh with
    | nil => exact ⟨rfl, hsum, rfl, rfl, hperm⟩
    | cons item rest =>
      simp only [Sys.step, getFullInnerBufferItem, take]
      simp only [List.length_cons] at hsum
      have hu : u16 (rest.length + 1 + 65535) = rest.length := by unfold u16; omega
      refine ⟨rfl, ?_, rfl, ?_, ?_⟩
      · simp only [List.length_cons, hu]; omega
      · simp only [List.length_cons, hu]
      · refine List.Perm.trans ?_ hperm
        simp only [List.append_assoc, List.cons_append]
        exact List.Perm.append_left _ List.perm_middle
  | postFull item =>
    have hmem : item ∈ held := by simpa [Sys.ok] using hok
    have hne : ¬ fh.length = bs := by
      intro h
      have : 0 < held.length := List.length_pos_of_mem hmem
      omega
    have hu : u16 (fh.length + 1) = fh.length + 1 := by
      have : 0 < held.length := List.length_pos_of_mem hmem
      unfold u16; omega
    simp only [Sys.step, postFullInnerBufferItem, if_neg hne]
    have hlen : (held.erase item).length + 1 = held.length := by
      rw [List.length_erase_of_mem hmem]
      have : 0 < held.length := List.length_pos_of_mem hmem
      omega
    refine ⟨rfl, ?_, rfl, ?_, ?_⟩
    · simp only [hu]; omega
    · simp [hu]
    · refine List.Perm.trans ?_ hperm
      simp only [List.append_assoc, List.singleton_append]
      exact List.Perm.append_left _ (List.Perm.append_left _ (List.perm_cons_erase hmem).symm)
  | releaseEmpty item =>
    have hmem : item ∈ held := by simpa [Sys.ok] using hok
    have hpos : 0 < held.length := List.length_pos_of_mem hmem
    have hne : ¬ eh.length = bs := by omega
    have hu : u16 (eh.length + 1) = eh.length + 1 := by unfold u16; omega
    simp only [Sys.step, releaseEmptyInnerBufferItem, if_neg hne]
    have hlen : (held.erase item).length + 1 = held.length := by
      rw [List.length_erase_of_mem hmem]; omega
    refine ⟨rfl, ?_, ?_, rfl, ?_⟩
    · simp only [hu]; omega
    · simp [hu]
    · refine List.Perm.trans ?_ hperm
      simp only [List.append_assoc, List.singleton_append]
      refine List.Perm.append_left _ ?_
      refine List.perm_middle.symm.trans ?_
      exact List.Perm.append_left _ (List.perm_cons_erase hmem).symm

theorem inv_run (N : Nat) (hN : N < 65536) :
    ∀ (calls : List Call) (s : Sys), Inv N s → s.valid calls = true → Inv N (s.run calls) := by
  intro calls
  induction calls with
  | nil => intro s hi _; exact hi
  | cons c cs ih =>
    intro s hi hv
    simp only [Sys.valid, Bool.and_eq_true] at hv
    exact ih (s.step c) (inv_step N hN s c hi hv.1) hv.2

theorem valid_take : ∀ (calls : List Call) (s : Sys) (k : Nat),
    s.valid calls = true → s.valid (calls.take k) = true := by
  intro calls
  induction calls with
  | nil => intro s k h; simp [Sys.valid]
  | cons c cs ih =>
    intro s k h
    cases k with
    | zero => simp [Sys.valid]
    | succ k =>
      simp only [Sys.valid, Bool.and_eq_true, List.take_succ_cons] at h ⊢
      exact ⟨h.1, ih _ k h.2⟩

theorem count_of_inv (N : Nat) (s : Sys) (hi : Inv N s) (item : Item) :
    s.bf.emptyhead.count item + s.bf.fullhead.count item + s.held.count item =
      if item < N then 1 else 0 := by
  have h := hi.2.2.2.2.count_eq item
  rw [List.count_append, List.count_append] at h
  rw [h]
  by_cases hlt : item < N
  · rw [if_pos hlt]
    exact List.count_eq_one_of_mem (List.nodup_range N) (List.mem_range.mpr hlt)
  · rw [if_neg hlt]
    exact List.count_eq_zero_of_not_mem (fun hm => hlt (List.mem_range.mp hm))

/-- C1: a buffer initialised with capacity `N` (`0 < N`, all `N` allocations of
`innerBufferInit` succeeding) keeps, after each call of every sequence of `getEmpty` /
`postFull` / `getFull` / `releaseEmpty` calls in which `postFull` and `releaseEmpty` are
only given items the caller holds: `freeitem + itemnum + held = N`, `freeitem` is the
length of the empty queue, `itemnum` is the length of the filled queue, and each of the
`N` items occurs exactly once in the two queues and the callers' hands together. -/
theorem inner_buffer_invariant (bf : inner_buffer_t) (core pool N : Nat) (calls : List Call)
    (h0 : 0 < N) (hN : N < 65536) (hc : N ≤ core) (hp : N ≤ pool)
    (hv : (Sys.init bf core pool N).valid calls = true) (k : Nat) :
    ((Sys.init bf core pool N).run (calls.take k)).bf.freeitem
        + ((Sys.init bf core pool N).run (calls.take k)).bf.itemnum
        + ((Sys.init bf core pool N).run (calls.take k)).held.length = N ∧
    ((Sys.init bf core pool N).run (calls.take k)).bf.freeitem
        = ((Sys.init bf core pool N).run (calls.take k)).bf.emptyhead.length ∧
    ((Sys.init bf core pool N).run (calls.take k)).bf.itemnum
        = ((Sys.init bf core pool N).run (calls.take k)).bf.fullhead.length ∧
    ∀ item : Item,
      ((Sys.init bf core pool N).run (calls.take k)).bf.emptyhead.count item
        + ((Sys.init bf core pool N).run (calls.take k)).bf.fullhead.count item
        + ((Sys.init bf core pool N).run (calls.take k)).held.count item
        = if item < N then 1 else 0 := by
  have hi : Inv N ((Sys.init bf core pool N).run (calls.take k)) :=
    inv_run N hN _ _ (inv_init bf core pool N h0 hN hc hp) (valid_take calls _ k hv)
  exact ⟨hi.2.1, hi.2.2.1, hi.2.2.2.1, count_of_inv N _ hi⟩

/-- Witness of C1: capacity 2, one item travelling the whole cycle while the other is
acquired. -/
theorem inner_buffer_invariant_witness :
    (Sys.init zeroed 2 2 2).valid
        [Call.getEmpty, Call.postFull 0, Call.getEmpty, Call.getFull, Call.releaseEmpty 0]
      = true ∧
    ((Sys.init zeroed 2 2 2).run
        ([Call.getEmpty, Call.postFull 0, Call.getEmpty, Call.getFull,
          Call.releaseEmpty 0].take 4)).bf.freeitem
      + ((Sys.init zeroed 2 2 2).run
        ([Call.getEmpty, Call.postFull 0, Call.getEmpty, Call.getFull,
          Call.releaseEmpty 0].take 4)).bf.itemnum
      + ((Sys.init zeroed 2 2 2).run
        ([Call.getEmpty, Call.postFull 0, Call.getEmpty, Call.getFull,
          Call.releaseEmpty 0].take 4)).held.length = 2 :=
  ⟨by decide,
   (inner_buffer_invariant zeroed 2 2 2
      [Call.getEmpty, Call.postFull 0, Call.getEmpty, Call.getFull, Call.releaseEmpty 0]
      (by decide) (by decide) (by decide) (by decide) (by decide) 4).1⟩

/-! ## The statistics counters -/

theorem u16_succ_ne (n : Nat) : u16 (n + 1) ≠ n := by
  unfold u16; omega

/-- C2: on every buffer state and for every call: `underflow` is incremented by one (in
`uint16_t`) exactly when `getEmptyInnerBufferItem` finds the empty queue empty, and that
call returns `NULL`;
`postoverflow` is incremented exactly when `postFullInnerBufferItem` is handed an item
while `itemnum == buffersize`; `overflow` is incremented exactly when
`releaseEmptyInnerBufferItem` is handed an item while `freeitem == buffersize`; no other
call touches a statistic, and a rejected call changes nothing but its statistic. -/
theorem statistics_exact (bf : inner_buffer_t) (item : Option Item) :
    -- getEmptyInnerBufferItem
    ((getEmptyInnerBufferItem bf).1.underflow =
        if bf.emptyhead = [] then u16 (bf.underflow + 1) else bf.underflow) ∧
    ((getEmptyInnerBufferItem bf).1.underflow ≠ bf.underflow ↔ bf.emptyhead = []) ∧
    ((getEmptyInnerBufferItem bf).2 = none ↔ bf.emptyhead = []) ∧
    (bf.emptyhead = [] →
      getEmptyInnerBufferItem bf = ({ bf with underflow := u16 (bf.underflow + 1) }, none)) ∧
    (getEmptyInnerBufferItem bf).1.postoverflow = bf.postoverflow ∧
    (getEmptyInnerBufferItem bf).1.overflow = bf.overflow ∧
    -- postFullInnerBufferItem
    ((postFullInnerBufferItem bf item).postoverflow =
        if item.isSome ∧ bf.itemnum = bf.buffersize then u16 (bf.postoverflow + 1)
        else bf.postoverflow) ∧
    ((postFullInnerBufferItem bf item).postoverflow ≠ bf.postoverflow ↔
        item.isSome ∧ bf.itemnum = bf.buffersize) ∧
    (item.isSome ∧ bf.itemnum = bf.buffersize →
      postFullInnerBufferItem bf item = { bf with postoverflow := u16 (bf.postoverflow + 1) }) ∧
    (item = none → postFullInnerBufferItem bf item = bf) ∧
    (postFullInnerBufferItem bf item).underflow = bf.underflow ∧
    (postFullInnerBufferItem bf item).overflow = bf.overflow ∧
    -- getFullInnerBufferItem
    (getFullInnerBufferItem bf).1.underflow = bf.underflow ∧
    (getFullInnerBufferItem bf).1.postoverflow = bf.postoverflow ∧
    (getFullInnerBufferItem bf).1.overflow = bf.overflow ∧
    -- releaseEmptyInnerBufferItem
    ((releaseEmptyInnerBufferItem bf item).overflow =
        if item.isSome ∧ bf.freeitem = bf.buffersize then u16 (bf.overflow + 1)
        else bf.overflow) ∧
    ((releaseEmptyInnerBufferItem bf item).overflow ≠ bf.overflow ↔
        item.isSome ∧ bf.freeitem = bf.buffersize) ∧
    (item.isSome ∧ bf.freeitem = bf.buffersize →
      releaseEmptyInnerBufferItem bf item = { bf with overflow := u16 (bf.overflow + 1) }) ∧
    (item = none → releaseEmptyInnerBufferItem bf item = bf) ∧
    (releaseEmptyInnerBufferItem bf item).underflow = bf.underflow ∧
    (releaseEmptyInnerBufferItem bf item).postoverflow = bf.postoverflow := by
  have h1 := u16_succ_ne bf.underflow
  have h2 := u16_succ_ne bf.postoverflow
  have h3 := u16_succ_ne bf.overflow
  obtain ⟨eh, fh, bs, inum, fi, uf, ovf, pof, me, pe⟩ := bf
  simp only at h1 h2 h3
  refine ⟨?_, ?_, ?_, ?_, ?_, ?_, ?_, ?_, ?_, ?_, ?_, ?_, ?_, ?_, ?_, ?_, ?_, ?_, ?_, ?_, ?_⟩
  · cases eh <;> simp [getEmptyInnerBufferItem]
  · cases eh <;> simp [getEmptyInnerBufferItem, h1]
  · cases eh <;> simp [getEmptyInnerBufferItem]
  · intro h; simp only at h; subst h; rfl
  · cases eh <;> rfl
  · cases eh <;> rfl
  · cases item with
    | none => simp [postFullInnerBufferItem]
    | some i => by_cases h : inum = bs <;> simp [postFullInnerBufferItem, h]
  · cases item with
    | none => simp [postFullInnerBufferItem]
    | some i => by_cases h : inum = bs <;> simp [postFullInnerBufferItem, h, h2]
  · rintro ⟨hs, h⟩
    cases item with
    | none => simp at hs
    | some i => simp only at h; simp [postFullInnerBufferItem, h]
  · intro h; subst h; rfl
  · cases item with
    | none => rfl
    | some i => by_cases h : inum = bs <;> simp [postFullInnerBufferItem, h]
  · cases item with
    | none => rfl
    | some i => by_cases h : inum = bs <;> simp [postFullInnerBufferItem, h]
  · cases fh <;> rfl
  · cases fh <;> rfl
  · cases fh <;> rfl
  · cases item with
    | none => simp [releaseEmptyInnerBufferItem]
    | some i => by_cases h : fi = bs <;> simp [releaseEmptyInnerBufferItem, h]
  · cases item with
    | none => simp [releaseEmptyInnerBufferItem]
    | some i => by_cases h : fi = bs <;> simp [releaseEmptyInnerBufferItem, h, h3]
  · rintro ⟨hs, h⟩
    cases item with
    | none => simp at hs
    | some i => simp only at h; simp [releaseEmptyInnerBufferItem, h]
  · intro h; subst h; rfl
  · cases item with
    | none => rfl
    | some i => by_cases h : fi = bs <;> simp [releaseEmptyInnerBufferItem, h]
  · cases item with
    | none => rfl
    | some i => by_cases h : fi = bs <;> simp [releaseEmptyInnerBufferItem, h]

end InnerBuffer

namespace Regulator

/-! ## Rounding -/

theorem rne_floor_le (q : ℚ) : ⌊q⌋ ≤ rne q := by
  unfold rne
  split_ifs <;> omega

theorem rne_le_floor_succ (q : ℚ) : rne q ≤ ⌊q⌋ + 1 := by
  unfold rne
  split_ifs <;> omega

theorem rne_intCast (n : ℤ) : rne (n : ℚ) = n := by
  unfold rne
  simp

theorem int_le_rne (q : ℚ) (n : ℤ) (h : (n : ℚ) ≤ q) : n ≤ rne q :=
  le_trans (Int.le_floor.mpr h) (rne_floor_le q)

theorem rne_le_int (q : ℚ) (n : ℤ) (h : q ≤ (n : ℚ)) : rne q ≤ n := by
  rcases lt_or_eq_of_le h with hlt | heq
  · have : ⌊q⌋ < n := Int.floor_lt.mpr hlt
    have := rne_le_floor_succ q
    omega
  · rw [heq, rne_intCast]

theorem rne_abs_sub_le (q : ℚ) : |(rne q : ℚ) - q| ≤ 1 / 2 := by
  have h1 := Int.floor_le q
  have h2 := Int.lt_floor_add_one q
  unfold rne
  split_ifs with ha hb hc
  · rw [abs_le]; constructor <;> linarith
  · rw [abs_le]; push_cast; constructor <;> linarith
  · rw [abs_le]; push_cast at *; constructor <;> linarith
  · rw [abs_le]; push_cast at *; constructor <;> linarith

theorem two_zpow_pos (e : ℤ) : (0 : ℚ) < 2 ^ e := zpow_pos (by norm_num) e

theorem log_lt_of_lt_zpow (q : ℚ) (n : ℤ) (h0 : 0 < q) (h : q < 2 ^ n) : Int.log 2 q < n := by
  have := (Int.lt_zpow_iff_log_lt (R := ℚ) (b := 2) (by norm_num) h0 (x := n)).mp
    (by exact_mod_cast h)
  exact this

/-- A value with at most 24 significant bits and an exponent in range is its own
rounding. -/
theorem rnd_exact (m k : ℤ) (hm : |m| < 2 ^ 24) (hk : -149 ≤ k) (hk2 : k ≤ 104) :
    rnd ((m : ℚ) * 2 ^ k) = F32.fin ((m : ℚ) * 2 ^ k) := by
  by_cases h0 : m = 0
  · subst h0
    simp [rnd, rne]
  have hmq : |(m : ℚ)| < 2 ^ 24 := by exact_mod_cast hm
  have habs : |(m : ℚ) * 2 ^ k| = |(m : ℚ)| * 2 ^ k := by
    rw [abs_mul, abs_of_pos (two_zpow_pos k)]
  have hbig : |(m : ℚ) * 2 ^ k| < 2 ^ 128 := by
    rw [habs]
    calc |(m : ℚ)| * 2 ^ k ≤ |(m : ℚ)| * 2 ^ (104 : ℤ) :=
          mul_le_mul_of_nonneg_left (zpow_le_zpow_right₀ (by norm_num) hk2) (abs_nonneg _)
      _ < 2 ^ 24 * 2 ^ (104 : ℤ) := mul_lt_mul_of_pos_right hmq (two_zpow_pos _)
      _ = 2 ^ 128 := by norm_num
  have he : ulpExp ((m : ℚ) * 2 ^ k) ≤ k := by
    unfold ulpExp
    · have hpos : 0 < |(m : ℚ) * 2 ^ k| := by
        rw [habs]
        exact mul_pos (abs_pos.mpr (by exact_mod_cast h0)) (two_zpow_pos k)
      have hlt : |(m : ℚ) * 2 ^ k| < 2 ^ (24 + k) := by
        rw [habs, zpow_add₀ (by norm_num : (2 : ℚ) ≠ 0)]
        exact mul_lt_mul_of_pos_right (by exact_mod_cast hmq) (two_zpow_pos _)
      have := log_lt_of_lt_zpow _ _ hpos hlt
      rcases max_cases (Int.log 2 |(m : ℚ) * 2 ^ k|) (-126) with ⟨h1, _⟩ | ⟨h1, _⟩ <;>
        rw [h1] <;> omega
  obtain ⟨d, hd⟩ : ∃ d : ℕ, k = ulpExp ((m : ℚ) * 2 ^ k) + d :=
    ⟨(k - ulpExp ((m : ℚ) * 2 ^ k)).toNat, by omega⟩
  have hq : (m : ℚ) * 2 ^ k / 2 ^ ulpExp ((m : ℚ) * 2 ^ k) = ((m * 2 ^ d : ℤ) : ℚ) := by
    rw [div_eq_iff (ne_of_gt (two_zpow_pos _))]
    nth_rewrite 1 [hd]
    rw [zpow_add₀ (by norm_num : (2 : ℚ) ≠ 0)]
    push_cast
    rw [zpow_natCast]
    ring
  have hr : (rne ((m : ℚ) * 2 ^ k / 2 ^ ulpExp ((m : ℚ) * 2 ^ k)) : ℚ)
      * 2 ^ ulpExp ((m : ℚ) * 2 ^ k) = (m : ℚ) * 2 ^ k := by
    rw [hq, rne_intCast, ← hq]
    field_simp
  unfold rnd
  rw [hr, if_neg (not_le.mpr hbig)]

theorem rnd_intCast (n : ℤ) (h : |n| < 2 ^ 24) : rnd (n : ℚ) = F32.fin n := by
  have := rnd_exact n 0 h (by norm_num) (by norm_num)
  simpa using this

theorem ofInt_eq (n : ℤ) (h : |n| < 2 ^ 24) : ofInt n = F32.fin n := rnd_intCast n h

/-- Rounding keeps a value of the unit interval in the unit interval. -/
theorem rnd_unit (q : ℚ) (h0 : 0 ≤ q) (h1 : q ≤ 1) :
    ∃ r : ℚ, rnd q = F32.fin r ∧ 0 ≤ r ∧ r ≤ 1 ∧ |r - q| ≤ 1 / 2 ^ 25 := by
  rcases eq_or_lt_of_le h0 with hz | hpos
  · refine ⟨0, ?_, le_refl _, by norm_num, by rw [← hz]; norm_num⟩
    have := rnd_intCast 0 (by norm_num)
    rw [← hz]; simpa using this
  rcases eq_or_lt_of_le h1 with ho | hlt
  · refine ⟨1, ?_, by norm_num, le_refl _, by rw [ho]; norm_num⟩
    have := rnd_intCast 1 (by norm_num)
    rw [ho]; simpa using this
  have habs : |q| = q := abs_of_pos hpos
  have hL : Int.log 2 q < 0 := log_lt_of_lt_zpow q 0 hpos (by simpa using hlt)
  have hup : q < 2 ^ (Int.log 2 q + 1) := by
    have := Int.lt_zpow_succ_log_self (R := ℚ) (b := 2) (by norm_num) q
    exact_mod_cast this
  set e := ulpExp q with he
  have he24 : Int.log 2 q + 1 ≤ e + 24 := by
    rw [he]; unfold ulpExp; rw [habs]
    rcases max_cases (Int.log 2 q) (-126) with ⟨h1, _⟩ | ⟨h1, _⟩ <;> rw [h1] <;> omega
  have he0 : e + 24 ≤ 0 := by
    rw [he]; unfold ulpExp; rw [habs]
    rcases max_cases (Int.log 2 q) (-126) with ⟨h1, _⟩ | ⟨h1, _⟩ <;> rw [h1] <;> omega
  have hx : q / 2 ^ e ≤ ((2 ^ 24 : ℤ) : ℚ) := by
    rw [div_le_iff₀ (two_zpow_pos e)]
    have : (2 : ℚ) ^ (Int.log 2 q + 1) ≤ 2 ^ (e + 24) :=
      zpow_le_zpow_right₀ (by norm_num) he24
    have h2 : (2 : ℚ) ^ (e + 24) = ((2 ^ 24 : ℤ) : ℚ) * 2 ^ e := by
      rw [zpow_add₀ (by norm_num : (2 : ℚ) ≠ 0)]; push_cast; norm_num; ring
    linarith
  have hm1 := rne_le_int _ _ hx
  have hm0 : (0 : ℤ) ≤ rne (q / 2 ^ e) :=
    int_le_rne _ 0 (by simpa using div_nonneg h0 (le_of_lt (two_zpow_pos e)))
  have hr0 : (0 : ℚ) ≤ (rne (q / 2 ^ e) : ℚ) * 2 ^ e :=
    mul_nonneg (by exact_mod_cast hm0) (le_of_lt (two_zpow_pos e))
  have hr1 : (rne (q / 2 ^ e) : ℚ) * 2 ^ e ≤ 1 := by
    calc (rne (q / 2 ^ e) : ℚ) * 2 ^ e ≤ ((2 ^ 24 : ℤ) : ℚ) * 2 ^ e :=
          mul_le_mul_of_nonneg_right (by exact_mod_cast hm1) (le_of_lt (two_zpow_pos e))
      _ = 2 ^ (e + 24) := by
          rw [zpow_add₀ (by norm_num : (2 : ℚ) ≠ 0)]; push_cast; norm_num; ring
      _ ≤ 2 ^ (0 : ℤ) := zpow_le_zpow_right₀ (by norm_num) he0
      _ = 1 := by norm_num
  have hacc : |(rne (q / 2 ^ e) : ℚ) * 2 ^ e - q| ≤ 1 / 2 ^ 25 := by
    have hq : q = q / 2 ^ e * 2 ^ e := by
      field_simp
    have h3 : (rne (q / 2 ^ e) : ℚ) * 2 ^ e - q = ((rne (q / 2 ^ e) : ℚ) - q / 2 ^ e) * 2 ^ e := by
      rw [sub_mul, ← hq]
    rw [h3, abs_mul, abs_of_pos (two_zpow_pos e)]
    have h4 : (2 : ℚ) ^ e ≤ 2 ^ (-24 : ℤ) := zpow_le_zpow_right₀ (by norm_num) (by omega)
    calc |(rne (q / 2 ^ e) : ℚ) - q / 2 ^ e| * 2 ^ e ≤ 1 / 2 * 2 ^ (-24 : ℤ) :=
          mul_le_mul (rne_abs_sub_le _) h4 (le_of_lt (two_zpow_pos e)) (by norm_num)
      _ = 1 / 2 ^ 25 := by norm_num
  refine ⟨(rne (q / 2 ^ e) : ℚ) * 2 ^ e, ?_, hr0, hr1, hacc⟩
  unfold rnd
  rw [← he, if_neg]
  rw [abs_of_nonneg hr0]
  have : (1 : ℚ) < 2 ^ 128 := by norm_num
  linarith

/-! ## The membership functions -/

theorem div_ofInt (a b : ℤ) (ha : |a| < 2 ^ 24) (hb : |b| < 2 ^ 24) (hb0 : b ≠ 0) :
    F32.div (ofInt a) (ofInt b) = rnd ((a : ℚ) / (b : ℚ)) := by
  rw [ofInt_eq a ha, ofInt_eq b hb]
  have : (b : ℚ) ≠ 0 := by exact_mod_cast hb0
  simp [F32.div, this]

theorem div_ofInt_unit (a b : ℤ) (h0 : 0 ≤ a) (hab : a ≤ b) (hb0 : 0 < b) (hb : b < 2 ^ 24) :
    ∃ r : ℚ, F32.div (ofInt a) (ofInt b) = F32.fin r ∧ rnd ((a : ℚ) / (b : ℚ)) = F32.fin r ∧
      0 ≤ r ∧ r ≤ 1 ∧ |r - (a : ℚ) / (b : ℚ)| ≤ 1 / 2 ^ 25 := by
  have hbq : (0 : ℚ) < b := by exact_mod_cast hb0
  have h1 : (0 : ℚ) ≤ (a : ℚ) / b := div_nonneg (by exact_mod_cast h0) (le_of_lt hbq)
  have h2 : (a : ℚ) / b ≤ 1 := by
    rw [div_le_one hbq]; exact_mod_cast hab
  obtain ⟨r, hr, hr0, hr1, hacc⟩ := rnd_unit _ h1 h2
  refine ⟨r, ?_, hr, hr0, hr1, hacc⟩
  rw [div_ofInt a b (by rw [abs_of_nonneg h0]; omega) (by rw [abs_of_pos hb0]; omega)
    (by omega), hr]

theorem div_ofInt_self (b : ℤ) (hb0 : 0 < b) (hb : b < 2 ^ 24) :
    F32.div (ofInt b) (ofInt b) = F32.fin 1 := by
  rw [div_ofInt b b (by rw [abs_of_pos hb0]; omega) (by rw [abs_of_pos hb0]; omega) (by omega)]
  have hbq : (b : ℚ) ≠ 0 := by exact_mod_cast (ne_of_gt hb0)
  rw [div_self hbq]
  simpa using rnd_intCast 1 (by norm_num)

theorem rnd_zero : rnd 0 = F32.fin 0 := by
  simpa using rnd_intCast 0 (by norm_num)

theorem rnd_one : rnd 1 = F32.fin 1 := by
  simpa using rnd_intCast 1 (by norm_num)

theorem rnd_half : rnd (1 / 2) = F32.fin (1 / 2) := by
  have := rnd_exact 1 (-1) (by norm_num) (by norm_num) (by norm_num)
  norm_num at this
  simpa using this

/-- C5: for a triangle membership function with `rangefrom < maxfrom < rangeto` (fields
in the `int16_t` range) and every input `x`, `fuzzyficTriangleTypeMf` returns `0` outside `[rangefrom, rangeto]`,
the single-precision quotient `(x - rangefrom) / (maxfrom - rangefrom)` on the rising ramp
and `(rangeto - x) / (rangeto - maxfrom)` on the falling ramp (the quotient rounded to
nearest, within `2 ^ (-25)` of the exact one and never the value `2`); both ramps give
`1` at the peak; for range `[0,100]` with peak `50` the values at `0, 50, 100, 25` are
`0, 1, 0, 1/2`. -/
theorem triangle_piecewise (mf : input_mf) (x : ℤ)
    (hlo : -32768 ≤ mf.rangefrom) (hhi : mf.rangeto ≤ 32767)
    (h1 : mf.rangefrom < mf.maxfrom) (h2 : mf.maxfrom < mf.rangeto) :
    (x < mf.rangefrom ∨ x > mf.rangeto → fuzzyficTriangleTypeMf (some mf) x = F32.fin 0) ∧
    (mf.rangefrom ≤ x ∧ x ≤ mf.maxfrom →
      ∃ r : ℚ, fuzzyficTriangleTypeMf (some mf) x = F32.fin r ∧
        rnd (((x - mf.rangefrom : ℤ) : ℚ) / ((mf.maxfrom - mf.rangefrom : ℤ) : ℚ)) = F32.fin r ∧
        0 ≤ r ∧ r ≤ 1 ∧
        |r - ((x - mf.rangefrom : ℤ) : ℚ) / ((mf.maxfrom - mf.rangefrom : ℤ) : ℚ)|
          ≤ 1 / 2 ^ 25) ∧
    (mf.maxfrom < x ∧ x ≤ mf.rangeto →
      ∃ r : ℚ, fuzzyficTriangleTypeMf (some mf) x = F32.fin r ∧
        rnd (((mf.rangeto - x : ℤ) : ℚ) / ((mf.rangeto - mf.maxfrom : ℤ) : ℚ)) = F32.fin r ∧
        0 ≤ r ∧ r ≤ 1 ∧
        |r - ((mf.rangeto - x : ℤ) : ℚ) / ((mf.rangeto - mf.maxfrom : ℤ) : ℚ)|
          ≤ 1 / 2 ^ 25) ∧
    fuzzyficTriangleTypeMf (some mf) mf.maxfrom = F32.fin 1 ∧
    F32.div (ofInt (mf.maxfrom - mf.rangefrom)) (ofInt (mf.maxfrom - mf.rangefrom))
      = F32.fin 1 ∧
    F32.div (ofInt (mf.rangeto - mf.maxfrom)) (ofInt (mf.rangeto - mf.maxfrom))
      = F32.fin 1 ∧
    fuzzyficTriangleTypeMf (some ⟨0, 100, 50, 50, .triangle⟩) 0 = F32.fin 0 ∧
    fuzzyficTriangleTypeMf (some ⟨0, 100, 50, 50, .triangle⟩) 50 = F32.fin 1 ∧
    fuzzyficTriangleTypeMf (some ⟨0, 100, 50, 50, .triangle⟩) 100 = F32.fin 0 ∧
    fuzzyficTriangleTypeMf (some ⟨0, 100, 50, 50, .triangle⟩) 25 = F32.fin (1 / 2) := by
  have hrise : ∀ y : ℤ, mf.rangefrom ≤ y → y ≤ mf.maxfrom →
      fuzzyficTriangleTypeMf (some mf) y =
        F32.div (ofInt (y - mf.rangefrom)) (ofInt (mf.maxfrom - mf.rangefrom)) := by
    intro y hy1 hy2
    have hn : ¬ (y < mf.rangefrom ∨ y > mf.rangeto) := by omega
    simp only [fuzzyficTriangleTypeMf, if_neg hn, ge_iff_le, hy1, hy2, and_self, if_true]
  have hfall : ∀ y : ℤ, mf.maxfrom < y → y ≤ mf.rangeto →
      fuzzyficTriangleTypeMf (some mf) y =
        F32.div (ofInt (mf.rangeto - y)) (ofInt (mf.rangeto - mf.maxfrom)) := by
    intro y hy1 hy2
    have hn : ¬ (y < mf.rangefrom ∨ y > mf.rangeto) := by omega
    have hn2 : ¬ (y ≥ mf.rangefrom ∧ y ≤ mf.maxfrom) := by omega
    simp only [fuzzyficTriangleTypeMf, if_neg hn, if_neg hn2, gt_iff_lt, hy1, hy2, and_self,
      if_true]
  have hd1 := div_ofInt_self (mf.maxfrom - mf.rangefrom) (by omega) (by omega)
  have hd2 := div_ofInt_self (mf.rangeto - mf.maxfrom) (by omega) (by omega)
  refine ⟨?_, ?_, ?_, ?_, hd1, hd2, ?_, ?_, ?_, ?_⟩
  · intro h
    simp only [fuzzyficTriangleTypeMf, if_pos h]
  · rintro ⟨ha, hb⟩
    rw [hrise x ha hb]
    exact div_ofInt_unit _ _ (by omega) (by omega) (by omega) (by omega)
  · rintro ⟨ha, hb⟩
    rw [hfall x ha hb]
    exact div_ofInt_unit _ _ (by omega) (by omega) (by omega) (by omega)
  · rw [hrise mf.maxfrom (by omega) (le_refl _)]
    exact hd1
  · have : F32.div (ofInt 0) (ofInt 50) = F32.fin 0 := by
      rw [div_ofInt 0 50 (by norm_num) (by norm_num) (by norm_num)]
      simpa using rnd_zero
    simpa [fuzzyficTriangleTypeMf] using this
  · have := div_ofInt_self 50 (by norm_num) (by norm_num)
    simpa [fuzzyficTriangleTypeMf] using this
  · have : F32.div (ofInt 0) (ofInt 50) = F32.fin 0 := by
      rw [div_ofInt 0 50 (by norm_num) (by norm_num) (by norm_num)]
      simpa using rnd_zero
    simpa [fuzzyficTriangleTypeMf] using this
  · have : F32.div (ofInt 25) (ofInt 50) = F32.fin (1 / 2) := by
      rw [div_ofInt 25 50 (by norm_num) (by norm_num) (by norm_num)]
      have h : ((25 : ℤ) : ℚ) / ((50 : ℤ) : ℚ) = 1 / 2 := by norm_num
      rw [h, rnd_half]
    simpa [fuzzyficTriangleTypeMf] using this

/-- Witness of C5: the triangle on `[0,100]` with peak `50`, evaluated at `25`. -/
theorem triangle_piecewise_witness :
    fuzzyficTriangleTypeMf (some ⟨0, 100, 50, 50, .triangle⟩) 25 = F32.fin (1 / 2) :=
  (triangle_piecewise ⟨0, 100, 50, 50, .triangle⟩ 25 (by decide) (by decide) (by decide)
    (by decide)).2.2.2.2.2.2.2.2.2


/-! ## The loops of `fuzzyfication_input` and `evaluation_rules` -/

theorem foldl_fuzzyficTemp (rules : Fin FUZZY_RULES_NUM → fuzzy_rule) (temp : ℤ) :
    ∀ (l : List (Fin FUZZY_RULES_NUM)) (fl : fuzzy_logic_t),
      l.foldl (fuzzyficTemp rules temp) fl =
        { fl with fuzzy_temp := fun i =>
            if i ∈ l then tempDegree rules temp i else fl.fuzzy_temp i } := by
  intro l
  induction l with
  | nil => intro fl; simp
  | cons a l ih =>
    intro fl
    rw [List.foldl_cons, ih]
    simp only [fuzzyficTemp]
    congr 1
    funext i
    by_cases hi : i ∈ l
    · simp [hi]
    · by_cases ha : i = a
      · subst ha; simp [hi]
      · simp [hi, ha, Function.update_noteq ha]

theorem foldl_fuzzyficDtemp (rules : Fin FUZZY_RULES_NUM → fuzzy_rule) (dtemp : ℤ) :
    ∀ (l : List (Fin FUZZY_RULES_NUM)) (fl : fuzzy_logic_t),
      l.foldl (fuzzyficDtemp rules dtemp) fl =
        { fl with fuzzy_dtemp := fun i =>
            if i ∈ l then dtempDegree rules dtemp i else fl.fuzzy_dtemp i } := by
  intro l
  induction l with
  | nil => intro fl; simp
  | cons a l ih =>
    intro fl
    rw [List.foldl_cons, ih]
    simp only [fuzzyficDtemp]
    congr 1
    funext i
    by_cases hi : i ∈ l
    · simp [hi]
    · by_cases ha : i = a
      · subst ha; simp [hi]
      · simp [hi, ha, Function.update_noteq ha]

/-- After `fuzzyfication_input` every rule carries its two degrees. -/
theorem fuzzyfication_input_eq (rules : Fin FUZZY_RULES_NUM → fuzzy_rule) (temp dtemp : ℤ)
    (fl : fuzzy_logic_t) :
    fuzzyfication_input rules temp dtemp fl =
      { fl with fuzzy_temp := tempDegree rules temp, fuzzy_dtemp := dtempDegree rules dtemp } := by
  unfold fuzzyfication_input
  rw [foldl_fuzzyficTemp, foldl_fuzzyficDtemp]
  simp [List.mem_finRange]

theorem evalRule_eq (fl : fuzzy_logic_t) (i : Fin FUZZY_RULES_NUM) :
    (evalRule fl i).fuzzy_temp = fl.fuzzy_temp ∧
    (evalRule fl i).fuzzy_dtemp = fl.fuzzy_dtemp ∧
    (evalRule fl i).fuzzy_pwm =
      Function.update fl.fuzzy_pwm i (strength (fl.fuzzy_temp i) (fl.fuzzy_dtemp i)) ∧
    (∀ j, (evalRule fl i).errors 0 j =
      (fl.errors 0 j || (decide (j = i) && F32.eq (fl.fuzzy_temp i) (.fin 2)))) ∧
    (∀ j, (evalRule fl i).errors 1 j =
      (fl.errors 1 j || (decide (j = i) && F32.eq (fl.fuzzy_dtemp i) (.fin 2)))) ∧
    (evalRule fl i).fuzzy_errors =
      (if errorDegrees fl.fuzzy_temp [i] + errorDegrees fl.fuzzy_dtemp [i] = 0
       then fl.fuzzy_errors
       else (fl.fuzzy_errors + (errorDegrees fl.fuzzy_temp [i] + errorDegrees fl.fuzzy_dtemp [i]))
         % 256) := by
  unfold evalRule fire flagDtemp flagTemp
  by_cases h1 : F32.eq (fl.fuzzy_temp i) (.fin 2) = true <;>
  by_cases h2 : F32.eq (fl.fuzzy_dtemp i) (.fin 2) = true
  all_goals
    simp only [h1, h2, if_true, if_false, Bool.false_eq_true, true_and]
    refine ⟨?_, ?_, ?_⟩
    · intro j
      by_cases hj : j = i
      · subst hj; simp
      · simp [hj, Function.update_noteq hj]
    · intro j
      by_cases hj : j = i
      · subst hj; simp
      · simp [hj, Function.update_noteq hj]
    · simp only [u8, errorDegrees, List.countP_cons, List.countP_nil, h1, h2, if_true,
        if_false, Bool.false_eq_true]
      try norm_num
      try omega

theorem errorDegrees_cons (v : Fin FUZZY_RULES_NUM → F32) (a : Fin FUZZY_RULES_NUM)
    (l : List (Fin FUZZY_RULES_NUM)) :
    errorDegrees v (a :: l) = errorDegrees v [a] + errorDegrees v l := by
  unfold errorDegrees
  rw [List.countP_cons, List.countP_cons, List.countP_nil]
  omega

theorem errorDegrees_le (v : Fin FUZZY_RULES_NUM → F32) (l : List (Fin FUZZY_RULES_NUM)) :
    errorDegrees v l ≤ l.length := List.countP_le_length _

theorem foldl_evalRule : ∀ (l : List (Fin FUZZY_RULES_NUM)) (fl : fuzzy_logic_t),
    (l.foldl evalRule fl).fuzzy_temp = fl.fuzzy_temp ∧
    (l.foldl evalRule fl).fuzzy_dtemp = fl.fuzzy_dtemp ∧
    (∀ i, (l.foldl evalRule fl).fuzzy_pwm i =
      if i ∈ l then strength (fl.fuzzy_temp i) (fl.fuzzy_dtemp i) else fl.fuzzy_pwm i) ∧
    (∀ j, (l.foldl evalRule fl).errors 0 j =
      (fl.errors 0 j || (decide (j ∈ l) && F32.eq (fl.fuzzy_temp j) (.fin 2)))) ∧
    (∀ j, (l.foldl evalRule fl).errors 1 j =
      (fl.errors 1 j || (decide (j ∈ l) && F32.eq (fl.fuzzy_dtemp j) (.fin 2)))) ∧
    (l.foldl evalRule fl).fuzzy_errors =
      (if errorDegrees fl.fuzzy_temp l + errorDegrees fl.fuzzy_dtemp l = 0
       then fl.fuzzy_errors
       else (fl.fuzzy_errors + (errorDegrees fl.fuzzy_temp l + errorDegrees fl.fuzzy_dtemp l))
         % 256) := by
  intro l
  induction l with
  | nil => intro fl; simp [errorDegrees]
  | cons a l ih =>
    intro fl
    obtain ⟨e1, e2, e3, e4, e5, e6⟩ := evalRule_eq fl a
    obtain ⟨i1, i2, i3, i4, i5, i6⟩ := ih (evalRule fl a)
    rw [List.foldl_cons]
    refine ⟨by rw [i1, e1], by rw [i2, e2], ?_, ?_, ?_, ?_⟩
    · intro i
      rw [i3, e1, e2, e3]
      by_cases hi : i ∈ l
      · simp [hi]
      · by_cases ha : i = a
        · subst ha; simp [hi]
        · simp [hi, ha, Function.update_noteq ha]
    · intro j
      rw [i4, e4, e1]
      by_cases ha : j = a
      · subst ha; cases fl.errors 0 j <;> cases F32.eq (fl.fuzzy_temp j) (.fin 2) <;> simp
      · simp [ha]
    · intro j
      rw [i5, e5, e2]
      by_cases ha : j = a
      · subst ha; cases fl.errors 1 j <;> cases F32.eq (fl.fuzzy_dtemp j) (.fin 2) <;> simp
      · simp [ha]
    · have hx := errorDegrees_cons fl.fuzzy_temp a l
      have hy := errorDegrees_cons fl.fuzzy_dtemp a l
      rw [i6, e1, e2, e6, hx, hy]
      generalize errorDegrees fl.fuzzy_temp [a] = x1
      generalize errorDegrees fl.fuzzy_dtemp [a] = y1
      generalize errorDegrees fl.fuzzy_temp l = x2
      generalize errorDegrees fl.fuzzy_dtemp l = y2
      split_ifs <;> omega

/-- What `evaluation_rules` leaves: the degrees untouched, every fire strength computed from
the rule's two degrees, the error flags of the degrees equal to `2.0` set, and
`fuzzy_errors` advanced (in `uint8_t`) by the number of such degrees. -/
theorem evaluation_rules_eq (fl : fuzzy_logic_t) :
    (evaluation_rules fl).fuzzy_temp = fl.fuzzy_temp ∧
    (evaluation_rules fl).fuzzy_dtemp = fl.fuzzy_dtemp ∧
    (∀ i, (evaluation_rules fl).fuzzy_pwm i = strength (fl.fuzzy_temp i) (fl.fuzzy_dtemp i)) ∧
    (∀ j, (evaluation_rules fl).errors 0 j =
      (fl.errors 0 j || F32.eq (fl.fuzzy_temp j) (.fin 2))) ∧
    (∀ j, (evaluation_rules fl).errors 1 j =
      (fl.errors 1 j || F32.eq (fl.fuzzy_dtemp j) (.fin 2))) ∧
    (evaluation_rules fl).fuzzy_errors =
      (if errorDegrees fl.fuzzy_temp (List.finRange FUZZY_RULES_NUM)
          + errorDegrees fl.fuzzy_dtemp (List.finRange FUZZY_RULES_NUM) = 0
       then fl.fuzzy_errors
       else (fl.fuzzy_errors + (errorDegrees fl.fuzzy_temp (List.finRange FUZZY_RULES_NUM)
          + errorDegrees fl.fuzzy_dtemp (List.finRange FUZZY_RULES_NUM))) % 256) := by
  obtain ⟨h1, h2, h3, h4, h5, h6⟩ := foldl_evalRule (List.finRange FUZZY_RULES_NUM) fl
  refine ⟨h1, h2, ?_, ?_, ?_, h6⟩
  · intro i; rw [evaluation_rules, h3, if_pos (List.mem_finRange i)]
  · intro j; rw [evaluation_rules, h4]; simp [List.mem_finRange]
  · intro j; rw [evaluation_rules, h5]; simp [List.mem_finRange]

theorem min_fin (a b : ℚ) : min (F32.fin a) (F32.fin b) = F32.fin (a ⊓ b) := by
  unfold min F32.lt
  by_cases h : a < b
  · simp [h, le_of_lt h]
  · simp only [h, decide_False, Bool.false_eq_true, if_false]
    rw [inf_eq_right.mpr (not_lt.mp h)]

theorem eq_fin_iff (d : F32) (c : ℚ) : F32.eq d (F32.fin c) = true ↔ d = F32.fin c := by
  cases d <;> simp [F32.eq]

/-- C6: after `evaluation_rules` the fire strength `fuzzy_pwm[i]` of every rule `i` is the
minimum (the `min` of regulator.h, which on finite values is the smaller one) of the
rule's temperature degree and delta-temperature degree, except that it is the temperature
degree alone when the delta degree is the value `3.0`; run after `fuzzyfication_input`,
a rule without delta antecedent therefore fires with its temperature degree. -/
theorem fire_strength_is_min (fl : fuzzy_logic_t) (i : Fin FUZZY_RULES_NUM) :
    (evaluation_rules fl).fuzzy_pwm i =
      (if fl.fuzzy_dtemp i = F32.fin 3 then fl.fuzzy_temp i
       else min (fl.fuzzy_temp i) (fl.fuzzy_dtemp i)) ∧
    (∀ a b : ℚ, min (F32.fin a) (F32.fin b) = F32.fin (a ⊓ b)) ∧
    (∀ (rules : Fin FUZZY_RULES_NUM → fuzzy_rule) (temp dtemp : ℤ),
      (evaluation_rules (fuzzyfication_input rules temp dtemp fl)).fuzzy_pwm i =
        match (rules i).if_side2 with
        | none => tempDegree rules temp i
        | some mf =>
          if mf.call dtemp = F32.fin 3 then tempDegree rules temp i
          else min (tempDegree rules temp i) (mf.call dtemp)) := by
  refine ⟨?_, min_fin, ?_⟩
  · rw [(evaluation_rules_eq fl).2.2.1 i, strength]
    by_cases h : fl.fuzzy_dtemp i = F32.fin 3
    · rw [if_pos h, if_pos ((eq_fin_iff _ _).mpr h)]
    · rw [if_neg h, if_neg (fun h2 => h ((eq_fin_iff _ _).mp h2))]
  · intro rules temp dtemp
    rw [(evaluation_rules_eq _).2.2.1 i, fuzzyfication_input_eq, strength]
    simp only [dtempDegree]
    cases h : (rules i).if_side2 with
    | none => simp [F32.eq]
    | some mf =>
      simp only
      by_cases h3 : mf.call dtemp = F32.fin 3
      · rw [if_pos h3, if_pos ((eq_fin_iff _ _).mpr h3)]
      · rw [if_neg h3, if_neg (fun h2 => h3 ((eq_fin_iff _ _).mp h2))]


/-! ## The sums of `defuzzyfication` on whole-numbered strengths -/

theorem add_intCast (a b : ℤ) (h : |a + b| < 2 ^ 24) :
    F32.add (F32.fin a) (F32.fin b) = F32.fin ((a + b : ℤ) : ℚ) := by
  have := rnd_intCast (a + b) h
  simp only [F32.add]
  rw [← this]; push_cast; rfl

theorem mul_intCast (a b : ℤ) (h : |a * b| < 2 ^ 24) :
    F32.mul (F32.fin a) (F32.fin b) = F32.fin ((a * b : ℤ) : ℚ) := by
  have := rnd_intCast (a * b) h
  simp only [F32.mul]
  rw [← this]; push_cast; rfl

theorem foldl_accumulate_int (rules : Fin FUZZY_RULES_NUM → fuzzy_rule)
    (s : Fin FUZZY_RULES_NUM → ℤ) (hs : ∀ j, 0 ≤ s j)
    (hm : ∀ j, (rules j).then_side.maxpoint < 2 ^ 24) :
    ∀ (l : List (Fin FUZZY_RULES_NUM)) (a b : ℤ), 0 ≤ a → 0 ≤ b →
      a + (l.map fun j => s j * ((rules j).then_side.maxpoint : ℤ)).sum < 2 ^ 24 →
      b + (l.map s).sum < 2 ^ 24 →
      l.foldl (accumulate rules fun j => F32.fin (s j)) (F32.fin a, F32.fin b) =
        (F32.fin ((a + (l.map fun j => s j * ((rules j).then_side.maxpoint : ℤ)).sum : ℤ) : ℚ),
         F32.fin ((b + (l.map s).sum : ℤ) : ℚ)) := by
  intro l
  induction l with
  | nil => intro a b _ _ _ _; simp
  | cons j l ih =>
    intro a b ha hb h1 h2
    simp only [List.map_cons, List.sum_cons] at h1 h2
    have hsj := hs j
    have hmj : (0 : ℤ) ≤ ((rules j).then_side.maxpoint : ℤ) := Int.natCast_nonneg _
    have hp : 0 ≤ s j * ((rules j).then_side.maxpoint : ℤ) := mul_nonneg hsj hmj
    have hl1 : 0 ≤ (l.map fun j => s j * ((rules j).then_side.maxpoint : ℤ)).sum :=
      List.sum_nonneg (by
        intro x hx
        obtain ⟨i, _, rfl⟩ := List.mem_map.mp hx
        exact mul_nonneg (hs i) (Int.natCast_nonneg _))
    have hl2 : 0 ≤ (l.map s).sum :=
      List.sum_nonneg (by
        intro x hx
        obtain ⟨i, _, rfl⟩ := List.mem_map.mp hx
        exact hs i)
    have hof : ofInt ((rules j).then_side.maxpoint : ℤ) =
        F32.fin (((rules j).then_side.maxpoint : ℤ) : ℚ) :=
      ofInt_eq _ (by rw [abs_of_nonneg hmj]; exact_mod_cast hm j)
    have hstep : accumulate rules (fun j => F32.fin (s j)) (F32.fin a, F32.fin b) j =
        (F32.fin ((a + s j * ((rules j).then_side.maxpoint : ℤ) : ℤ) : ℚ),
         F32.fin ((b + s j : ℤ) : ℚ)) := by
      simp only [accumulate, hof]
      rw [mul_intCast _ _ (by rw [abs_of_nonneg hp]; omega),
        add_intCast _ _ (by rw [abs_of_nonneg (by omega)]; omega),
        add_intCast _ _ (by rw [abs_of_nonneg (by omega)]; omega)]
    rw [List.foldl_cons, hstep, ih _ _ (by omega) (by omega) (by omega) (by omega)]
    simp only [List.map_cons, List.sum_cons, add_assoc]

/-- On whole-numbered strengths the two sums of `defuzzyfication` are exact. -/
theorem sums_int (rules : Fin FUZZY_RULES_NUM → fuzzy_rule)
    (s : Fin FUZZY_RULES_NUM → ℤ) (hs : ∀ j, 0 ≤ s j)
    (hm : ∀ j, (rules j).then_side.maxpoint < 2 ^ 24)
    (h1 : ((List.finRange FUZZY_RULES_NUM).map
      fun j => s j * ((rules j).then_side.maxpoint : ℤ)).sum < 2 ^ 24)
    (h2 : ((List.finRange FUZZY_RULES_NUM).map s).sum < 2 ^ 24) :
    sums rules (fun j => F32.fin (s j)) =
      (F32.fin ((((List.finRange FUZZY_RULES_NUM).map
          fun j => s j * ((rules j).then_side.maxpoint : ℤ)).sum : ℤ) : ℚ),
       F32.fin ((((List.finRange FUZZY_RULES_NUM).map s).sum : ℤ) : ℚ)) := by
  have := foldl_accumulate_int rules s hs hm (List.finRange FUZZY_RULES_NUM) 0 0 (le_refl _)
    (le_refl _) (by simpa using h1) (by simpa using h2)
  simp only [zero_add] at this
  rw [sums]
  simpa using this


/-! ## `defuzzyfication` -/

theorem toU32_fin (q : ℚ) (h0 : 0 ≤ q) (h1 : q < 2 ^ 32) :
    toU32 (F32.fin q) = some ⌊q⌋₊ := by
  have hn : ¬ (q ≤ -1 ∨ (2 : ℚ) ^ 32 ≤ q) := by
    rintro (h | h) <;> linarith
  simp only [toU32, if_neg hn, if_pos h0]
  rfl

theorem scale_eq (res : ℕ) (h : res < 429497) : (res * PWM_CLOCK % 2 ^ 32) / 100 = 100 * res := by
  unfold PWM_CLOCK
  omega

theorem defuzzyfication_of_div (rules : Fin FUZZY_RULES_NUM → fuzzy_rule)
    (fuzzy_pwm : Fin FUZZY_RULES_NUM → F32) (q : ℚ)
    (hq : F32.div (sums rules fuzzy_pwm).1 (sums rules fuzzy_pwm).2 = F32.fin q)
    (h0 : 0 ≤ q) (h1 : q < 429497) :
    defuzzyfication rules fuzzy_pwm = some (100 * ⌊q⌋₊) := by
  have hfl : ⌊q⌋₊ < 429497 := (Nat.floor_lt h0).mpr (by exact_mod_cast h1)
  unfold defuzzyfication
  rw [hq, toU32_fin q h0 (by linarith), Option.map_some', scale_eq _ hfl]

theorem sum_indicator (f : Fin FUZZY_RULES_NUM → ℤ) (k : Fin FUZZY_RULES_NUM) (s : ℤ) :
    ((List.finRange FUZZY_RULES_NUM).map fun j => (if j = k then s else 0) * f j).sum
      = s * f k := by
  rw [← Fin.sum_univ_def]
  simp [ite_mul]

theorem sum_indicator_one (k : Fin FUZZY_RULES_NUM) (s : ℤ) :
    ((List.finRange FUZZY_RULES_NUM).map fun j => if j = k then s else 0).sum = s := by
  rw [← Fin.sum_univ_def]
  simp

/-- A single rule fired with a whole-numbered strength `s > 0`: the duty cycle is the
consequent of that rule. -/
theorem defuzzyfication_single (rules : Fin FUZZY_RULES_NUM → fuzzy_rule)
    (hm : ∀ j, (rules j).then_side.maxpoint < 256) (k : Fin FUZZY_RULES_NUM) (s : ℤ)
    (hs0 : 0 < s) (hs : s < 256) :
    defuzzyfication rules (fun j => F32.fin ((if j = k then s else 0 : ℤ) : ℚ)) =
      some ((rules k).then_side.maxpoint * 100) := by
  have hmk := hm k
  have hsm : s * ((rules k).then_side.maxpoint : ℤ) < 256 * 256 := by
    have : ((rules k).then_side.maxpoint : ℤ) < 256 := by exact_mod_cast hmk
    nlinarith [Int.natCast_nonneg (rules k).then_side.maxpoint]
  have hsum := sums_int rules (fun j => if j = k then s else 0)
    (by intro j; dsimp only; split_ifs <;> omega)
    (by intro j; have := hm j; omega)
    (by rw [sum_indicator (fun j => ((rules j).then_side.maxpoint : ℤ)) k s]; omega)
    (by rw [sum_indicator_one]; omega)
  rw [sum_indicator (fun j => ((rules j).then_side.maxpoint : ℤ)) k s, sum_indicator_one]
    at hsum
  have hsq : (s : ℚ) ≠ 0 := by exact_mod_cast (ne_of_gt hs0)
  have hdiv : F32.div (sums rules fun j => F32.fin ((if j = k then s else 0 : ℤ) : ℚ)).1
      (sums rules fun j => F32.fin ((if j = k then s else 0 : ℤ) : ℚ)).2
      = F32.fin ((rules k).then_side.maxpoint : ℚ) := by
    rw [hsum]
    simp only [F32.div, if_neg hsq]
    have h : ((s * ((rules k).then_side.maxpoint : ℤ) : ℤ) : ℚ) / (s : ℚ)
        = (((rules k).then_side.maxpoint : ℤ) : ℚ) := by
      push_cast; field_simp
    rw [h, rnd_intCast _ (by rw [abs_of_nonneg (Int.natCast_nonneg _)]; omega)]
    simp
  rw [defuzzyfication_of_div rules _ _ hdiv (by positivity)
    (by have : ((rules k).then_side.maxpoint : ℚ) < 256 := by exact_mod_cast hmk
        linarith)]
  simp [mul_comm]

theorem FUZZY_RULES_maxpoint (j : Fin FUZZY_RULES_NUM) :
    (FUZZY_RULES j).then_side.maxpoint < 256 := by
  revert j; decide

/-- C9: with the 14-rule table, if rule `k` has fire strength `1` and every other rule
fire strength `0`, `defuzzyfication` returns exactly the consequent of rule `k` in PWM
counts, `maxpoint_k * 100`; for rule 7 (medium and zero, consequent wide, 75 %) that
is `7500`. -/
theorem defuzzyfication_round_trip (k : Fin FUZZY_RULES_NUM) :
    defuzzyfication FUZZY_RULES (fun j => if j = k then F32.fin 1 else F32.fin 0) =
      some ((FUZZY_RULES k).then_side.maxpoint * 100) ∧
    defuzzyfication FUZZY_RULES (fun j => if j = 7 then F32.fin 1 else F32.fin 0) = some 7500 ∧
    (FUZZY_RULES 7).then_side = PWM_WIDE := by
  have key : ∀ k : Fin FUZZY_RULES_NUM,
      defuzzyfication FUZZY_RULES (fun j => if j = k then F32.fin 1 else F32.fin 0) =
        some ((FUZZY_RULES k).then_side.maxpoint * 100) := by
    intro k
    have := defuzzyfication_single FUZZY_RULES FUZZY_RULES_maxpoint k 1 (by norm_num)
      (by norm_num)
    have hfun : (fun j => F32.fin ((if j = k then (1 : ℤ) else 0 : ℤ) : ℚ)) =
        (fun j => if j = k then F32.fin 1 else F32.fin 0) := by
      funext j; split_ifs <;> simp
    rw [hfun] at this
    exact this
  refine ⟨key k, ?_, rfl⟩
  rw [key 7]
  rfl


/-- When the accumulated `sum_wight` is zero, the quotient of `defuzzyfication` is a NaN or
an infinity and its conversion to `uint32_t` is undefined. -/
theorem zero_sum_undefined (rules : Fin FUZZY_RULES_NUM → fuzzy_rule)
    (fuzzy_pwm : Fin FUZZY_RULES_NUM → F32) (h : (sums rules fuzzy_pwm).2 = F32.fin 0) :
    (∀ q : ℚ, F32.div (sums rules fuzzy_pwm).1 (sums rules fuzzy_pwm).2 ≠ F32.fin q) ∧
    defuzzyfication rules fuzzy_pwm = none := by
  unfold defuzzyfication
  rw [h]
  cases (sums rules fuzzy_pwm).1 with
  | fin a =>
    by_cases ha : a = 0
    · simp [F32.div, ha, toU32]
    · simp [F32.div, ha, toU32]
  | inf s => simp [F32.div, toU32]
  | nan => simp [F32.div, toU32]

theorem sums_zero : sums FUZZY_RULES (fun _ => F32.fin 0) = (F32.fin 0, F32.fin 0) := by
  have hsum := sums_int FUZZY_RULES (fun _ => 0) (by intro j; exact le_refl _)
    (by intro j; have := FUZZY_RULES_maxpoint j; omega) (by decide) (by decide)
  have e : (fun _ : Fin FUZZY_RULES_NUM => F32.fin 0) =
      (fun _ : Fin FUZZY_RULES_NUM => F32.fin (((0 : ℤ)) : ℚ)) := by
    funext j; simp
  rw [e, hsum]
  simp

/-- C4 (counterexample): the strengths `bzero (&fuzzy_logic, ...)` leaves, all `0.0`.  Both
sums are `0.0`, the quotient `0.0 / 0.0` is a NaN, and `defuzzyfication` has no defined
result: neither `0` nor any other duty cycle is returned. -/
theorem zero_strengths_no_fallback :
    (sums FUZZY_RULES fun _ => F32.fin 0).2 = F32.fin 0 ∧
    F32.div (sums FUZZY_RULES fun _ => F32.fin 0).1 (sums FUZZY_RULES fun _ => F32.fin 0).2
      = F32.nan ∧
    defuzzyfication FUZZY_RULES (fun _ => F32.fin 0) = none ∧
    defuzzyfication FUZZY_RULES (fun _ => F32.fin 0) ≠ some 0 := by
  have h : (sums FUZZY_RULES fun _ => F32.fin 0).2 = F32.fin 0 := by rw [sums_zero]
  have hn := (zero_sum_undefined FUZZY_RULES _ h).2
  refine ⟨h, ?_, hn, ?_⟩
  · rw [sums_zero]
    simp [F32.div]
  · rw [hn]
    exact fun e => Option.noConfusion e

/-! ## Error values in `evaluation_rules` -/

theorem errorDegrees_pos (v : Fin FUZZY_RULES_NUM → F32) (i : Fin FUZZY_RULES_NUM)
    (h : v i = F32.fin 2) : 1 ≤ errorDegrees v (List.finRange FUZZY_RULES_NUM) := by
  unfold errorDegrees
  exact List.countP_pos_iff.mpr ⟨i, List.mem_finRange i, by rw [h]; simp [F32.eq]⟩

theorem errorDegrees_finRange_le (v : Fin FUZZY_RULES_NUM → F32) :
    errorDegrees v (List.finRange FUZZY_RULES_NUM) ≤ 14 := by
  have := errorDegrees_le v (List.finRange FUZZY_RULES_NUM)
  simpa using this

/-- C7 (amended): for every rule `i` whose temperature degree or delta-temperature degree
is the error value `2.0`, `evaluation_rules` sets the matching flag `errors[0][i]` /
`errors[1][i]` and advances `fuzzy_errors` (a `uint8_t`) by the number `n ≥ 1` of degrees
equal to `2.0` in the table; the fire strength of the rule is computed as for every other
rule: the temperature degree when the delta degree is `3.0`, else `min` of the two. -/
theorem sentinel_flagged_and_counted (fl : fuzzy_logic_t) (i : Fin FUZZY_RULES_NUM)
    (h : fl.fuzzy_temp i = F32.fin 2 ∨ fl.fuzzy_dtemp i = F32.fin 2) :
    (fl.fuzzy_temp i = F32.fin 2 → (evaluation_rules fl).errors 0 i = true) ∧
    (fl.fuzzy_dtemp i = F32.fin 2 → (evaluation_rules fl).errors 1 i = true) ∧
    1 ≤ errorDegrees fl.fuzzy_temp (List.finRange FUZZY_RULES_NUM)
          + errorDegrees fl.fuzzy_dtemp (List.finRange FUZZY_RULES_NUM) ∧
    (evaluation_rules fl).fuzzy_errors =
      (fl.fuzzy_errors + (errorDegrees fl.fuzzy_temp (List.finRange FUZZY_RULES_NUM)
          + errorDegrees fl.fuzzy_dtemp (List.finRange FUZZY_RULES_NUM))) % 256 ∧
    (evaluation_rules fl).fuzzy_pwm i =
      (if fl.fuzzy_dtemp i = F32.fin 3 then fl.fuzzy_temp i
       else min (fl.fuzzy_temp i) (fl.fuzzy_dtemp i)) := by
  obtain ⟨_, _, h3, h4, h5, h6⟩ := evaluation_rules_eq fl
  have hn : 1 ≤ errorDegrees fl.fuzzy_temp (List.finRange FUZZY_RULES_NUM)
      + errorDegrees fl.fuzzy_dtemp (List.finRange FUZZY_RULES_NUM) := by
    rcases h with h | h
    · have := errorDegrees_pos fl.fuzzy_temp i h; omega
    · have := errorDegrees_pos fl.fuzzy_dtemp i h; omega
  refine ⟨?_, ?_, hn, ?_, ?_⟩
  · intro ht; rw [h4, ht]; simp [F32.eq]
  · intro hd; rw [h5, hd]; simp [F32.eq]
  · rw [h6, if_neg (by omega)]
  · rw [h3, strength]
    by_cases hd : fl.fuzzy_dtemp i = F32.fin 3
    · rw [if_pos hd, if_pos ((eq_fin_iff _ _).mpr hd)]
    · rw [if_neg hd, if_neg (fun h2 => hd ((eq_fin_iff _ _).mp h2))]

/-- Witness of C7 (amended): rule 0 with temperature degree `2.0`. -/
theorem sentinel_flagged_and_counted_witness :
    (evaluation_rules
      { fuzzy_logic_zero with fuzzy_temp := fun j => if j = 0 then F32.fin 2 else F32.fin 0 }
      ).errors 0 0 = true :=
  (sentinel_flagged_and_counted
    { fuzzy_logic_zero with fuzzy_temp := fun j => if j = 0 then F32.fin 2 else F32.fin 0 } 0
    (Or.inl rfl)).1 rfl

/-- C7 (counterexample): rule 0 with temperature degree `2.0` (the error value) and delta
degree `3.0`, every other degree `0`.  The error is flagged, yet the fire strength of
rule 0 is the error value itself and it alone decides the duty cycle, `10000`; with delta
degree `1/2` instead, the fire strength is that other degree. -/
theorem sentinel_becomes_strength :
    (evaluation_rules
      { fuzzy_logic_zero with
        fuzzy_temp := fun j => if j = 0 then F32.fin 2 else F32.fin 0
        fuzzy_dtemp := fun j => if j = 0 then F32.fin 3 else F32.fin 0 }).errors 0 0 = true ∧
    (evaluation_rules
      { fuzzy_logic_zero with
        fuzzy_temp := fun j => if j = 0 then F32.fin 2 else F32.fin 0
        fuzzy_dtemp := fun j => if j = 0 then F32.fin 3 else F32.fin 0 }).fuzzy_pwm 0
      = F32.fin 2 ∧
    defuzzyfication FUZZY_RULES
      (evaluation_rules
        { fuzzy_logic_zero with
          fuzzy_temp := fun j => if j = 0 then F32.fin 2 else F32.fin 0
          fuzzy_dtemp := fun j => if j = 0 then F32.fin 3 else F32.fin 0 }).fuzzy_pwm
      = some 10000 ∧
    (evaluation_rules
      { fuzzy_logic_zero with
        fuzzy_temp := fun j => if j = 0 then F32.fin 2 else F32.fin 0
        fuzzy_dtemp := fun j => if j = 0 then F32.fin (1 / 2) else F32.fin 0 }).fuzzy_pwm 0
      = F32.fin (1 / 2) := by
  have hpwm : (evaluation_rules
      { fuzzy_logic_zero with
        fuzzy_temp := fun j => if j = 0 then F32.fin 2 else F32.fin 0
        fuzzy_dtemp := fun j => if j = 0 then F32.fin 3 else F32.fin 0 }).fuzzy_pwm
      = fun j => F32.fin ((if j = 0 then 2 else 0 : ℤ) : ℚ) := by
    funext j
    rw [(evaluation_rules_eq _).2.2.1 j]
    by_cases hj : j = 0
    · simp [hj, strength, F32.eq]
    · simp [hj, strength, F32.eq, min, F32.lt]
  refine ⟨?_, ?_, ?_, ?_⟩
  · rw [(evaluation_rules_eq _).2.2.2.1 0]; simp [F32.eq]
  · rw [hpwm]; simp
  · rw [hpwm, defuzzyfication_single FUZZY_RULES FUZZY_RULES_maxpoint 0 2 (by norm_num)
      (by norm_num)]
    rfl
  · rw [(evaluation_rules_eq _).2.2.1 0]
    simp only [if_true, strength, F32.eq, min, F32.lt]
    norm_num

/-! ## Absent antecedents -/

/-- C8 (amended): for every rule table, rule `i` and input: when the delta-temperature
antecedent of rule `i` is absent, `fuzzyfication_input` stores `3.0`, which differs from
the error value `2.0`, and `evaluation_rules` neither flags nor counts it; when the
temperature antecedent is absent, `fuzzyfication_input` stores `2.0`, the error value
itself, and `evaluation_rules` flags it and counts it. -/
theorem absent_antecedent_values (rules : Fin FUZZY_RULES_NUM → fuzzy_rule) (temp dtemp : ℤ)
    (fl : fuzzy_logic_t) (i : Fin FUZZY_RULES_NUM) :
    ((rules i).if_side2 = none →
      (fuzzyfication_input rules temp dtemp fl).fuzzy_dtemp i = F32.fin 3 ∧
      (evaluation_rules (fuzzyfication_input rules temp dtemp fl)).errors 1 i = fl.errors 1 i ∧
      errorDegrees (fuzzyfication_input rules temp dtemp fl).fuzzy_dtemp [i] = 0) ∧
    ((rules i).if_side1 = none →
      (fuzzyfication_input rules temp dtemp fl).fuzzy_temp i = F32.fin 2 ∧
      (evaluation_rules (fuzzyfication_input rules temp dtemp fl)).errors 0 i = true ∧
      errorDegrees (fuzzyfication_input rules temp dtemp fl).fuzzy_temp [i] = 1) ∧
    (F32.fin 3 : F32) ≠ F32.fin 2 ∧
    (evaluation_rules (fuzzyfication_input rules temp dtemp fl)).fuzzy_errors =
      (if errorDegrees (fuzzyfication_input rules temp dtemp fl).fuzzy_temp
              (List.finRange FUZZY_RULES_NUM)
            + errorDegrees (fuzzyfication_input rules temp dtemp fl).fuzzy_dtemp
              (List.finRange FUZZY_RULES_NUM) = 0
       then fl.fuzzy_errors
       else (fl.fuzzy_errors
            + (errorDegrees (fuzzyfication_input rules temp dtemp fl).fuzzy_temp
                (List.finRange FUZZY_RULES_NUM)
              + errorDegrees (fuzzyfication_input rules temp dtemp fl).fuzzy_dtemp
                (List.finRange FUZZY_RULES_NUM))) % 256) := by
  obtain ⟨_, _, _, h4, h5, h6⟩ := evaluation_rules_eq (fuzzyfication_input rules temp dtemp fl)
  have hfz := fuzzyfication_input_eq rules temp dtemp fl
  refine ⟨?_, ?_, by simp, ?_⟩
  · intro h
    have hd : (fuzzyfication_input rules temp dtemp fl).fuzzy_dtemp i = F32.fin 3 := by
      rw [hfz]; simp [dtempDegree, h]
    refine ⟨hd, ?_, ?_⟩
    · rw [h5, hd]; rw [hfz]; simp [F32.eq]
    · simp [errorDegrees, hd, F32.eq]
  · intro h
    have ht : (fuzzyfication_input rules temp dtemp fl).fuzzy_temp i = F32.fin 2 := by
      rw [hfz]; simp [tempDegree, h]
    refine ⟨ht, ?_, ?_⟩
    · rw [h4, ht]; simp [F32.eq]
    · simp [errorDegrees, ht, F32.eq]
  · rw [h6]
    simp only [hfz]

/-- Witness of C8 (amended): rule 0 of the table has no delta-temperature antecedent. -/
theorem absent_antecedent_values_witness :
    (FUZZY_RULES 0).if_side2 = none ∧
    (fuzzyfication_input FUZZY_RULES 9000 0 fuzzy_logic_zero).fuzzy_dtemp 0 = F32.fin 3 :=
  ⟨rfl, ((absent_antecedent_values FUZZY_RULES 9000 0 fuzzy_logic_zero 0).1 rfl).1⟩

/-- C8 (counterexample): the table with the temperature antecedent of rule 0 removed.
`fuzzyfication_input` stores `2.0` for it, the error value itself, and `evaluation_rules`
flags it and counts a fuzzification error. -/
theorem absent_temp_is_error :
    (fuzzyfication_input (Function.update FUZZY_RULES 0 ⟨none, none, PWM_FULL⟩) 9000 0
      fuzzy_logic_zero).fuzzy_temp 0 = F32.fin 2 ∧
    (evaluation_rules
      (fuzzyfication_input (Function.update FUZZY_RULES 0 ⟨none, none, PWM_FULL⟩) 9000 0
        fuzzy_logic_zero)).errors 0 0 = true ∧
    (evaluation_rules
      (fuzzyfication_input (Function.update FUZZY_RULES 0 ⟨none, none, PWM_FULL⟩) 9000 0
        fuzzy_logic_zero)).fuzzy_errors ≠ 0 := by
  have ht : (fuzzyfication_input (Function.update FUZZY_RULES 0 ⟨none, none, PWM_FULL⟩) 9000 0
      fuzzy_logic_zero).fuzzy_temp 0 = F32.fin 2 := by
    rw [fuzzyfication_input_eq]; simp [tempDegree]
  obtain ⟨_, _, _, h4, _, h6⟩ := evaluation_rules_eq
    (fuzzyfication_input (Function.update FUZZY_RULES 0 ⟨none, none, PWM_FULL⟩) 9000 0
      fuzzy_logic_zero)
  refine ⟨ht, ?_, ?_⟩
  · rw [h4, ht]; simp [F32.eq]
  · have hp := errorDegrees_pos _ 0 ht
    have hl1 := errorDegrees_finRange_le
      (fuzzyfication_input (Function.update FUZZY_RULES 0 ⟨none, none, PWM_FULL⟩) 9000 0
        fuzzy_logic_zero).fuzzy_temp
    have hl2 := errorDegrees_finRange_le
      (fuzzyfication_input (Function.update FUZZY_RULES 0 ⟨none, none, PWM_FULL⟩) 9000 0
        fuzzy_logic_zero).fuzzy_dtemp
    have hz : (fuzzyfication_input (Function.update FUZZY_RULES 0 ⟨none, none, PWM_FULL⟩) 9000 0
        fuzzy_logic_zero).fuzzy_errors = 0 := by
      rw [fuzzyfication_input_eq]; rfl
    rw [h6, if_neg (by omega), hz]
    omega


/-! ## The configured membership functions -/

theorem ofInt_one : ofInt 1 = F32.fin 1 := by
  simpa using ofInt_eq 1 (by norm_num)

theorem unit_of_div (a b : ℤ) (h0 : 0 ≤ a) (hab : a ≤ b) (hb0 : 0 < b) (hb : b < 2 ^ 24) :
    ∃ r : ℚ, F32.div (ofInt a) (ofInt b) = F32.fin r ∧ 0 ≤ r ∧ r ≤ 1 :=
  (div_ofInt_unit a b h0 hab hb0 hb).imp fun _ h => ⟨h.1, h.2.2.1, h.2.2.2.1⟩

theorem configured_unit (mf : input_mf) (hmf : mf ∈ TEMP_INPUT_MFS ++ DTEMP_INPUT_MFS)
    (x : ℤ) : ∃ r : ℚ, mf.call x = F32.fin r ∧ 0 ≤ r ∧ r ≤ 1 := by
  simp only [TEMP_INPUT_MFS, DTEMP_INPUT_MFS, List.cons_append, List.nil_append,
    List.mem_cons, List.mem_singleton, List.not_mem_nil, or_false] at hmf
  rcases hmf with h | h | h | h | h | h | h | h | h | h <;> subst h
  all_goals
    simp only [input_mf.call, TEMP_MELTING, TEMP_COLD, TEMP_MEDIUM, TEMP_HOT, TEMP_STERILE,
      DELTATEMP_NEG, DELTATEMP_ZERO, DELTATEMP_SPOS, DELTATEMP_POS, DELTATEMP_VPOS,
      fuzzyficTriangleTypeMf, fuzzyficHalfTrapezeTypeMf, fuzzyficTrapezeTypeMf,
      halfTrapezeRising, ofInt_one]
    split_ifs
    all_goals
      first
        | exact ⟨0, rfl, le_refl _, zero_le_one⟩
        | exact ⟨1, rfl, zero_le_one, le_refl _⟩
        | (exfalso; omega)
        | (refine unit_of_div _ _ ?_ ?_ ?_ ?_ <;> omega)

/-- C10: for each of the ten configured input membership functions (the five of
`TEMP_INPUT_MFS` and the five of `DTEMP_INPUT_MFS`) and every input `x`, the value returned
through its `fuzzyfic_func` is a finite number in `[0,1]`; in particular it is never the
error value `2`. -/
theorem configured_membership_in_unit (mf : input_mf)
    (hmf : mf ∈ TEMP_INPUT_MFS ++ DTEMP_INPUT_MFS) (x : ℤ) :
    (∃ r : ℚ, mf.call x = F32.fin r ∧ 0 ≤ r ∧ r ≤ 1) ∧ mf.call x ≠ F32.fin 2 := by
  obtain ⟨r, hr, h0, h1⟩ := configured_unit mf hmf x
  refine ⟨⟨r, hr, h0, h1⟩, ?_⟩
  rw [hr]
  intro h
  injection h with h
  rw [h] at h1
  norm_num at h1

/-- Witness of C10: `TEMP_COLD` is one of the configured functions. -/
theorem configured_membership_in_unit_witness :
    TEMP_COLD ∈ TEMP_INPUT_MFS ++ DTEMP_INPUT_MFS ∧ TEMP_COLD.call 9000 ≠ F32.fin 2 :=
  ⟨by simp [TEMP_INPUT_MFS], (configured_membership_in_unit TEMP_COLD
    (by simp [TEMP_INPUT_MFS]) 9000).2⟩

end Regulator

namespace Sterilizer

/-! ## Messages of the sterilizer thread -/

theorem freeLoop_head : ∀ (l : List result_item) (res : result_t) (pool : ℕ),
    (freeLoop l res pool).1.head = [] := by
  intro l
  induction l with
  | nil => intro res pool; rfl
  | cons a l ih => intro res pool; exact ih _ _

theorem freeResultList_head (s : Sys) : (freeResultList s).result.head = [] := by
  unfold freeResultList
  cases h : s.result.head with
  | nil => simpa using h
  | cons a l => exact freeLoop_head _ _ _

theorem freeResultList_sterilizer (s : Sys) : (freeResultList s).sterilizer = s.sterilizer := by
  unfold freeResultList
  cases s.result.head <;> rfl

theorem freeResultList_regulator (s : Sys) : (freeResultList s).regulator = s.regulator := by
  unfold freeResultList
  cases s.result.head <;> rfl

theorem handleMsg_none (s : Sys) (inp : Input) (h : inp.msg = 0) : handleMsg s inp = s := by
  simp [handleMsg, h, SENSOR_INIT_END, START_STERILIZER, STOP_STERILZER, STOPERROR_STERILIZER,
    PRINT_RESULT_LIST]

theorem handleMsg_error (s : Sys) (inp : Input)
    (h : s.sterilizer.state = .STERILIZER_ERROR) : handleMsg s inp = s := by
  obtain ⟨⟨st, ct, ns⟩, res, pool, reg, file, pr, disp⟩ := s
  simp only at h
  subst h
  simp [handleMsg, startRoutine, stopRoutine, stopErrorRoutine]

theorem cycle_error (interval : ℕ) (s : Sys) (inp : Input)
    (h : s.sterilizer.state = .STERILIZER_ERROR) : cycle interval s inp = s := by
  unfold cycle
  rw [handleMsg_error s inp h]
  simp [stateCase, h]

theorem run_error (interval : ℕ) : ∀ (inputs : List Input) (s : Sys),
    s.sterilizer.state = .STERILIZER_ERROR → run interval s inputs = s := by
  intro inputs
  induction inputs with
  | nil => intro s _; rfl
  | cons inp rest ih =>
    intro s h
    simp only [run, List.foldl_cons]
    rw [cycle_error interval s inp h]
    exact ih s h

/-- C18: the state `STERILIZER_ERROR` is latched.  From it, one turn of the loop with any
mailbox message (or none), any temperature snapshot and any times leaves the whole thread
data as it was, in particular the state `STERILIZER_ERROR` and the result list; so does every
sequence of turns. -/
theorem error_latched (interval : ℕ) (s : Sys) (inp : Input) (inputs : List Input)
    (h : s.sterilizer.state = .STERILIZER_ERROR) :
    (cycle interval s inp).sterilizer.state = .STERILIZER_ERROR ∧
    (cycle interval s inp).result.head = s.result.head ∧
    cycle interval s inp = s ∧
    run interval s inputs = s := by
  rw [cycle_error interval s inp h]
  exact ⟨h, rfl, rfl, run_error interval inputs s h⟩

theorem startRoutine_stop (s : Sys) (inp : Input)
    (h : s.sterilizer.state = .STERILIZER_STOP) :
    (startRoutine s inp).sterilizer.state = .STERILIZER_ACTIVE ∧
    (startRoutine s inp).result.head = [] ∧
    (startRoutine s inp).result.finalresult = false ∧
    (startRoutine s inp).sterilizer.num_of_swing = 0 ∧
    (startRoutine s inp).regulator = s.regulator ++ [Regulator.FUZZY_REG_START_MSG] ∧
    (startRoutine s inp).result.savetime = inp.t_start := by
  rw [startRoutine, if_pos h]
  exact ⟨rfl, freeResultList_head s, rfl, rfl, rfl, rfl⟩

/-- C19: a Start message processed (`startRoutine`, called from the message `switch`) in
state `STERILIZER_STOP` yields state `STERILIZER_ACTIVE`, an empty result list,
`finalresult = false`, swing counter `0`, and exactly one `FUZZY_REG_START_MSG` sent to the
regulator; processed in any other state it changes nothing and sends nothing. -/
theorem start_message (s : Sys) (inp : Input) (hm : inp.msg = START_STERILIZER) :
    (s.sterilizer.state = .STERILIZER_STOP →
      (handleMsg s inp).sterilizer.state = .STERILIZER_ACTIVE ∧
      (handleMsg s inp).result.head = [] ∧
      (handleMsg s inp).result.finalresult = false ∧
      (handleMsg s inp).sterilizer.num_of_swing = 0 ∧
      (handleMsg s inp).regulator = s.regulator ++ [Regulator.FUZZY_REG_START_MSG]) ∧
    (s.sterilizer.state ≠ .STERILIZER_STOP → handleMsg s inp = s) := by
  have e : handleMsg s inp = startRoutine s inp := by
    simp [handleMsg, hm, START_STERILIZER, SENSOR_INIT_END]
  rw [e]
  constructor
  · intro h
    obtain ⟨h1, h2, h3, h4, h5, _⟩ := startRoutine_stop s inp h
    exact ⟨h1, h2, h3, h4, h5⟩
  · intro h
    simp [startRoutine, h]


/-! ## Saving -/

theorem handleMsg_save (s : Sys) (inp : Input) (h : s.sterilizer.state = .STERILIZER_SAVE)
    (hm : inp.msg ≠ STOPERROR_STERILIZER) : handleMsg s inp = s := by
  simp [handleMsg, startRoutine, stopRoutine, h, hm]

/-- C20: when `openResultFile` returns a non-zero status during Saving with a non-empty
result list (and the turn brings no stop-on-error message), the turn ends in
`STERILIZER_STOP`, nothing is handed to the file buffer, and the result list (items, order
and `itemnum`), the start time, the end time and `finalresult` are as before. -/
theorem open_failure_keeps_results (interval : ℕ) (s : Sys) (inp : Input)
    (h : s.sterilizer.state = .STERILIZER_SAVE) (hne : s.result.head ≠ [])
    (hopen : u8 inp.open_status ≠ 0) (hm : inp.msg ≠ STOPERROR_STERILIZER) :
    (cycle interval s inp).sterilizer.state = .STERILIZER_STOP ∧
    (cycle interval s inp).file = s.file ∧
    (cycle interval s inp).result.head = s.result.head ∧
    (cycle interval s inp).result.itemnum = s.result.itemnum ∧
    (cycle interval s inp).result.starttime = s.result.starttime ∧
    (cycle interval s inp).result.endtime = s.result.endtime ∧
    (cycle interval s inp).result.finalresult = s.result.finalresult ∧
    (cycle interval s inp).display = s.display := by
  have he : s.result.head.isEmpty = false := by
    cases hh : s.result.head with
    | nil => exact absurd hh hne
    | cons a l => rfl
  unfold cycle
  rw [handleMsg_save s inp h hm]
  simp [stateCase, h, saveCase, he, hopen]


/-! ## The turns of the loop in state `STERILIZER_ACTIVE` -/

theorem cycle_active (interval : ℕ) (s : Sys) (inp : Input)
    (h : s.sterilizer.state = .STERILIZER_ACTIVE) (hm : inp.msg = 0) :
    cycle interval s inp = activeCase interval s inp := by
  unfold cycle
  rw [handleMsg_none s inp hm]
  simp [stateCase, h]

theorem cycle_idle (interval : ℕ) (s : Sys) (inp : Input)
    (h : s.sterilizer.state = .STERILIZER_ACTIVE) (hm : inp.msg = 0)
    (ht : inp.now < s.result.savetime) (hn : s.result.itemnum ≠ RESULT_LIST_SIZE) :
    cycle interval s inp = s := by
  rw [cycle_active interval s inp h hm, activeCase, if_neg (by omega), fullCheck, if_neg hn]

theorem cycle_full (interval : ℕ) (s : Sys) (inp : Input)
    (h : s.sterilizer.state = .STERILIZER_ACTIVE) (hm : inp.msg = 0)
    (ht : inp.now < s.result.savetime) (hn : s.result.itemnum = RESULT_LIST_SIZE) :
    cycle interval s inp =
      { s with
        regulator := s.regulator ++ [Regulator.FUZZY_REG_STOP_MSG]
        result := { s.result with finalresult := true, endtime := inp.endtime }
        sterilizer := { s.sterilizer with state := .STERILIZER_SAVE } } := by
  rw [cycle_active interval s inp h hm, activeCase, if_neg (by omega), fullCheck, if_pos hn,
    stopRoutine, if_pos h]

theorem cycle_sterile (interval : ℕ) (s : Sys) (inp : Input)
    (h : s.sterilizer.state = .STERILIZER_ACTIVE) (hm : inp.msg = 0)
    (ht : s.result.savetime ≤ inp.now) (hst : inp.temp.is_sterile = true) :
    cycle interval s inp =
      rearm interval
        (putResultToList { s with sterilizer := { s.sterilizer with curr_temp := inp.temp } }
          inp.temp) inp := by
  rw [cycle_active interval s inp h hm, activeCase, if_pos ht, sampleNow]
  simp [hst]

theorem cycle_swing (interval : ℕ) (s : Sys) (inp : Input)
    (h : s.sterilizer.state = .STERILIZER_ACTIVE) (hm : inp.msg = 0)
    (ht : s.result.savetime ≤ inp.now) (hst : inp.temp.is_sterile = false)
    (hne : s.result.head ≠ []) (hsw : s.sterilizer.num_of_swing ≤ NUM_OF_TEMP_SWING) :
    cycle interval s inp =
      rearm interval
        (freeResultList
          { s with sterilizer := { s.sterilizer with
                                   curr_temp := inp.temp
                                   num_of_swing := u8 (s.sterilizer.num_of_swing + 1) } })
        inp := by
  have he : s.result.head.isEmpty = false := by
    cases hh : s.result.head with
    | nil => exact absurd hh hne
    | cons a l => rfl
  rw [cycle_active interval s inp h hm, activeCase, if_pos ht, sampleNow]
  simp [hst, he, hsw]

theorem cycle_failure (interval : ℕ) (s : Sys) (inp : Input)
    (h : s.sterilizer.state = .STERILIZER_ACTIVE) (hm : inp.msg = 0)
    (ht : s.result.savetime ≤ inp.now) (hst : inp.temp.is_sterile = false)
    (hne : s.result.head ≠ []) (hsw : NUM_OF_TEMP_SWING < s.sterilizer.num_of_swing) :
    cycle interval s inp =
      stopRoutine
        { putResultToList { s with sterilizer := { s.sterilizer with curr_temp := inp.temp } }
            inp.temp with
          result :=
            { (putResultToList
                { s with sterilizer := { s.sterilizer with curr_temp := inp.temp } }
                inp.temp).result with finalresult := false } }
        inp := by
  have he : s.result.head.isEmpty = false := by
    cases hh : s.result.head with
    | nil => exact absurd hh hne
    | cons a l => rfl
  have hsw2 : ¬ s.sterilizer.num_of_swing ≤ NUM_OF_TEMP_SWING := by omega
  rw [cycle_active interval s inp h hm, activeCase, if_pos ht, sampleNow]
  simp [hst, he, hsw2]

theorem cycle_nothing (interval : ℕ) (s : Sys) (inp : Input)
    (h : s.sterilizer.state = .STERILIZER_ACTIVE) (hm : inp.msg = 0)
    (ht : s.result.savetime ≤ inp.now) (hst : inp.temp.is_sterile = false)
    (he : s.result.head = []) (hn : s.result.itemnum ≠ RESULT_LIST_SIZE) :
    cycle interval s inp =
      rearm interval { s with sterilizer := { s.sterilizer with curr_temp := inp.temp } }
        inp := by
  rw [cycle_active interval s inp h hm, activeCase, if_pos ht, sampleNow]
  simp [hst, he, fullCheck, rearm, hn]

theorem putResultToList_succ (s : Sys) (data : Regulator.temperature_t) (p : ℕ)
    (hp : s.pool = p + 1) :
    putResultToList s data =
      { s with
        pool := p
        result := { s.result with
                    freeitem := u8 (s.result.freeitem + 255)
                    head := s.result.head ++
                      [⟨s.result.itemnum, data.timestamp / 1000, data.temp, data.is_sterile⟩]
                    itemnum := u8 (s.result.itemnum + 1) }
        display := s.display ++
          [some ⟨s.result.itemnum, data.timestamp / 1000, data.temp, data.is_sterile⟩] } := by
  unfold putResultToList
  rw [hp]


/-! ## A run of sterile samples -/

theorem sterile_run (interval : ℕ) : ∀ (inputs : List Input) (s : Sys) (k : ℕ),
    s.sterilizer.state = .STERILIZER_ACTIVE → s.result.head.length = k →
    s.result.itemnum = k → s.pool + k = RESULT_LIST_SIZE →
    inputs.length + k ≤ RESULT_LIST_SIZE →
    inputs.all (fun inp => inp.temp.is_sterile) = true →
    sampling interval s inputs = true →
    (∀ it ∈ s.result.head, it.sterile = true) →
    (run interval s inputs).sterilizer.state = .STERILIZER_ACTIVE ∧
    (run interval s inputs).result.head.length = k + inputs.length ∧
    (run interval s inputs).result.itemnum = k + inputs.length ∧
    (run interval s inputs).pool + (k + inputs.length) = RESULT_LIST_SIZE ∧
    (run interval s inputs).result.finalresult = s.result.finalresult ∧
    (∀ it ∈ (run interval s inputs).result.head, it.sterile = true) := by
  intro inputs
  induction inputs with
  | nil =>
    intro s k h hl hi hp _ _ _ hall
    exact ⟨h, by simpa using hl, by simpa using hi, by simpa using hp, rfl, hall⟩
  | cons inp rest ih =>
    intro s k h hl hi hp hlen hst hsm hall
    simp only [List.length_cons] at hlen
    simp only [List.all_cons, Bool.and_eq_true] at hst
    simp only [sampling, Bool.and_eq_true, decide_eq_true_eq] at hsm
    obtain ⟨⟨hm, ht⟩, hsm'⟩ := hsm
    have hR : RESULT_LIST_SIZE = 61 := rfl
    have hpool : s.pool = (s.pool - 1) + 1 := by omega
    have hc := cycle_sterile interval s inp h hm ht hst.1
    rw [putResultToList_succ
      { s with sterilizer := { s.sterilizer with curr_temp := inp.temp } } inp.temp
      (s.pool - 1) hpool] at hc
    have hu : u8 (k + 1) = k + 1 := by unfold u8; omega
    have h1 : (cycle interval s inp).sterilizer.state = .STERILIZER_ACTIVE := by
      rw [hc]; exact h
    have h2 : (cycle interval s inp).result.head.length = k + 1 := by
      rw [hc]; simp [rearm, hl]
    have h3 : (cycle interval s inp).result.itemnum = k + 1 := by
      rw [hc]; simp [rearm, hi, hu]
    have h4 : (cycle interval s inp).pool + (k + 1) = RESULT_LIST_SIZE := by
      rw [hc]; simp only [rearm]; omega
    have h5 : (cycle interval s inp).result.finalresult = s.result.finalresult := by
      rw [hc]; rfl
    have h6 : ∀ it ∈ (cycle interval s inp).result.head, it.sterile = true := by
      rw [hc]
      simp only [rearm, List.mem_append, List.mem_singleton]
      rintro it (hit | hit)
      · exact hall it hit
      · rw [hit]; exact hst.1
    obtain ⟨r1, r2, r3, r4, r5, r6⟩ :=
      ih (cycle interval s inp) (k + 1) h1 h2 h3 h4 (by omega) hst.2 hsm' h6
    simp only [run, List.foldl_cons, List.length_cons] at r1 r2 r3 r4 r5 r6 ⊢
    exact ⟨r1, by rw [r2]; omega, by rw [r3]; omega, by rw [← r4]; omega, by rw [r5, h5], r6⟩

theorem sterile_run_regulator (interval : ℕ) : ∀ (inputs : List Input) (s : Sys),
    s.sterilizer.state = .STERILIZER_ACTIVE →
    inputs.all (fun inp => inp.temp.is_sterile) = true →
    sampling interval s inputs = true →
    (run interval s inputs).regulator = s.regulator := by
  intro inputs
  induction inputs with
  | nil => intro s _ _ _; rfl
  | cons inp rest ih =>
    intro s h hst hsm
    simp only [List.all_cons, Bool.and_eq_true] at hst
    simp only [sampling, Bool.and_eq_true, decide_eq_true_eq] at hsm
    obtain ⟨⟨hm, ht⟩, hsm'⟩ := hsm
    have hc := cycle_sterile interval s inp h hm ht hst.1
    have h1 : (cycle interval s inp).sterilizer.state = .STERILIZER_ACTIVE := by
      rw [hc]; unfold putResultToList rearm; simp only; split <;> exact h
    have h2 : (cycle interval s inp).regulator = s.regulator := by
      rw [hc]; unfold putResultToList rearm; simp only; split <;> rfl
    simp only [run, List.foldl_cons]
    have := ih (cycle interval s inp) h1 hst.2 hsm'
    simp only [run] at this
    rw [this, h2]

/-- C15: from the state right after a Start (state `STERILIZER_ACTIVE`, empty result list,
`itemnum = 0`, all 61 pool objects free), 61 turns that each take a sterile sample leave a
list of exactly 61 `Sterile` items, and the next turn of the loop (no message, before the
next save time) moves the state to `STERILIZER_SAVE` with `finalresult = true`, the list
still holding exactly those 61 items, and sends the regulator its Stop message.  A turn
that comes before the save time while fewer than 61 items are held changes nothing. -/
theorem sixty_one_sterile_samples (interval : ℕ) (s : Sys) (inputs : List Input)
    (last : Input)
    (h : s.sterilizer.state = .STERILIZER_ACTIVE) (hh : s.result.head = [])
    (hi : s.result.itemnum = 0) (hp : s.pool = RESULT_LIST_SIZE)
    (hlen : inputs.length = 61)
    (hst : inputs.all (fun inp => inp.temp.is_sterile) = true)
    (hsm : sampling interval s inputs = true)
    (hm : last.msg = 0) (ht : last.now < (run interval s inputs).result.savetime) :
    (run interval s inputs).sterilizer.state = .STERILIZER_ACTIVE ∧
    (run interval s inputs).result.head.length = 61 ∧
    (∀ it ∈ (run interval s inputs).result.head, it.sterile = true) ∧
    (cycle interval (run interval s inputs) last).sterilizer.state = .STERILIZER_SAVE ∧
    (cycle interval (run interval s inputs) last).result.finalresult = true ∧
    (cycle interval (run interval s inputs) last).result.head
      = (run interval s inputs).result.head ∧
    (cycle interval (run interval s inputs) last).result.head.length = 61 ∧
    (cycle interval (run interval s inputs) last).regulator
      = s.regulator ++ [Regulator.FUZZY_REG_STOP_MSG] ∧
    (∀ (s1 : Sys) (inp : Input), s1.sterilizer.state = .STERILIZER_ACTIVE → inp.msg = 0 →
      inp.now < s1.result.savetime → s1.result.itemnum ≠ RESULT_LIST_SIZE →
      cycle interval s1 inp = s1) := by
  obtain ⟨r1, r2, r3, _, _, r6⟩ := sterile_run interval inputs s 0 h (by rw [hh]; rfl) hi
    (by rw [hp]; rfl) (by rw [hlen]; decide) hst hsm (by rw [hh]; simp)
  rw [hlen] at r2 r3
  have hfull : (run interval s inputs).result.itemnum = RESULT_LIST_SIZE := by rw [r3]; rfl
  have hc := cycle_full interval (run interval s inputs) last r1 hm ht hfull
  have hreg : (run interval s inputs).regulator = s.regulator :=
    sterile_run_regulator interval inputs s h hst hsm
  refine ⟨r1, by simpa using r2, r6, ?_, ?_, ?_, ?_, ?_, ?_⟩
  · rw [hc]
  · rw [hc]
  · rw [hc]
  · rw [hc]; simpa using r2
  · rw [hc]; simp only; rw [hreg]
  · intro s1 inp h1 h2 h3 h4
    exact cycle_idle interval s1 inp h1 h2 h3 h4


set_option maxRecDepth 100000 in
/-- Witness of C15: samples every 600000 ticks from system time 0 on. -/
theorem sixty_one_sterile_samples_witness :
    (cycle 600000
      (run 600000 started ((List.range 61).map fun k => sampleInput 0 (600000 * k) true))
      (sampleInput 0 36000100 true)).sterilizer.state = .STERILIZER_SAVE ∧
    (cycle 600000
      (run 600000 started ((List.range 61).map fun k => sampleInput 0 (600000 * k) true))
      (sampleInput 0 36000100 true)).result.finalresult = true :=
  have h := sixty_one_sterile_samples 600000 started
    ((List.range 61).map fun k => sampleInput 0 (600000 * k) true)
    (sampleInput 0 36000100 true) (by decide) rfl (by decide) (by decide) (by decide)
    (by decide) (by decide) (by decide) (by decide)
  ⟨h.2.2.2.1, h.2.2.2.2.1⟩

end Sterilizer

namespace Regulator

/-! ## Double-precision rounding -/

/-- A value with at most 53 significant bits and an exponent in range is its own
binary64 rounding. -/
theorem rnd64_exact (m k : ℤ) (hm : |m| < 2 ^ 53) (hk : -1074 ≤ k) (hk2 : k ≤ 971) :
    rnd64 ((m : ℚ) * 2 ^ k) = F64.fin ((m : ℚ) * 2 ^ k) := by
  by_cases h0 : m = 0
  · subst h0
    simp [rnd64, rne]
  have hmq : |(m : ℚ)| < 2 ^ 53 := by exact_mod_cast hm
  have habs : |(m : ℚ) * 2 ^ k| = |(m : ℚ)| * 2 ^ k := by
    rw [abs_mul, abs_of_pos (two_zpow_pos k)]
  have hbig : |(m : ℚ) * 2 ^ k| < 2 ^ 1024 := by
    rw [habs]
    calc |(m : ℚ)| * 2 ^ k ≤ |(m : ℚ)| * 2 ^ (971 : ℤ) :=
          mul_le_mul_of_nonneg_left (zpow_le_zpow_right₀ (by norm_num) hk2) (abs_nonneg _)
      _ < 2 ^ 53 * 2 ^ (971 : ℤ) := mul_lt_mul_of_pos_right hmq (two_zpow_pos _)
      _ = 2 ^ 1024 := by norm_num
  have he : ulpExp64 ((m : ℚ) * 2 ^ k) ≤ k := by
    unfold ulpExp64
    · have hpos : 0 < |(m : ℚ) * 2 ^ k| := by
        rw [habs]
        exact mul_pos (abs_pos.mpr (by exact_mod_cast h0)) (two_zpow_pos k)
      have hlt : |(m : ℚ) * 2 ^ k| < 2 ^ (53 + k) := by
        rw [habs, zpow_add₀ (by norm_num : (2 : ℚ) ≠ 0)]
        exact mul_lt_mul_of_pos_right (by exact_mod_cast hmq) (two_zpow_pos _)
      have := log_lt_of_lt_zpow _ _ hpos hlt
      rcases max_cases (Int.log 2 |(m : ℚ) * 2 ^ k|) (-1022) with ⟨h1, _⟩ | ⟨h1, _⟩ <;>
        rw [h1] <;> omega
  obtain ⟨d, hd⟩ : ∃ d : ℕ, k = ulpExp64 ((m : ℚ) * 2 ^ k) + d :=
    ⟨(k - ulpExp64 ((m : ℚ) * 2 ^ k)).toNat, by omega⟩
  have hq : (m : ℚ) * 2 ^ k / 2 ^ ulpExp64 ((m : ℚ) * 2 ^ k) = ((m * 2 ^ d : ℤ) : ℚ) := by
    rw [div_eq_iff (ne_of_gt (two_zpow_pos _))]
    nth_rewrite 1 [hd]
    rw [zpow_add₀ (by norm_num : (2 : ℚ) ≠ 0)]
    push_cast
    rw [zpow_natCast]
    ring
  have hr : (rne ((m : ℚ) * 2 ^ k / 2 ^ ulpExp64 ((m : ℚ) * 2 ^ k)) : ℚ)
      * 2 ^ ulpExp64 ((m : ℚ) * 2 ^ k) = (m : ℚ) * 2 ^ k := by
    rw [hq, rne_intCast, ← hq]
    field_simp
  unfold rnd64
  rw [hr, if_neg (not_le.mpr hbig)]

theorem rnd64_intCast (n : ℤ) (h : |n| < 2 ^ 53) : rnd64 (n : ℚ) = F64.fin n := by
  have := rnd64_exact n 0 h (by norm_num) (by norm_num)
  simpa using this

/-- Binary64 rounding keeps a value of the unit interval in the unit interval. -/
theorem rnd64_unit (q : ℚ) (h0 : 0 ≤ q) (h1 : q ≤ 1) :
    ∃ r : ℚ, rnd64 q = F64.fin r ∧ 0 ≤ r ∧ r ≤ 1 ∧ |r - q| ≤ 1 / 2 ^ 54 := by
  rcases eq_or_lt_of_le h0 with hz | hpos
  · refine ⟨0, ?_, le_refl _, by norm_num, by rw [← hz]; norm_num⟩
    have := rnd64_intCast 0 (by norm_num)
    rw [← hz]; simpa using this
  rcases eq_or_lt_of_le h1 with ho | hlt
  · refine ⟨1, ?_, by norm_num, le_refl _, by rw [ho]; norm_num⟩
    have := rnd64_intCast 1 (by norm_num)
    rw [ho]; simpa using this
  have habs : |q| = q := abs_of_pos hpos
  have hL : Int.log 2 q < 0 := log_lt_of_lt_zpow q 0 hpos (by simpa using hlt)
  have hup : q < 2 ^ (Int.log 2 q + 1) := by
    have := Int.lt_zpow_succ_log_self (R := ℚ) (b := 2) (by norm_num) q
    exact_mod_cast this
  set e := ulpExp64 q with he
  have he24 : Int.log 2 q + 1 ≤ e + 53 := by
    rw [he]; unfold ulpExp64; rw [habs]
    rcases max_cases (Int.log 2 q) (-1022) with ⟨h1, _⟩ | ⟨h1, _⟩ <;> rw [h1] <;> omega
  have he0 : e + 53 ≤ 0 := by
    rw [he]; unfold ulpExp64; rw [habs]
    rcases max_cases (Int.log 2 q) (-1022) with ⟨h1, _⟩ | ⟨h1, _⟩ <;> rw [h1] <;> omega
  have hx : q / 2 ^ e ≤ ((2 ^ 53 : ℤ) : ℚ) := by
    rw [div_le_iff₀ (two_zpow_pos e)]
    have : (2 : ℚ) ^ (Int.log 2 q + 1) ≤ 2 ^ (e + 53) :=
      zpow_le_zpow_right₀ (by norm_num) he24
    have h2 : (2 : ℚ) ^ (e + 53) = ((2 ^ 53 : ℤ) : ℚ) * 2 ^ e := by
      rw [zpow_add₀ (by norm_num : (2 : ℚ) ≠ 0)]; push_cast; norm_num; ring
    linarith
  have hm1 := rne_le_int _ _ hx
  have hm0 : (0 : ℤ) ≤ rne (q / 2 ^ e) :=
    int_le_rne _ 0 (by simpa using div_nonneg h0 (le_of_lt (two_zpow_pos e)))
  have hr0 : (0 : ℚ) ≤ (rne (q / 2 ^ e) : ℚ) * 2 ^ e :=
    mul_nonneg (by exact_mod_cast hm0) (le_of_lt (two_zpow_pos e))
  have hr1 : (rne (q / 2 ^ e) : ℚ) * 2 ^ e ≤ 1 := by
    calc (rne (q / 2 ^ e) : ℚ) * 2 ^ e ≤ ((2 ^ 53 : ℤ) : ℚ) * 2 ^ e :=
          mul_le_mul_of_nonneg_right (by exact_mod_cast hm1) (le_of_lt (two_zpow_pos e))
      _ = 2 ^ (e + 53) := by
          rw [zpow_add₀ (by norm_num : (2 : ℚ) ≠ 0)]; push_cast; norm_num; ring
      _ ≤ 2 ^ (0 : ℤ) := zpow_le_zpow_right₀ (by norm_num) he0
      _ = 1 := by norm_num
  have hacc : |(rne (q / 2 ^ e) : ℚ) * 2 ^ e - q| ≤ 1 / 2 ^ 54 := by
    have hq : q = q / 2 ^ e * 2 ^ e := by
      field_simp
    have h3 : (rne (q / 2 ^ e) : ℚ) * 2 ^ e - q = ((rne (q / 2 ^ e) : ℚ) - q / 2 ^ e) * 2 ^ e := by
      rw [sub_mul, ← hq]
    rw [h3, abs_mul, abs_of_pos (two_zpow_pos e)]
    have h4 : (2 : ℚ) ^ e ≤ 2 ^ (-53 : ℤ) := zpow_le_zpow_right₀ (by norm_num) (by omega)
    calc |(rne (q / 2 ^ e) : ℚ) - q / 2 ^ e| * 2 ^ e ≤ 1 / 2 * 2 ^ (-53 : ℤ) :=
          mul_le_mul (rne_abs_sub_le _) h4 (le_of_lt (two_zpow_pos e)) (by norm_num)
      _ = 1 / 2 ^ 54 := by norm_num
  refine ⟨(rne (q / 2 ^ e) : ℚ) * 2 ^ e, ?_, hr0, hr1, hacc⟩
  unfold rnd64
  rw [← he, if_neg]
  rw [abs_of_nonneg hr0]
  have : (1 : ℚ) < 2 ^ 1024 := by norm_num
  linarith



/-! ## The messages of the regulator thread -/

theorem cycle_disabled (r : fuzzyreg_t) (msg : ℕ) (item : Option temperature_t)
    (h : r.state = .FUZZYREG_DISABLE) (hd : ∀ i, r.dutycycle i = 0) :
    ∃ r1, cycle r msg item = some r1 ∧ r1.state = .FUZZYREG_DISABLE ∧
      ∀ i, r1.dutycycle i = 0 := by
  have hh : (handleMsg r msg).state = .FUZZYREG_DISABLE ∧
      ∀ i, (handleMsg r msg).dutycycle i = 0 := by
    unfold handleMsg startRoutine stopRoutine disableRoutine
    split_ifs <;> simp_all
  cases item with
  | none => exact ⟨_, rfl, hh.1, hh.2⟩
  | some sample =>
    refine ⟨{ handleMsg r msg with curr_temp := sample }, ?_, hh.1, hh.2⟩
    simp only [cycle, takeSample, hh.1]

theorem run_disabled : ∀ (later : List (ℕ × Option temperature_t)) (r : fuzzyreg_t),
    r.state = .FUZZYREG_DISABLE → (∀ i, r.dutycycle i = 0) →
    ∃ r1, run r later = some r1 ∧ r1.state = .FUZZYREG_DISABLE ∧ ∀ i, r1.dutycycle i = 0 := by
  intro later
  induction later with
  | nil => intro r h hd; exact ⟨r, rfl, h, hd⟩
  | cons x rest ih =>
    intro r h hd
    obtain ⟨msg, item⟩ := x
    obtain ⟨r1, h1, hs, hd1⟩ := cycle_disabled r msg item h hd
    obtain ⟨r2, h2, hs2, hd2⟩ := ih r1 hs hd1
    exact ⟨r2, by simp only [run, h1, Option.some_bind, h2], hs2, hd2⟩

theorem cycle_disable_msg (r : fuzzyreg_t) (item : Option temperature_t) :
    ∃ r1, cycle r FUZZY_REG_DISABLE_MSG item = some r1 ∧ r1.state = .FUZZYREG_DISABLE ∧
      ∀ i, r1.dutycycle i = 0 := by
  have hh : handleMsg r FUZZY_REG_DISABLE_MSG = disableRoutine r := by
    simp [handleMsg, FUZZY_REG_DISABLE_MSG, FUZZY_REG_START_MSG, FUZZY_REG_STOP_MSG]
  cases item with
  | none => exact ⟨_, rfl, by rw [hh]; exact ⟨rfl, fun _ => rfl⟩⟩
  | some sample =>
    refine ⟨{ disableRoutine r with curr_temp := sample }, ?_, rfl, fun _ => rfl⟩
    simp only [cycle, hh, takeSample, disableRoutine]

/-- C11: from every state of the regulator, the turn of the loop that processes a Disable
message leaves state `FUZZYREG_DISABLE` with all three duty cycles `0`, and every
sequence of later turns, whatever messages (Start, Stop, Disable, none) and temperature
samples they fetch, runs to the end and leaves state `FUZZYREG_DISABLE` and all three duty
cycles `0`. -/
theorem disable_is_terminal (r : fuzzyreg_t) (item : Option temperature_t)
    (later : List (ℕ × Option temperature_t)) :
    (∃ r1, cycle r FUZZY_REG_DISABLE_MSG item = some r1 ∧ r1.state = .FUZZYREG_DISABLE ∧
      ∀ i, r1.dutycycle i = 0) ∧
    ∃ r2, run r ((FUZZY_REG_DISABLE_MSG, item) :: later) = some r2 ∧
      r2.state = .FUZZYREG_DISABLE ∧ ∀ i, r2.dutycycle i = 0 := by
  obtain ⟨r1, h1, hs, hd⟩ := cycle_disable_msg r item
  obtain ⟨r2, h2, hs2, hd2⟩ := run_disabled later r1 hs hd
  exact ⟨⟨r1, h1, hs, hd⟩, r2, by simp only [run, h1, Option.some_bind, h2], hs2, hd2⟩

/-! ## A sample above the range of every temperature term but `TEMP_HOT` -/

theorem strength_zero (d : F32) (h : ∃ r : ℚ, d = F32.fin r ∧ 0 ≤ r ∧ r ≤ 1) :
    strength (F32.fin 0) d = F32.fin 0 := by
  obtain ⟨r, rfl, h0, h1⟩ := h
  have h3 : ¬ r = 3 := by intro h; rw [h] at h1; norm_num at h1
  simp only [strength, F32.eq, h3, decide_False, Bool.false_eq_true, if_false, min_fin]
  congr 1
  exact inf_eq_left.mpr h0

theorem FUZZY_RULES_if_side1 (j : Fin FUZZY_RULES_NUM) :
    (FUZZY_RULES j).if_side1 ∈ TEMP_INPUT_MFS.map some := by
  revert j
  decide

theorem FUZZY_RULES_if_side2 (j : Fin FUZZY_RULES_NUM) :
    (FUZZY_RULES j).if_side2 ∈ none :: DTEMP_INPUT_MFS.map some := by
  revert j
  decide

theorem FUZZY_RULES_hot (j : Fin FUZZY_RULES_NUM) :
    (FUZZY_RULES j).if_side1 = some TEMP_HOT ↔ j = 11 := by
  revert j
  decide

theorem hot_strengths (temp dtemp : ℤ) (fl : fuzzy_logic_t) (h : 14848 < temp) :
    (evaluation_rules (fuzzyfication_input FUZZY_RULES temp dtemp fl)).fuzzy_pwm =
      fun j => F32.fin ((if j = 11 then 1 else 0 : ℤ) : ℚ) := by
  have h0 : TEMP_MELTING.call temp = F32.fin 0 := by
    simp only [input_mf.call, TEMP_MELTING, fuzzyficHalfTrapezeTypeMf, if_true]
    rw [if_neg (by omega), if_pos (by omega)]
  have h1 : TEMP_COLD.call temp = F32.fin 0 := by
    simp only [input_mf.call, TEMP_COLD, fuzzyficTriangleTypeMf]
    rw [if_pos (by omega)]
  have h2 : TEMP_MEDIUM.call temp = F32.fin 0 := by
    simp only [input_mf.call, TEMP_MEDIUM, fuzzyficTriangleTypeMf]
    rw [if_pos (by omega)]
  have h3 : TEMP_HOT.call temp = F32.fin 1 := by
    simp only [input_mf.call, TEMP_HOT, fuzzyficHalfTrapezeTypeMf, halfTrapezeRising]
    rw [if_neg (by decide), if_pos trivial, if_neg (by omega), if_pos (by omega)]
  have h4 : TEMP_STERILE.call temp = F32.fin 0 := by
    simp only [input_mf.call, TEMP_STERILE, fuzzyficTrapezeTypeMf]
    rw [if_pos (by omega)]
  have ha : ∀ t : F32, strength t (F32.fin 3) = t := by
    intro t
    simp [strength, F32.eq]
  funext j
  rw [(evaluation_rules_eq _).2.2.1 j, fuzzyfication_input_eq]
  show strength (tempDegree FUZZY_RULES temp j) (dtempDegree FUZZY_RULES dtemp j) = _
  by_cases hj : j = 11
  · subst hj
    rw [if_pos rfl]
    show strength (TEMP_HOT.call temp) (F32.fin 3) = _
    rw [ha, h3]
    norm_num
  · rw [if_neg hj]
    have ht : tempDegree FUZZY_RULES temp j = F32.fin 0 := by
      have h1j := FUZZY_RULES_if_side1 j
      have hnj := mt (FUZZY_RULES_hot j).mp hj
      unfold tempDegree
      simp only [TEMP_INPUT_MFS, List.map_cons, List.map_nil, List.mem_cons,
        List.mem_singleton, List.not_mem_nil, or_false] at h1j
      rcases h1j with e | e | e | e | e
      · rw [e]; exact h0
      · rw [e]; exact h1
      · rw [e]; exact h2
      · exact absurd e hnj
      · rw [e]; exact h4
    have hd : strength (F32.fin 0) (dtempDegree FUZZY_RULES dtemp j) = F32.fin 0 := by
      have h2j := FUZZY_RULES_if_side2 j
      unfold dtempDegree
      rw [List.mem_cons] at h2j
      rcases h2j with e | e
      · rw [e]; exact ha _
      · obtain ⟨mf, hmf, e⟩ := List.mem_map.mp e
        rw [← e]
        exact strength_zero _
          (configured_unit mf (List.mem_append_right _ hmf) dtemp)
    rw [ht, hd]
    norm_num

/-- A sample above 14848 counts fires rule 11 alone: the duty cycle is `PWM_OFF`. -/
theorem hot_duty (temp dtemp : ℤ) (fl : fuzzy_logic_t) (h : 14848 < temp) :
    defuzzyfication FUZZY_RULES
      (evaluation_rules (fuzzyfication_input FUZZY_RULES temp dtemp fl)).fuzzy_pwm = some 0 := by
  rw [hot_strengths temp dtemp fl h,
    defuzzyfication_single FUZZY_RULES FUZZY_RULES_maxpoint 11 1 (by norm_num) (by norm_num)]
  rfl

theorem errorDegrees_zero (v : Fin FUZZY_RULES_NUM → F32)
    (h : ∀ i, v i ≠ F32.fin 2) : errorDegrees v (List.finRange FUZZY_RULES_NUM) = 0 := by
  unfold errorDegrees
  rw [List.countP_eq_zero]
  intro i _
  rw [eq_fin_iff]
  exact h i

theorem call_ne_two (mf : input_mf) (hmf : mf ∈ TEMP_INPUT_MFS ++ DTEMP_INPUT_MFS) (x : ℤ) :
    mf.call x ≠ F32.fin 2 := by
  obtain ⟨r, hr, _, h1⟩ := configured_unit mf hmf x
  rw [hr]
  intro h
  injection h with h
  rw [h] at h1
  norm_num at h1

theorem tempDegree_ne (temp : ℤ) (i : Fin FUZZY_RULES_NUM) :
    tempDegree FUZZY_RULES temp i ≠ F32.fin 2 := by
  obtain ⟨mf, hmf, e⟩ := List.mem_map.mp (FUZZY_RULES_if_side1 i)
  unfold tempDegree
  rw [← e]
  exact call_ne_two mf (List.mem_append_left _ hmf) temp

theorem dtempDegree_ne (dtemp : ℤ) (i : Fin FUZZY_RULES_NUM) :
    dtempDegree FUZZY_RULES dtemp i ≠ F32.fin 2 := by
  have h2 := FUZZY_RULES_if_side2 i
  unfold dtempDegree
  rw [List.mem_cons] at h2
  rcases h2 with e | e
  · rw [e]
    intro h
    injection h with h
    norm_num at h
  · obtain ⟨mf, hmf, e⟩ := List.mem_map.mp e
    rw [← e]
    exact call_ne_two mf (List.mem_append_right _ hmf) dtemp

/-- With the configured table no degree is the error value: `fuzzy_errors` stays. -/
theorem no_fuzzy_errors (temp dtemp : ℤ) (fl : fuzzy_logic_t) :
    (evaluation_rules (fuzzyfication_input FUZZY_RULES temp dtemp fl)).fuzzy_errors
      = fl.fuzzy_errors := by
  rw [(evaluation_rules_eq _).2.2.2.2.2, fuzzyfication_input_eq]
  simp only [errorDegrees_zero _ (tempDegree_ne temp), errorDegrees_zero _ (dtempDegree_ne dtemp),
    add_zero, if_true]


/-! ## The arithmetic of `tg_alpha` -/

theorem rnd_of_eq (q : ℚ) (m k : ℤ) (h : q = (m : ℚ) * 2 ^ k) (hm : |m| < 2 ^ 24)
    (hk : -149 ≤ k) (hk2 : k ≤ 104) : rnd q = F32.fin q := by
  subst h
  exact rnd_exact m k hm hk hk2

theorem rnd64_of_eq (q : ℚ) (m k : ℤ) (h : q = (m : ℚ) * 2 ^ k) (hm : |m| < 2 ^ 53)
    (hk : -1074 ≤ k) (hk2 : k ≤ 971) : rnd64 q = F64.fin q := by
  subst h
  exact rnd64_exact m k hm hk hk2

theorem div_fin (a b : ℚ) (hb : b ≠ 0) : F32.div (F32.fin a) (F32.fin b) = rnd (a / b) := by
  show (if b = 0 then _ else _) = _
  rw [if_neg hb]

/-- The literal `0.0078125` is the binary64 value `1/128`. -/
theorem SENSOR_TEMP_QUANTUM_eq : SENSOR_TEMP_QUANTUM = F64.fin (1 / 128) := by
  unfold SENSOR_TEMP_QUANTUM
  rw [show (78125 / 10000000 : ℚ) = 1 / 128 by norm_num]
  exact rnd64_of_eq _ 1 (-7) (by norm_num) (by norm_num) (by norm_num) (by norm_num)

/-- The literal `0.1` is a binary64 value within `2 ^ (-54)` of one tenth. -/
theorem CRITICAL_TG_ALPHA_eq :
    ∃ c : ℚ, CRITICAL_TG_ALPHA = F64.fin c ∧ 0 ≤ c ∧ c ≤ 1 ∧ |c - 1 / 10| ≤ 1 / 2 ^ 54 :=
  rnd64_unit (1 / 10) (by norm_num) (by norm_num)

/-- The dividend of `tg_alpha` is exact: `res / 128` degrees. -/
theorem tempChange_eq (res : ℤ) (h : |res| < 2 ^ 24) :
    tempChange res = F64.fin ((res : ℚ) / 128) := by
  unfold tempChange
  rw [ofInt_eq res h, SENSOR_TEMP_QUANTUM_eq]
  show rnd64 ((res : ℚ) * (1 / 128)) = _
  rw [show (res : ℚ) * (1 / 128) = (res : ℚ) / 128 by ring]
  exact rnd64_of_eq _ res (-7) (by rw [zpow_neg]; norm_num; ring)
    (lt_trans h (by norm_num)) (by norm_num) (by norm_num)

theorem tgAlpha_fin (res : ℤ) (h : |res| < 2 ^ 24) (e : ℚ) (he : e ≠ 0) :
    tgAlpha res (F32.fin e) = F64.toF32 (rnd64 ((res : ℚ) / 128 / e)) := by
  unfold tgAlpha
  rw [tempChange_eq res h]
  show F64.toF32 (if e = 0 then _ else _) = _
  rw [if_neg he]

/-- The branch for a reference time above the current timestamp, on reference
`86399000` ms and timestamp `500` ms: `86400 - 0.5 + 86399`. -/
theorem elapsedOverMidnight_example :
    elapsedOverMidnight 500 86399000 = F32.fin (345597 / 2) := by
  unfold elapsedOverMidnight SEC_IN_A_DAY
  have h1 : ofInt (500 : ℕ) = F32.fin 500 := by
    simpa using ofInt_eq 500 (by norm_num)
  have h2 : ofInt 1000 = F32.fin 1000 := by
    simpa using ofInt_eq 1000 (by norm_num)
  have h3 : ofInt 86400 = F32.fin 86400 := by
    simpa using ofInt_eq 86400 (by norm_num)
  have h4 : ofInt (86399000 : ℕ) = F32.fin 86399000 := by
    show rnd _ = _
    exact rnd_of_eq _ 10799875 3 (by norm_num) (by norm_num) (by norm_num) (by norm_num)
  rw [h1, h2, h3, h4]
  have d1 : F32.div (F32.fin 500) (F32.fin 1000) = F32.fin (1 / 2) := by
    rw [div_fin _ _ (by norm_num), show (500 / 1000 : ℚ) = 1 / 2 by norm_num, rnd_half]
  have d2 : F32.div (F32.fin 86399000) (F32.fin 1000) = F32.fin 86399 := by
    rw [div_fin _ _ (by norm_num), show (86399000 / 1000 : ℚ) = 86399 by norm_num]
    exact rnd_of_eq _ 86399 0 (by norm_num) (by norm_num) (by norm_num) (by norm_num)
  rw [d1, d2]
  have s1 : F32.sub (F32.fin 86400) (F32.fin (1 / 2)) = F32.fin (172799 / 2) := by
    show rnd (86400 - 1 / 2) = _
    rw [show (86400 - 1 / 2 : ℚ) = 172799 / 2 by norm_num]
    exact rnd_of_eq _ 172799 (-1) (by norm_num) (by norm_num) (by norm_num) (by norm_num)
  rw [s1]
  show rnd (172799 / 2 + 86399) = _
  rw [show (172799 / 2 + 86399 : ℚ) = 345597 / 2 by norm_num]
  exact rnd_of_eq _ 345597 (-1) (by norm_num) (by norm_num) (by norm_num) (by norm_num)

/-- The branch for a reference time below the current timestamp, on whole seconds. -/
theorem elapsedSameDay_seconds (ref n : ℕ) (hn : 0 < n) (h : ref + 1000 * n < 2 ^ 24) :
    elapsedSameDay (ref + 1000 * n) ref = F32.fin n := by
  unfold elapsedSameDay
  have h1 : ofInt ((ref + 1000 * n : ℕ) : ℤ) = F32.fin ((ref + 1000 * n : ℕ) : ℤ) :=
    ofInt_eq _ (by rw [abs_of_nonneg (by positivity)]; exact_mod_cast h)
  have h2 : ofInt (ref : ℤ) = F32.fin (ref : ℤ) :=
    ofInt_eq _ (by rw [abs_of_nonneg (by positivity)]; exact_mod_cast (by omega : ref < 2 ^ 24))
  have h3 : ofInt 1000 = F32.fin 1000 := by
    simpa using ofInt_eq 1000 (by norm_num)
  rw [h1, h2, h3]
  have s1 : F32.sub (F32.fin ((ref + 1000 * n : ℕ) : ℤ)) (F32.fin (ref : ℤ))
      = F32.fin ((1000 * n : ℕ) : ℤ) := by
    show rnd _ = _
    rw [show (((ref + 1000 * n : ℕ) : ℤ) : ℚ) - ((ref : ℤ) : ℚ) = (((1000 * n : ℕ) : ℤ) : ℚ) by
      push_cast; ring]
    exact rnd_intCast _ (by rw [abs_of_nonneg (by positivity)]; exact_mod_cast (by omega))
  rw [s1]
  rw [div_fin _ _ (by norm_num),
    show ((((1000 * n : ℕ) : ℤ) : ℚ)) / 1000 = (((n : ℕ) : ℤ) : ℚ) by push_cast; ring]
  simpa using rnd_intCast n (by rw [abs_of_nonneg (by positivity)]; exact_mod_cast (by omega))

/-- A fall of 1000 counts (7.8125 degrees) in one second. -/
theorem tgAlpha_falling : tgAlpha (-1000) (F32.fin 1) = F32.fin (-125 / 16) := by
  rw [tgAlpha_fin (-1000) (by norm_num [abs_lt]) 1 (by norm_num)]
  rw [show (((-1000 : ℤ) : ℚ)) / 128 / 1 = -125 / 16 by norm_num]
  rw [rnd64_of_eq _ (-125) (-4) (by norm_num) (by norm_num [abs_lt]) (by norm_num)
    (by norm_num)]
  exact rnd_of_eq _ (-125) (-4) (by norm_num) (by norm_num [abs_lt]) (by norm_num)
    (by norm_num)

/-- A rise of 128 counts (one degree) in `2 ^ k` seconds. -/
theorem tgAlpha_rising (k : ℕ) (hk : k ≤ 20) :
    tgAlpha 128 (F32.fin ((2 ^ k : ℕ) : ℚ)) = F32.fin (1 / 2 ^ k) := by
  have hne : (((2 ^ k : ℕ) : ℚ)) ≠ 0 := by positivity
  rw [tgAlpha_fin 128 (by norm_num) _ hne]
  have hq : (((128 : ℤ) : ℚ)) / 128 / ((2 ^ k : ℕ) : ℚ) = 1 / 2 ^ k := by
    push_cast; norm_num
  have hz : (1 / 2 ^ k : ℚ) = ((1 : ℤ) : ℚ) * 2 ^ (-(k : ℤ)) := by
    rw [zpow_neg, zpow_natCast]; norm_num
  rw [hq, rnd64_of_eq _ 1 (-(k : ℤ)) hz (by norm_num) (by omega) (by omega)]
  exact rnd_of_eq _ 1 (-(k : ℤ)) hz (by norm_num) (by omega) (by omega)


/-! ## A turn of the loop on a sample between 14848 and `CRITICAL_TEMP` -/

theorem checkTgAlpha_warm (r : fuzzyreg_t) (i : Fin CHANNEL_NUM)
    (h : MELTING_END_TEMP ≤ r.curr_temp.temp i) : checkTgAlpha r i = meltingBranch r i :=
  if_neg (fun hh => absurd hh.1 (not_lt.mpr h))

theorem channelStep_hot (r : fuzzyreg_t) (i : Fin CHANNEL_NUM)
    (h1 : 14848 < r.curr_temp.temp i) (h2 : r.curr_temp.temp i < CRITICAL_TEMP) :
    channelStep r i = some (meltingBranch
      { r with
        fl := evaluation_rules (fuzzyfication_input FUZZY_RULES (r.curr_temp.temp i)
          (r.curr_temp.dtemp i) r.fl)
        dutycycle := Function.update r.dutycycle i 0 } i) := by
  have hc : critTemp r i = r := by
    unfold critTemp
    rw [if_neg (not_le.mpr h2)]
  unfold channelStep
  rw [hc, hot_duty _ _ _ h1, Option.map_some']
  congr 1
  exact checkTgAlpha_warm _ i (by
    show MELTING_END_TEMP ≤ r.curr_temp.temp i
    unfold MELTING_END_TEMP
    omega)

theorem channelStep_first (r : fuzzyreg_t) (i : Fin CHANNEL_NUM)
    (h1 : 14848 < r.curr_temp.temp i) (h2 : r.curr_temp.temp i < CRITICAL_TEMP)
    (hm : r.melting_time i = 0) :
    channelStep r i = some
      { r with
        fl := evaluation_rules (fuzzyfication_input FUZZY_RULES (r.curr_temp.temp i)
          (r.curr_temp.dtemp i) r.fl)
        dutycycle := Function.update r.dutycycle i 0
        melting_time := Function.update r.melting_time i r.curr_temp.timestamp
        start_temp := Function.update r.start_temp i (r.curr_temp.temp i) } := by
  rw [channelStep_hot r i h1 h2]
  unfold meltingBranch
  rw [if_pos hm]

theorem channelStep_next (r : fuzzyreg_t) (i : Fin CHANNEL_NUM)
    (h1 : 14848 < r.curr_temp.temp i) (h2 : r.curr_temp.temp i < CRITICAL_TEMP)
    (hm : r.melting_time i ≠ 0) :
    channelStep r i = some (critCheck
      { r with
        fl := evaluation_rules (fuzzyfication_input FUZZY_RULES (r.curr_temp.temp i)
          (r.curr_temp.dtemp i) r.fl)
        dutycycle := Function.update r.dutycycle i 0
        tg_alpha := Function.update r.tg_alpha i
          (updateTgAlpha (r.tg_alpha i) (wrap16 (r.curr_temp.temp i - r.start_temp i))
            (r.melting_time i) r.curr_temp.timestamp) } i) := by
  rw [channelStep_hot r i h1 h2]
  unfold meltingBranch
  rw [if_neg hm]


theorem critCheck_eq (r : fuzzyreg_t) (i : Fin CHANNEL_NUM) :
    critCheck r i =
      { r with mails := r.mails ++
          (if F64.ge (F32.toF64 (r.tg_alpha i)) CRITICAL_TG_ALPHA then [CRIT_DTEMP_ERR_MSG]
           else []) } := by
  unfold critCheck
  split_ifs <;> simp

theorem fuzzyErrorMail_none (r : fuzzyreg_t) (h : r.fl.fuzzy_errors = 0) :
    fuzzyErrorMail r = r := by
  unfold fuzzyErrorMail
  rw [if_neg (not_not.mpr h)]

/-- The first sample of a run above 14848 counts on the three channels: each channel
records the timestamp as `melting_time` and the temperature as `start_temp`. -/
theorem activeCase_first (r : fuzzyreg_t) (ts : ℕ) (temp : ℤ)
    (hcur : r.curr_temp = sampleAt ts temp) (h1 : 14848 < temp) (h2 : temp < CRITICAL_TEMP)
    (hm : ∀ i, r.melting_time i = 0) (hf : r.fl.fuzzy_errors = 0) :
    ∃ r1, activeCase r = some r1 ∧ r1.state = r.state ∧ r1.curr_temp = r.curr_temp ∧
      (∀ i, r1.melting_time i = ts) ∧ (∀ i, r1.start_temp i = temp) ∧
      r1.idle_time = r.idle_time ∧ r1.tg_alpha = r.tg_alpha ∧ r1.mails = r.mails ∧
      r1.fl.fuzzy_errors = 0 ∧ ∀ i, r1.dutycycle i = 0 := by
  have ht : ∀ i, r.curr_temp.temp i = temp := fun i => by rw [hcur]; rfl
  have hts : r.curr_temp.timestamp = ts := by rw [hcur]; rfl
  unfold activeCase
  rw [channelStep_first r 0 (by rw [ht]; exact h1) (by rw [ht]; exact h2) (hm 0),
    Option.some_bind,
    channelStep_first _ 1 (by simp only [ht]; exact h1) (by simp only [ht]; exact h2)
      (by simp [hm]),
    Option.some_bind,
    channelStep_first _ 2 (by simp only [ht]; exact h1) (by simp only [ht]; exact h2)
      (by simp [hm]),
    Option.map_some', fuzzyErrorMail_none _ (by simp only [no_fuzzy_errors]; exact hf)]
  refine ⟨_, rfl, ?_⟩
  refine ⟨rfl, rfl, ?_, ?_, rfl, rfl, rfl, ?_, ?_⟩
  · intro i
    simp only [hts]
    fin_cases i <;> rfl
  · intro i
    simp only [ht]
    fin_cases i <;> rfl
  · simp only [no_fuzzy_errors]
    exact hf
  · intro i
    fin_cases i <;> rfl

/-- A later sample above 14848 counts on the three channels, all with reference time `m`,
start temperature `s` and old rate `a`: each channel computes `tg_alpha` anew and compares
it with `CRITICAL_TG_ALPHA`. -/
theorem activeCase_next (r : fuzzyreg_t) (ts : ℕ) (temp : ℤ) (m : ℕ) (s : ℤ) (a : F32)
    (hcur : r.curr_temp = sampleAt ts temp) (h1 : 14848 < temp) (h2 : temp < CRITICAL_TEMP)
    (hm : ∀ i, r.melting_time i = m) (hm0 : m ≠ 0) (hs : ∀ i, r.start_temp i = s)
    (ha : ∀ i, r.tg_alpha i = a) (hf : r.fl.fuzzy_errors = 0) :
    ∃ r1, activeCase r = some r1 ∧ r1.state = r.state ∧ r1.curr_temp = r.curr_temp ∧
      r1.melting_time = r.melting_time ∧ r1.start_temp = r.start_temp ∧
      r1.idle_time = r.idle_time ∧
      (∀ i, r1.tg_alpha i = updateTgAlpha a (wrap16 (temp - s)) m ts) ∧
      r1.mails = r.mails ++
        (if F64.ge (F32.toF64 (updateTgAlpha a (wrap16 (temp - s)) m ts)) CRITICAL_TG_ALPHA
         then [CRIT_DTEMP_ERR_MSG, CRIT_DTEMP_ERR_MSG, CRIT_DTEMP_ERR_MSG] else []) ∧
      r1.fl.fuzzy_errors = 0 ∧ ∀ i, r1.dutycycle i = 0 := by
  have ht : ∀ i, r.curr_temp.temp i = temp := fun i => by rw [hcur]; rfl
  have hts : r.curr_temp.timestamp = ts := by rw [hcur]; rfl
  unfold activeCase
  rw [channelStep_next r 0 (by rw [ht]; exact h1) (by rw [ht]; exact h2) (by rw [hm]; exact hm0),
    Option.some_bind, critCheck_eq,
    channelStep_next _ 1 (by simp only [ht]; exact h1) (by simp only [ht]; exact h2)
      (by simp only [hm]; exact hm0),
    Option.some_bind, critCheck_eq,
    channelStep_next _ 2 (by simp only [ht]; exact h1) (by simp only [ht]; exact h2)
      (by simp only [hm]; exact hm0),
    Option.map_some', critCheck_eq, fuzzyErrorMail_none _ (by simp only [no_fuzzy_errors]; exact hf)]
  refine ⟨_, rfl, ?_⟩
  have e1 : ∀ x, Function.update r.tg_alpha 0 x 1 = a := fun x => by
    rw [Function.update_noteq (by decide)]
    exact ha 1
  have e2 : ∀ x y, Function.update (Function.update r.tg_alpha 0 x) 1 y 2 = a := fun x y => by
    rw [Function.update_noteq (by decide), Function.update_noteq (by decide)]
    exact ha 2
  refine ⟨rfl, rfl, rfl, rfl, rfl, ?_, ?_, ?_, ?_⟩
  · intro i
    simp only [ht, hts, hm, hs, ha, e1, e2]
    fin_cases i <;> rfl
  · simp only [ht, hts, hm, hs, ha, e1, e2, Function.update_same]
    split_ifs <;> simp
  · simp only [no_fuzzy_errors]
    exact hf
  · intro i
    fin_cases i <;> rfl


/-! ## The comparison with `CRITICAL_TG_ALPHA` -/

theorem critical_ge (q : ℚ) (h : 1 / 10 + 1 / 2 ^ 54 ≤ q) :
    F64.ge (F32.toF64 (F32.fin q)) CRITICAL_TG_ALPHA = true := by
  obtain ⟨c, hc, _, _, habs⟩ := CRITICAL_TG_ALPHA_eq
  rw [hc]
  show decide (c ≤ q) = true
  rw [decide_eq_true_eq]
  have := (abs_le.mp habs).2
  linarith

theorem critical_lt (q : ℚ) (h : q < 1 / 10 - 1 / 2 ^ 54) :
    F64.ge (F32.toF64 (F32.fin q)) CRITICAL_TG_ALPHA = false := by
  obtain ⟨c, hc, _, _, habs⟩ := CRITICAL_TG_ALPHA_eq
  rw [hc]
  show decide (c ≤ q) = false
  rw [decide_eq_false_iff_not]
  have := (abs_le.mp habs).1
  intro hcq
  linarith

theorem updateTgAlpha_rising (a : F32) (ref k : ℕ) (hk : k ≤ 20)
    (href : ref + 1000 * 2 ^ k < 2 ^ 24) :
    updateTgAlpha a 128 ref (ref + 1000 * 2 ^ k) = F32.fin (1 / 2 ^ k) := by
  have hpos : 0 < 2 ^ k := by positivity
  unfold updateTgAlpha
  rw [if_neg (by omega), if_pos (by omega), elapsedSameDay_seconds ref (2 ^ k) hpos href]
  exact tgAlpha_rising k hk

theorem updateTgAlpha_falling (a : F32) :
    updateTgAlpha a (-1000) 1000 2000 = F32.fin (-125 / 16) := by
  unfold updateTgAlpha
  rw [if_neg (by norm_num), if_pos (by norm_num)]
  have := elapsedSameDay_seconds 1000 1 (by norm_num) (by norm_num)
  rw [show (1000 + 1000 * 1 : ℕ) = 2000 by rfl] at this
  rw [this]
  simpa using tgAlpha_falling

/-! ## Turns of the loop -/

theorem cycle_start (r : fuzzyreg_t) (h : r.state = .FUZZYREG_STOP) :
    cycle r FUZZY_REG_START_MSG none =
      some { r with fl := fuzzy_logic_zero, start_temp := r.curr_temp.temp,
                    state := .FUZZYREG_ACTIVE } := by
  simp [cycle, handleMsg, startRoutine, h]

theorem cycle_stop (r : fuzzyreg_t) (h : r.state = .FUZZYREG_ACTIVE) :
    cycle r FUZZY_REG_STOP_MSG none =
      some { r with dutycycle := fun _ => 0, state := .FUZZYREG_STOP } := by
  simp [cycle, handleMsg, stopRoutine, h, FUZZY_REG_STOP_MSG, FUZZY_REG_START_MSG]

theorem cycle_sample (r : fuzzyreg_t) (sample : temperature_t)
    (h : r.state = .FUZZYREG_ACTIVE) :
    cycle r 0 (some sample) = activeCase { r with curr_temp := sample } := by
  simp [cycle, handleMsg, takeSample, h, FUZZY_REG_STOP_MSG, FUZZY_REG_START_MSG,
    FUZZY_REG_DISABLE_MSG]

theorem stop_start_keeps (r : fuzzyreg_t) :
    (startRoutine (stopRoutine r)).idle_time = r.idle_time ∧
    (startRoutine (stopRoutine r)).melting_time = r.melting_time ∧
    (startRoutine (stopRoutine r)).tg_alpha = r.tg_alpha := by
  unfold startRoutine stopRoutine
  split_ifs <;> exact ⟨rfl, rfl, rfl⟩

/-- Start, one sample of 15000 counts at time `t1`, Stop, Start, one sample of 15128 counts
at time `t1 + 1000 * 2 ^ k`. -/
theorem two_runs (t1 k : ℕ) (ht : t1 ≠ 0) (hk : k ≤ 20) (h : t1 + 1000 * 2 ^ k < 2 ^ 24) :
    ∃ r1, run regulatorInit [(FUZZY_REG_START_MSG, none), (0, some (sampleAt t1 15000)),
        (FUZZY_REG_STOP_MSG, none), (FUZZY_REG_START_MSG, none),
        (0, some (sampleAt (t1 + 1000 * 2 ^ k) 15128))] = some r1 ∧
      (∀ i, r1.melting_time i = t1) ∧ (∀ i, r1.start_temp i = 15000) ∧
      (∀ i, r1.tg_alpha i = F32.fin (1 / 2 ^ k)) ∧
      r1.mails = (if F64.ge (F32.toF64 (F32.fin (1 / 2 ^ k))) CRITICAL_TG_ALPHA
         then [CRIT_DTEMP_ERR_MSG, CRIT_DTEMP_ERR_MSG, CRIT_DTEMP_ERR_MSG] else []) := by
  obtain ⟨a, ha, hst, hcur, hmt, _, _, hta, hmail, hfe, _⟩ :=
    activeCase_first
      { regulatorInit with fl := fuzzy_logic_zero, start_temp := regulatorInit.curr_temp.temp,
                           state := .FUZZYREG_ACTIVE, curr_temp := sampleAt t1 15000 }
      t1 15000 rfl (by norm_num) (by norm_num [CRITICAL_TEMP]) (fun _ => rfl) rfl
  obtain ⟨b, hb, _, _, hbm, hbs, _, hbt, hbmail, _, _⟩ :=
    activeCase_next
      { a with dutycycle := fun _ => 0, fl := fuzzy_logic_zero, start_temp := a.curr_temp.temp,
               state := .FUZZYREG_ACTIVE, curr_temp := sampleAt (t1 + 1000 * 2 ^ k) 15128 }
      (t1 + 1000 * 2 ^ k) 15128 t1 15000 (F32.fin 0) rfl (by norm_num)
      (by norm_num [CRITICAL_TEMP]) hmt ht (fun i => by show a.curr_temp.temp i = _; rw [hcur]; rfl)
      (fun i => by show a.tg_alpha i = _; rw [hta]; rfl) rfl
  have hw : wrap16 (15128 - 15000) = 128 := by decide
  rw [hw, updateTgAlpha_rising _ t1 k hk h] at hbt hbmail
  refine ⟨b, ?_, ?_, ?_, hbt, ?_⟩
  · rw [run, cycle_start _ rfl, Option.some_bind, run, cycle_sample _ _ rfl, ha,
      Option.some_bind, run, cycle_stop _ hst, Option.some_bind, run, cycle_start _ rfl,
      Option.some_bind, run, cycle_sample _ _ rfl, hb, Option.some_bind, run]
  · intro i
    rw [hbm]
    exact hmt i
  · intro i
    rw [hbs]
    show a.curr_temp.temp i = _
    rw [hcur]
    rfl
  · rw [hbmail]
    show a.mails ++ _ = _
    rw [hmail]
    rfl


/-! ## The elapsed time across midnight -/

theorem tgAlpha_small (e : ℚ) (he : 300 ≤ e) :
    ∃ q : ℚ, tgAlpha 192 (F32.fin e) = F32.fin q ∧ 0 ≤ q ∧ q < 1 / 100 := by
  have hpos : 0 < e := by linarith
  rw [tgAlpha_fin 192 (by norm_num) e (ne_of_gt hpos)]
  have h0 : (0 : ℚ) ≤ ((192 : ℤ) : ℚ) / 128 / e := by positivity
  have h1 : ((192 : ℤ) : ℚ) / 128 / e ≤ 1 / 200 := by
    rw [div_le_iff₀ hpos]
    push_cast
    linarith
  obtain ⟨r1, e1, p1, q1, a1⟩ := rnd64_unit _ h0 (by linarith)
  rw [e1]
  obtain ⟨r2, e2, p2, _, a2⟩ := rnd_unit r1 p1 q1
  refine ⟨r2, e2, p2, ?_⟩
  have b1 := (abs_le.mp a1).2
  have b2 := (abs_le.mp a2).2
  have c1 : (1 : ℚ) / 2 ^ 54 ≤ 1 / 1000 := by norm_num
  have c2 : (1 : ℚ) / 2 ^ 25 ≤ 1 / 1000 := by norm_num
  linarith

theorem tgAlpha_unit_rate : tgAlpha 192 (F32.fin (3 / 2)) = F32.fin 1 := by
  rw [tgAlpha_fin 192 (by norm_num) _ (by norm_num)]
  rw [show (((192 : ℤ) : ℚ)) / 128 / (3 / 2) = 1 by norm_num]
  rw [rnd64_of_eq _ 1 0 (by norm_num) (by norm_num) (by norm_num) (by norm_num)]
  exact rnd_one

theorem meltingBranch_rate (r : fuzzyreg_t) (i : Fin CHANNEL_NUM) (h : r.melting_time i ≠ 0) :
    (meltingBranch r i).tg_alpha i =
      updateTgAlpha (r.tg_alpha i) (wrap16 (r.curr_temp.temp i - r.start_temp i))
        (r.melting_time i) r.curr_temp.timestamp := by
  unfold meltingBranch
  rw [if_neg h, critCheck_eq]
  exact Function.update_same _ _ _

/-- C12: with reference time `86399000` ms and sample timestamp `500` ms the divisor of
`tg_alpha` is `86400 - 0.5 + 86399 = 172798.5` seconds, not the `1.5` seconds that
elapsed: the branch for a reference above the timestamp subtracts the timestamp and adds
the reference.  A rise of 192 counts (1.5 degrees) then gives a rate below `0.01` where
the divisor `1.5` gives the rate `1`. -/
theorem midnight_divisor_swapped :
    elapsedOverMidnight 500 86399000 = F32.fin (345597 / 2) ∧
    (∀ (old : F32) (res : ℤ),
      updateTgAlpha old res 86399000 500 = tgAlpha res (F32.fin (345597 / 2))) ∧
    (∀ (r : fuzzyreg_t) (i : Fin CHANNEL_NUM),
      (meltingBranch { r with melting_time := fun _ => 86399000
                              curr_temp := { r.curr_temp with timestamp := 500 } } i).tg_alpha i
        = tgAlpha (wrap16 (r.curr_temp.temp i - r.start_temp i)) (F32.fin (345597 / 2))) ∧
    tgAlpha 192 (F32.fin ((86400000 - 86399000 + 500) / 1000)) = F32.fin 1 ∧
    ∃ q : ℚ, tgAlpha 192 (F32.fin (345597 / 2)) = F32.fin q ∧ q < 1 / 100 := by
  have hu : ∀ (old : F32) (res : ℤ),
      updateTgAlpha old res 86399000 500 = tgAlpha res (F32.fin (345597 / 2)) := by
    intro old res
    unfold updateTgAlpha
    rw [if_pos (by norm_num), elapsedOverMidnight_example]
  refine ⟨elapsedOverMidnight_example, hu, ?_, ?_, ?_⟩
  · intro r i
    rw [meltingBranch_rate _ i (by show (86399000 : ℕ) ≠ 0; norm_num)]
    exact hu _ _
  · rw [show ((86400000 - 86399000 + 500) / 1000 : ℚ) = 3 / 2 by norm_num]
    exact tgAlpha_unit_rate
  · obtain ⟨q, hq, _, h⟩ := tgAlpha_small (345597 / 2) (by norm_num)
    exact ⟨q, hq, h⟩

/-! ## The rate check -/

theorem checkTgAlpha_computed (r : fuzzyreg_t) (i : Fin CHANNEL_NUM)
    (hm : r.melting_time i ≠ 0 ∨ (r.curr_temp.temp i < MELTING_END_TEMP ∧ r.idle_time i ≠ 0)) :
    ∃ t, checkTgAlpha r i = critCheck { r with tg_alpha := Function.update r.tg_alpha i t } i := by
  unfold checkTgAlpha
  split_ifs with hc
  · have hidle : r.idle_time i ≠ 0 := by
      rcases hm with h | h
      · exact absurd hc.2 h
      · exact h.2
    unfold idleBranch
    simp only [hidle, and_false, if_false, ne_eq, not_false_eq_true, if_true]
    exact ⟨_, rfl⟩
  · have hmelt : r.melting_time i ≠ 0 := by
      rcases hm with h | h
      · exact h
      · intro h0
        exact hc ⟨h.1, h0⟩
    unfold meltingBranch
    rw [if_neg hmelt]
    exact ⟨_, rfl⟩

theorem checkTgAlpha_mails (r : fuzzyreg_t) (i : Fin CHANNEL_NUM)
    (hm : r.melting_time i ≠ 0 ∨ (r.curr_temp.temp i < MELTING_END_TEMP ∧ r.idle_time i ≠ 0)) :
    (checkTgAlpha r i).mails = r.mails ++
      (if F64.ge (F32.toF64 ((checkTgAlpha r i).tg_alpha i)) CRITICAL_TG_ALPHA
       then [CRIT_DTEMP_ERR_MSG] else []) := by
  obtain ⟨t, ht⟩ := checkTgAlpha_computed r i hm
  rw [ht, critCheck_eq]

/-- C13 (amended): in every turn of the Active regulator in which the channel has a
reference time on record, so that `tg_alpha` is computed, `CRIT_DTEMP_ERR_MSG` is posted
exactly when the signed `tg_alpha`, as a `double`, is at least `CRITICAL_TG_ALPHA`: a
finite rate of at least `0.1 + 2 ^ (-54)` posts it once, a rate below `0.1 - 2 ^ (-54)`,
in particular every negative rate whatever its size, posts nothing. -/
theorem rate_anomaly_is_signed (r : fuzzyreg_t) (i : Fin CHANNEL_NUM)
    (hm : r.melting_time i ≠ 0 ∨ (r.curr_temp.temp i < MELTING_END_TEMP ∧ r.idle_time i ≠ 0)) :
    (checkTgAlpha r i).mails = r.mails ++
      (if F64.ge (F32.toF64 ((checkTgAlpha r i).tg_alpha i)) CRITICAL_TG_ALPHA
       then [CRIT_DTEMP_ERR_MSG] else []) ∧
    ∀ q : ℚ, (checkTgAlpha r i).tg_alpha i = F32.fin q →
      (1 / 10 + 1 / 2 ^ 54 ≤ q → (checkTgAlpha r i).mails = r.mails ++ [CRIT_DTEMP_ERR_MSG]) ∧
      (q < 1 / 10 - 1 / 2 ^ 54 → (checkTgAlpha r i).mails = r.mails) ∧
      (q < 0 → (checkTgAlpha r i).mails = r.mails) := by
  have key := checkTgAlpha_mails r i hm
  refine ⟨key, ?_⟩
  intro q hq
  rw [hq] at key
  refine ⟨?_, ?_, ?_⟩
  · intro h
    rw [key, critical_ge q h, if_pos rfl]
  · intro h
    rw [key, critical_lt q h]
    simp
  · intro h
    rw [key, critical_lt q (lt_trans h (by norm_num))]
    simp

/-- Witness of C13 (amended): a channel with reference time `1000` on record. -/
theorem rate_anomaly_is_signed_witness :
    (checkTgAlpha { regulatorInit with melting_time := fun _ => 1000 } 0).mails =
      [] ++ (if F64.ge (F32.toF64
          ((checkTgAlpha { regulatorInit with melting_time := fun _ => 1000 } 0).tg_alpha 0))
          CRITICAL_TG_ALPHA
        then [CRIT_DTEMP_ERR_MSG] else []) :=
  (rate_anomaly_is_signed { regulatorInit with melting_time := fun _ => 1000 } 0
    (Or.inl (by decide))).1

/-- C13 (counterexample): Start, a sample of 15900 counts at 1000 ms, a sample of 14900
counts at 2000 ms.  The second turn computes `tg_alpha = -7.8125` degrees per second on
every channel, of absolute value above `0.1`, and no error is posted. -/
theorem falling_rate_not_reported :
    ∃ r1, run regulatorInit [(FUZZY_REG_START_MSG, none), (0, some (sampleAt 1000 15900)),
        (0, some (sampleAt 2000 14900))] = some r1 ∧
      r1.state = .FUZZYREG_ACTIVE ∧ (∀ i, r1.tg_alpha i = F32.fin (-125 / 16)) ∧
      r1.mails = [] ∧ (1 / 10 : ℚ) < |(-125 / 16 : ℚ)| := by
  obtain ⟨a, ha, hst, hcur, hmt, hstart, _, hta, hmail, hfe, _⟩ :=
    activeCase_first
      { regulatorInit with fl := fuzzy_logic_zero, start_temp := regulatorInit.curr_temp.temp,
                           state := .FUZZYREG_ACTIVE, curr_temp := sampleAt 1000 15900 }
      1000 15900 rfl (by norm_num) (by norm_num [CRITICAL_TEMP]) (fun _ => rfl) rfl
  obtain ⟨b, hb, hbst, _, _, _, _, hbt, hbmail, _, _⟩ :=
    activeCase_next { a with curr_temp := sampleAt 2000 14900 }
      2000 14900 1000 15900 (F32.fin 0) rfl (by norm_num)
      (by norm_num [CRITICAL_TEMP]) hmt (by norm_num) hstart
      (fun i => by show a.tg_alpha i = _; rw [hta]; rfl) hfe
  have hw : wrap16 (14900 - 15900) = -1000 := by decide
  rw [hw, updateTgAlpha_falling] at hbt hbmail
  rw [critical_lt _ (by norm_num)] at hbmail
  refine ⟨b, ?_, ?_, hbt, ?_, ?_⟩
  · rw [run, cycle_start _ rfl, Option.some_bind, run, cycle_sample _ _ rfl, ha,
      Option.some_bind, run, cycle_sample _ _ hst, hb, Option.some_bind, run]
  · rw [hbst]
    exact hst
  · rw [hbmail]
    show a.mails ++ _ = _
    rw [hmail]
    rfl
  · rw [abs_of_neg (by norm_num)]
    norm_num

/-! ## A second Start -/

/-- C14: Stop followed by Start leaves `idle_time`, `melting_time` and `tg_alpha` of
every channel as the first run left them.  After Start, a sample of 15000 counts at
1000 ms (at 3000 ms in a second history), Stop, Start and a sample of 15128 counts at
5000 ms, `melting_time` is still the time of the first run and `tg_alpha` is one degree
over the 4 s (2 s) since then, `0.25` (`0.5`), which posts `CRIT_DTEMP_ERR_MSG` for each
channel; the same sample as the first one of a first run computes no rate and posts
nothing. -/
theorem second_start_keeps_references :
    (∀ r : fuzzyreg_t,
      (startRoutine (stopRoutine r)).idle_time = r.idle_time ∧
      (startRoutine (stopRoutine r)).melting_time = r.melting_time ∧
      (startRoutine (stopRoutine r)).tg_alpha = r.tg_alpha) ∧
    (∃ r1, run regulatorInit [(FUZZY_REG_START_MSG, none), (0, some (sampleAt 1000 15000)),
        (FUZZY_REG_STOP_MSG, none), (FUZZY_REG_START_MSG, none),
        (0, some (sampleAt 5000 15128))] = some r1 ∧
      (∀ i, r1.melting_time i = 1000) ∧ (∀ i, r1.tg_alpha i = F32.fin (1 / 4)) ∧
      r1.mails = [CRIT_DTEMP_ERR_MSG, CRIT_DTEMP_ERR_MSG, CRIT_DTEMP_ERR_MSG]) ∧
    (∃ r2, run regulatorInit [(FUZZY_REG_START_MSG, none), (0, some (sampleAt 3000 15000)),
        (FUZZY_REG_STOP_MSG, none), (FUZZY_REG_START_MSG, none),
        (0, some (sampleAt 5000 15128))] = some r2 ∧
      (∀ i, r2.melting_time i = 3000) ∧ (∀ i, r2.tg_alpha i = F32.fin (1 / 2)) ∧
      r2.mails = [CRIT_DTEMP_ERR_MSG, CRIT_DTEMP_ERR_MSG, CRIT_DTEMP_ERR_MSG]) ∧
    (∃ r3, run regulatorInit [(FUZZY_REG_START_MSG, none), (0, some (sampleAt 5000 15128))]
        = some r3 ∧
      (∀ i, r3.melting_time i = 5000) ∧ (∀ i, r3.tg_alpha i = F32.fin 0) ∧ r3.mails = []) := by
  refine ⟨stop_start_keeps, ?_, ?_, ?_⟩
  · obtain ⟨r1, h1, hm, _, ht, hmail⟩ := two_runs 1000 2 (by norm_num) (by norm_num) (by norm_num)
    rw [critical_ge _ (by norm_num), if_pos rfl] at hmail
    refine ⟨r1, h1, hm, ?_, hmail⟩
    intro i
    rw [ht]
    norm_num
  · obtain ⟨r2, h2, hm, _, ht, hmail⟩ := two_runs 3000 1 (by norm_num) (by norm_num) (by norm_num)
    rw [critical_ge _ (by norm_num), if_pos rfl] at hmail
    refine ⟨r2, h2, hm, ?_, hmail⟩
    intro i
    rw [ht]
    norm_num
  · obtain ⟨a, ha, _, _, hmt, _, _, hta, hmail, _, _⟩ :=
      activeCase_first
        { regulatorInit with fl := fuzzy_logic_zero, start_temp := regulatorInit.curr_temp.temp,
                             state := .FUZZYREG_ACTIVE, curr_temp := sampleAt 5000 15128 }
        5000 15128 rfl (by norm_num) (by norm_num [CRITICAL_TEMP]) (fun _ => rfl) rfl
    refine ⟨a, ?_, hmt, ?_, ?_⟩
    · rw [run, cycle_start _ rfl, Option.some_bind, run, cycle_sample _ _ rfl, ha,
        Option.some_bind, run]
    · intro i
      rw [hta]
      rfl
    · rw [hmail]
      rfl

end Regulator

namespace Sterilizer

/-! ## Non-sterile samples -/

theorem freeLoop_itemnum : ∀ (l : List result_item) (res : result_t) (pool : ℕ),
    res.itemnum = l.length → l.length < 256 → (freeLoop l res pool).1.itemnum = 0 := by
  intro l
  induction l with
  | nil =>
    intro res pool h _
    simpa [freeLoop] using h
  | cons a rest ih =>
    intro res pool h hl
    rw [freeLoop]
    apply ih
    · show u8 (res.itemnum + 255) = rest.length
      rw [h, List.length_cons] at *
      unfold u8
      omega
    · rw [List.length_cons] at hl
      omega

theorem freeResultList_itemnum (s : Sys) (hne : s.result.head ≠ [])
    (hi : s.result.itemnum = s.result.head.length) (hl : s.result.head.length < 256) :
    (freeResultList s).result.itemnum = 0 := by
  unfold freeResultList
  split
  · rename_i he
    exact absurd he hne
  · rename_i a l he
    show (freeLoop s.result.head s.result s.pool).1.itemnum = 0
    exact freeLoop_itemnum _ _ _ hi hl

/-- Non-sterile turns on an empty list change neither the state, nor the list, nor the
swing counter. -/
theorem nonsterile_run (interval : ℕ) : ∀ (inputs : List Input) (s : Sys),
    s.sterilizer.state = .STERILIZER_ACTIVE → s.result.head = [] →
    s.result.itemnum ≠ RESULT_LIST_SIZE →
    (∀ x ∈ inputs, x.msg = 0 ∧ x.temp.is_sterile = false) →
    (run interval s inputs).sterilizer.state = .STERILIZER_ACTIVE ∧
    (run interval s inputs).result.head = [] ∧
    (run interval s inputs).sterilizer.num_of_swing = s.sterilizer.num_of_swing ∧
    (run interval s inputs).result.finalresult = s.result.finalresult ∧
    (run interval s inputs).regulator = s.regulator := by
  intro inputs
  induction inputs with
  | nil => intro s h he _ _; exact ⟨h, he, rfl, rfl, rfl⟩
  | cons inp rest ih =>
    intro s h he hn hall
    have hinp := hall inp (List.mem_cons_self _ _)
    have hrest : ∀ x ∈ rest, x.msg = 0 ∧ x.temp.is_sterile = false :=
      fun x hx => hall x (List.mem_cons_of_mem _ hx)
    simp only [run, List.foldl_cons]
    by_cases ht : s.result.savetime ≤ inp.now
    · rw [cycle_nothing interval s inp h hinp.1 ht hinp.2 he hn]
      exact ih _ h he hn hrest
    · rw [cycle_idle interval s inp h hinp.1 (by omega) hn]
      exact ih s h he hn hrest

theorem swing_turn (interval : ℕ) (s : Sys) (inp : Input)
    (h : s.sterilizer.state = .STERILIZER_ACTIVE) (hm : inp.msg = 0)
    (ht : s.result.savetime ≤ inp.now) (hst : inp.temp.is_sterile = false)
    (hne : s.result.head ≠ []) (hi : s.result.itemnum = s.result.head.length)
    (hl : s.result.head.length ≤ RESULT_LIST_SIZE)
    (hsw : s.sterilizer.num_of_swing < NUM_OF_TEMP_SWING) :
    (cycle interval s inp).sterilizer.state = .STERILIZER_ACTIVE ∧
    (cycle interval s inp).result.head = [] ∧
    (cycle interval s inp).result.itemnum = 0 ∧
    (cycle interval s inp).sterilizer.num_of_swing = s.sterilizer.num_of_swing + 1 := by
  rw [cycle_swing interval s inp h hm ht hst hne (le_of_lt hsw)]
  refine ⟨?_, ?_, ?_, ?_⟩
  · show (freeResultList _).sterilizer.state = _
    rw [freeResultList_sterilizer]
    exact h
  · show (freeResultList _).result.head = _
    exact freeResultList_head _
  · show (freeResultList _).result.itemnum = _
    exact freeResultList_itemnum _ hne hi (lt_of_le_of_lt hl (by decide))
  · show (freeResultList _).sterilizer.num_of_swing = _
    rw [freeResultList_sterilizer]
    show u8 (s.sterilizer.num_of_swing + 1) = _
    unfold u8
    unfold NUM_OF_TEMP_SWING at hsw
    omega

theorem failure_turn (interval : ℕ) (s : Sys) (inp : Input)
    (h : s.sterilizer.state = .STERILIZER_ACTIVE) (hm : inp.msg = 0)
    (ht : s.result.savetime ≤ inp.now) (hst : inp.temp.is_sterile = false)
    (hne : s.result.head ≠ []) (hp : s.pool ≠ 0)
    (hsw : NUM_OF_TEMP_SWING < s.sterilizer.num_of_swing) :
    (cycle interval s inp).sterilizer.state = .STERILIZER_SAVE ∧
    (cycle interval s inp).result.finalresult = false ∧
    (cycle interval s inp).result.head = s.result.head ++
      [⟨s.result.itemnum, inp.temp.timestamp / 1000, inp.temp.temp, false⟩] ∧
    (cycle interval s inp).regulator = s.regulator ++ [Regulator.FUZZY_REG_STOP_MSG] := by
  obtain ⟨p, hp1⟩ := Nat.exists_eq_succ_of_ne_zero hp
  rw [cycle_failure interval s inp h hm ht hst hne hsw,
    putResultToList_succ { s with sterilizer := { s.sterilizer with curr_temp := inp.temp } }
      inp.temp p hp1]
  simp [stopRoutine, h, hst]

theorem putResultToList_zero (s : Sys) (data : Regulator.temperature_t) (hp : s.pool = 0) :
    putResultToList s data =
      { s with
        result := { s.result with freeitem := u8 (s.result.freeitem + 255)
                                  underflow := u8 (s.result.underflow + 1) }
        display := s.display ++ [none] } := by
  unfold putResultToList
  rw [hp]

/-- The turn of `failure_turn` on a list that has no free item: nothing is appended. -/
theorem failure_turn_full (interval : ℕ) (s : Sys) (inp : Input)
    (h : s.sterilizer.state = .STERILIZER_ACTIVE) (hm : inp.msg = 0)
    (ht : s.result.savetime ≤ inp.now) (hst : inp.temp.is_sterile = false)
    (hne : s.result.head ≠ []) (hp : s.pool = 0)
    (hsw : NUM_OF_TEMP_SWING < s.sterilizer.num_of_swing) :
    (cycle interval s inp).sterilizer.state = .STERILIZER_SAVE ∧
    (cycle interval s inp).result.finalresult = false ∧
    (cycle interval s inp).result.head = s.result.head ∧
    (cycle interval s inp).regulator = s.regulator ++ [Regulator.FUZZY_REG_STOP_MSG] := by
  rw [cycle_failure interval s inp h hm ht hst hne hsw,
    putResultToList_zero { s with sterilizer := { s.sterilizer with curr_temp := inp.temp } }
      inp.temp hp]
  simp [stopRoutine, h]

/-- C16 (amended): in state `STERILIZER_ACTIVE` with a non-empty result list (`itemnum` its
length, at most 61), a turn that takes a non-sterile sample: while the swing counter is
below `NUM_OF_TEMP_SWING`, discards the list, advances the counter by one and stays in
`STERILIZER_ACTIVE`, and every further run of non-sterile samples, however long, finds the
list empty and leaves state, list and counter as they are; once the counter is above
`NUM_OF_TEMP_SWING`, sets `finalresult = false`, sends the regulator its Stop message and
moves to `STERILIZER_SAVE`, with the sample appended as a `Failure` item behind the items
held when a pool object is free, and with the list as it was, so without a `Failure`
item, when none is free (the list is full). -/
theorem non_sterile_samples (interval : ℕ) (s : Sys) (inp : Input) (more : List Input)
    (h : s.sterilizer.state = .STERILIZER_ACTIVE) (hm : inp.msg = 0)
    (ht : s.result.savetime ≤ inp.now) (hst : inp.temp.is_sterile = false)
    (hne : s.result.head ≠ []) (hi : s.result.itemnum = s.result.head.length)
    (hl : s.result.head.length ≤ RESULT_LIST_SIZE)
    (hmore : ∀ x ∈ more, x.msg = 0 ∧ x.temp.is_sterile = false) :
    (s.sterilizer.num_of_swing < NUM_OF_TEMP_SWING →
      (cycle interval s inp).sterilizer.state = .STERILIZER_ACTIVE ∧
      (cycle interval s inp).result.head = [] ∧
      (cycle interval s inp).sterilizer.num_of_swing = s.sterilizer.num_of_swing + 1 ∧
      (run interval s (inp :: more)).sterilizer.state = .STERILIZER_ACTIVE ∧
      (run interval s (inp :: more)).result.head = [] ∧
      (run interval s (inp :: more)).sterilizer.num_of_swing
        = s.sterilizer.num_of_swing + 1) ∧
    (NUM_OF_TEMP_SWING < s.sterilizer.num_of_swing →
      (cycle interval s inp).sterilizer.state = .STERILIZER_SAVE ∧
      (cycle interval s inp).result.finalresult = false ∧
      (cycle interval s inp).regulator = s.regulator ++ [Regulator.FUZZY_REG_STOP_MSG] ∧
      (s.pool ≠ 0 →
        (cycle interval s inp).result.head = s.result.head ++
          [⟨s.result.itemnum, inp.temp.timestamp / 1000, inp.temp.temp, false⟩]) ∧
      (s.pool = 0 → (cycle interval s inp).result.head = s.result.head)) := by
  constructor
  · intro hsw
    obtain ⟨h1, h2, h3, h4⟩ := swing_turn interval s inp h hm ht hst hne hi hl hsw
    obtain ⟨r1, r2, r3, _, _⟩ := nonsterile_run interval more (cycle interval s inp) h1 h2
      (by rw [h3]; decide) hmore
    refine ⟨h1, h2, h4, ?_, ?_, ?_⟩
    · simpa only [run, List.foldl_cons] using r1
    · simpa only [run, List.foldl_cons] using r2
    · rw [← h4]
      simpa only [run, List.foldl_cons] using r3
  · intro hsw
    by_cases hp : s.pool = 0
    · obtain ⟨f1, f2, f3, f4⟩ := failure_turn_full interval s inp h hm ht hst hne hp hsw
      exact ⟨f1, f2, f4, fun hn => absurd hp hn, fun _ => f3⟩
    · obtain ⟨f1, f2, f3, f4⟩ := failure_turn interval s inp h hm ht hst hne hp hsw
      exact ⟨f1, f2, f4, fun _ => f3, fun h0 => absurd h0 hp⟩

/-- Witness of C16 (amended): one sterile sample after the Start, then two non-sterile
samples. -/
theorem non_sterile_samples_witness :
    (run 600000 (run 600000 started [sampleInput 0 0 true])
      [sampleInput 0 600000 false, sampleInput 0 1200000 false]).sterilizer.state
        = .STERILIZER_ACTIVE ∧
    (run 600000 (run 600000 started [sampleInput 0 0 true])
      [sampleInput 0 600000 false, sampleInput 0 1200000 false]).result.head = [] :=
  have h := (non_sterile_samples 600000 (run 600000 started [sampleInput 0 0 true])
    (sampleInput 0 600000 false) [sampleInput 0 1200000 false] (by decide) (by decide)
    (by decide) (by decide) (List.ne_nil_of_length_pos (by decide)) (by decide) (by decide)
    (by decide)).1 (by decide)
  ⟨h.2.2.2.1, h.2.2.2.2.1⟩

/-- C16 (counterexample): after the Start, one sterile sample (the list then holds one
`Sterile` item) and six consecutive non-sterile samples, more than `NUM_OF_TEMP_SWING`.
The state is still `STERILIZER_ACTIVE`, the list is empty and only one swing is counted. -/
theorem consecutive_non_sterile_stay_active :
    (run 600000 started [sampleInput 0 0 true]).result.head.length = 1 ∧
    NUM_OF_TEMP_SWING < ((List.range 6).map fun k => sampleInput 0 (600000 * (k + 1)) false).length ∧
    (run 600000 started (sampleInput 0 0 true ::
      (List.range 6).map fun k => sampleInput 0 (600000 * (k + 1)) false)).sterilizer.state
        = .STERILIZER_ACTIVE ∧
    (run 600000 started (sampleInput 0 0 true ::
      (List.range 6).map fun k => sampleInput 0 (600000 * (k + 1)) false)).result.head.length
        = 0 ∧
    (run 600000 started (sampleInput 0 0 true ::
      (List.range 6).map fun k => sampleInput 0 (600000 * (k + 1)) false)).sterilizer.num_of_swing
        = 1 := by
  decide

/-- C17: with `NUM_OF_TEMP_SWING = 5`, a non-sterile reading that arrives on a non-empty
list when five such readings were already tolerated (swing counter `5`) is tolerated as
well: the test is `num_of_swing <= NUM_OF_TEMP_SWING` on a counter that starts at `0`.
The list is discarded, the counter becomes `6`, nothing is sent to the regulator and the
state stays `STERILIZER_ACTIVE`.  In the run of swings after a Start, the state after six
swings is `STERILIZER_ACTIVE` with counter `6` and an empty list; it is the seventh such
reading that is appended as the `Failure` item, behind the `Sterile` item held, with
`finalresult = false` and state `STERILIZER_SAVE`. -/
theorem sixth_swing_tolerated (interval : ℕ) (s : Sys) (inp : Input)
    (h : s.sterilizer.state = .STERILIZER_ACTIVE) (hm : inp.msg = 0)
    (ht : s.result.savetime ≤ inp.now) (hst : inp.temp.is_sterile = false)
    (hne : s.result.head ≠ []) (hsw : s.sterilizer.num_of_swing = NUM_OF_TEMP_SWING) :
    (cycle interval s inp).sterilizer.state = .STERILIZER_ACTIVE ∧
    (cycle interval s inp).result.head = [] ∧
    (cycle interval s inp).sterilizer.num_of_swing = NUM_OF_TEMP_SWING + 1 ∧
    (cycle interval s inp).regulator = s.regulator ∧
    NUM_OF_TEMP_SWING = 5 ∧
    (run 600000 started (swings 6)).sterilizer.state = .STERILIZER_ACTIVE ∧
    (run 600000 started (swings 6)).sterilizer.num_of_swing = 6 ∧
    (run 600000 started (swings 6)).result.head.length = 0 ∧
    (run 600000 started (swings 7)).sterilizer.state = .STERILIZER_SAVE ∧
    (run 600000 started (swings 7)).result.finalresult = false ∧
    (run 600000 started (swings 7)).result.head.map (fun it => it.sterile) = [true, false] := by
  rw [cycle_swing interval s inp h hm ht hst hne (le_of_eq hsw)]
  refine ⟨?_, ?_, ?_, ?_, by decide⟩
  · show (freeResultList _).sterilizer.state = _
    rw [freeResultList_sterilizer]
    exact h
  · show (freeResultList _).result.head = _
    exact freeResultList_head _
  · show (freeResultList _).sterilizer.num_of_swing = _
    rw [freeResultList_sterilizer]
    show u8 (s.sterilizer.num_of_swing + 1) = _
    rw [hsw]
    rfl
  · show (freeResultList _).regulator = _
    rw [freeResultList_regulator]

/-- Witness of C17: five swings and a sterile sample after the Start, then a non-sterile
sample. -/
theorem sixth_swing_tolerated_witness :
    (cycle 600000 (run 600000 started (swings 5 ++ [sampleInput 0 6000000 true]))
      (sampleInput 0 6600000 false)).sterilizer.state = .STERILIZER_ACTIVE ∧
    (cycle 600000 (run 600000 started (swings 5 ++ [sampleInput 0 6000000 true]))
      (sampleInput 0 6600000 false)).sterilizer.num_of_swing = NUM_OF_TEMP_SWING + 1 :=
  have h := sixth_swing_tolerated 600000
    (run 600000 started (swings 5 ++ [sampleInput 0 6000000 true]))
    (sampleInput 0 6600000 false) (by decide) (by decide) (by decide) (by decide)
    (List.ne_nil_of_length_pos (by decide)) (by decide)
  ⟨h.1, h.2.2.1⟩

/-- Witness of C18: a Start message in the state `stopErrorRoutine` leaves. -/
theorem error_latched_witness :
    (cycle 600000 (stopErrorRoutine started) (sampleInput START_STERILIZER 5 true)).sterilizer.state
      = .STERILIZER_ERROR :=
  (error_latched 600000 (stopErrorRoutine started) (sampleInput START_STERILIZER 5 true) []
    rfl).1

/-- Witness of C19: the Start message after `SENSOR_INIT_END`. -/
theorem start_message_witness :
    (handleMsg (handleMsg sterilizerInit (sampleInput SENSOR_INIT_END 0 false))
      (sampleInput START_STERILIZER 0 false)).sterilizer.state = .STERILIZER_ACTIVE ∧
    (handleMsg (handleMsg sterilizerInit (sampleInput SENSOR_INIT_END 0 false))
      (sampleInput START_STERILIZER 0 false)).regulator = [Regulator.FUZZY_REG_START_MSG] :=
  have h := (start_message (handleMsg sterilizerInit (sampleInput SENSOR_INIT_END 0 false))
    (sampleInput START_STERILIZER 0 false) rfl).1 rfl
  ⟨h.1, h.2.2.2.2⟩

/-- Witness of C20: the state `STERILIZER_SAVE` reached after seven swings, with
`openResultFile` returning `1`. -/
theorem open_failure_keeps_results_witness :
    (cycle 600000 (run 600000 started (swings 7))
      { sampleInput 0 8400000 false with open_status := 1 }).sterilizer.state
        = .STERILIZER_STOP ∧
    (cycle 600000 (run 600000 started (swings 7))
      { sampleInput 0 8400000 false with open_status := 1 }).file = [] :=
  have h := open_failure_keeps_results 600000 (run 600000 started (swings 7))
    { sampleInput 0 8400000 false with open_status := 1 } (by decide)
    (List.ne_nil_of_length_pos (by decide)) (by decide) (by decide)
  ⟨h.1, h.2.1⟩

end Sterilizer

namespace InnerBuffer

/-! ## The overflow guards -/

theorem guards_not_taken (N : Nat) (s : Sys) (c : Call) (hi : Inv N s)
    (hok : s.ok c = true) :
    (∀ item, c = .postFull item → s.bf.itemnum ≠ s.bf.buffersize) ∧
    (∀ item, c = .releaseEmpty item → s.bf.freeitem ≠ s.bf.buffersize) := by
  obtain ⟨hb, hsum, _, _, _⟩ := hi
  constructor
  · intro item hc
    subst hc
    have hmem : item ∈ s.held := by simpa [Sys.ok] using hok
    have := List.length_pos_of_mem hmem
    omega
  · intro item hc
    subst hc
    have hmem : item ∈ s.held := by simpa [Sys.ok] using hok
    have := List.length_pos_of_mem hmem
    omega

theorem counters_step (N : Nat) (s : Sys) (c : Call) (hi : Inv N s)
    (hok : s.ok c = true) :
    (s.step c).bf.postoverflow = s.bf.postoverflow ∧
    (s.step c).bf.overflow = s.bf.overflow := by
  obtain ⟨hp, hr⟩ := guards_not_taken N s c hi hok
  cases c with
  | getEmpty =>
    cases h : s.bf.emptyhead <;> simp [Sys.step, getEmptyInnerBufferItem, h]
  | getFull =>
    cases h : s.bf.fullhead <;> simp [Sys.step, getFullInnerBufferItem, h]
  | postFull item =>
    simp [Sys.step, postFullInnerBufferItem, if_neg (hp item rfl)]
  | releaseEmpty item =>
    simp [Sys.step, releaseEmptyInnerBufferItem, if_neg (hr item rfl)]

theorem counters_run (N : Nat) (hN : N < 65536) :
    ∀ (calls : List Call) (s : Sys), Inv N s → s.valid calls = true →
      (s.run calls).bf.postoverflow = s.bf.postoverflow ∧
      (s.run calls).bf.overflow = s.bf.overflow := by
  intro calls
  induction calls with
  | nil => intro s _ _; exact ⟨rfl, rfl⟩
  | cons c cs ih =>
    intro s hi hv
    simp only [Sys.valid, Bool.and_eq_true] at hv
    obtain ⟨h1, h2⟩ := ih (s.step c) (inv_step N hN s c hi hv.1) hv.2
    obtain ⟨h3, h4⟩ := counters_step N s c hi hv.1
    exact ⟨h1.trans h3, h2.trans h4⟩

theorem valid_at : ∀ (calls : List Call) (s : Sys) (k : Nat) (c : Call),
    s.valid calls = true → calls.get? k = some c → (s.run (calls.take k)).ok c = true := by
  intro calls
  induction calls with
  | nil => intro s k c _ h; simp at h
  | cons c0 cs ih =>
    intro s k c hv h
    simp only [Sys.valid, Bool.and_eq_true] at hv
    cases k with
    | zero =>
      simp only [List.get?_cons_zero, Option.some.injEq] at h
      subst h
      exact hv.1
    | succ k =>
      simp only [List.get?_cons_succ] at h
      simp only [List.take_succ_cons, Sys.run, List.foldl_cons]
      exact ih (s.step c0) k c hv.2 h

theorem init_counters (bf : inner_buffer_t) (core pool N : Nat) (h0 : 0 < N)
    (hN : N < 65536) (hc : N ≤ core) (hp : N ≤ pool) :
    (Sys.init bf core pool N).bf.postoverflow = 0 ∧
    (Sys.init bf core pool N).bf.overflow = 0 := by
  unfold Sys.init
  rw [innerBufferInit_spec bf core pool N h0 hN hc hp]
  exact ⟨rfl, rfl⟩

/-- C23: in a buffer initialised with capacity `N` (`0 < N`, all allocations succeeding),
along every sequence of calls in which each `postFull` and each `releaseEmpty` is given an
item the caller holds (returned by a `get` and not yet given back), the counters
`postoverflow` and `overflow` are `0` after each call, and no call finds its guard true:
a `postFull` is made with `itemnum != buffersize`, a `releaseEmpty` with
`freeitem != buffersize`. -/
theorem paired_calls_no_overflow (bf : inner_buffer_t) (core pool N : Nat)
    (calls : List Call) (h0 : 0 < N) (hN : N < 65536) (hc : N ≤ core) (hp : N ≤ pool)
    (hv : (Sys.init bf core pool N).valid calls = true) (k : Nat) :
    ((Sys.init bf core pool N).run (calls.take k)).bf.postoverflow = 0 ∧
    ((Sys.init bf core pool N).run (calls.take k)).bf.overflow = 0 ∧
    (∀ item, calls.get? k = some (.postFull item) →
      ((Sys.init bf core pool N).run (calls.take k)).bf.itemnum ≠
        ((Sys.init bf core pool N).run (calls.take k)).bf.buffersize) ∧
    (∀ item, calls.get? k = some (.releaseEmpty item) →
      ((Sys.init bf core pool N).run (calls.take k)).bf.freeitem ≠
        ((Sys.init bf core pool N).run (calls.take k)).bf.buffersize) := by
  have hi0 := inv_init bf core pool N h0 hN hc hp
  have hvk := valid_take calls _ k hv
  have hi : Inv N ((Sys.init bf core pool N).run (calls.take k)) := inv_run N hN _ _ hi0 hvk
  obtain ⟨h1, h2⟩ := counters_run N hN _ _ hi0 hvk
  obtain ⟨z1, z2⟩ := init_counters bf core pool N h0 hN hc hp
  refine ⟨h1.trans z1, h2.trans z2, ?_, ?_⟩
  · intro item hk
    exact (guards_not_taken N _ _ hi (valid_at calls _ k _ hv hk)).1 item rfl
  · intro item hk
    exact (guards_not_taken N _ _ hi (valid_at calls _ k _ hv hk)).2 item rfl

/-- Witness of C23: capacity 2, both items acquired and posted, one taken and released. -/
theorem paired_calls_no_overflow_witness :
    ((Sys.init zeroed 2 2 2).run
      ([Call.getEmpty, Call.getEmpty, Call.postFull 0, Call.postFull 1, Call.getFull,
        Call.releaseEmpty 0].take 6)).bf.postoverflow = 0 ∧
    ((Sys.init zeroed 2 2 2).run
      ([Call.getEmpty, Call.getEmpty, Call.postFull 0, Call.postFull 1, Call.getFull,
        Call.releaseEmpty 0].take 6)).bf.overflow = 0 :=
  have h := paired_calls_no_overflow zeroed 2 2 2
    [Call.getEmpty, Call.getEmpty, Call.postFull 0, Call.postFull 1, Call.getFull,
      Call.releaseEmpty 0] (by decide) (by decide) (by decide) (by decide) (by decide) 6
  ⟨h.1, h.2.1⟩

/-! ## The order of the filled queue -/

theorem fifo_run : ∀ (calls : List Call) (s : Sys),
    s.taken calls ++ (s.run calls).bf.fullhead = s.bf.fullhead ++ s.posted calls := by
  intro calls
  induction calls with
  | nil => intro s; simp [Sys.taken, Sys.posted, Sys.run]
  | cons c cs ih =>
    intro s
    have hrun : s.run (c :: cs) = (s.step c).run cs := rfl
    rw [hrun]
    cases c with
    | getEmpty =>
      have t1 : s.taken (.getEmpty :: cs) = (s.step .getEmpty).taken cs := rfl
      have p1 : s.posted (.getEmpty :: cs) = (s.step .getEmpty).posted cs := rfl
      rw [t1, p1, ih]
      cases h : s.bf.emptyhead <;> simp [Sys.step, getEmptyInnerBufferItem, h]
    | releaseEmpty item =>
      have t1 : s.taken (.releaseEmpty item :: cs) = (s.step (.releaseEmpty item)).taken cs :=
        rfl
      have p1 : s.posted (.releaseEmpty item :: cs)
          = (s.step (.releaseEmpty item)).posted cs := rfl
      rw [t1, p1, ih]
      simp only [Sys.step, releaseEmptyInnerBufferItem]
      split <;> rfl
    | postFull item =>
      have t1 : s.taken (.postFull item :: cs) = (s.step (.postFull item)).taken cs := rfl
      have p1 : s.posted (.postFull item :: cs)
          = (if s.bf.itemnum = s.bf.buffersize then [] else [item]) ++
            (s.step (.postFull item)).posted cs := rfl
      rw [t1, p1, ih]
      simp only [Sys.step, postFullInnerBufferItem]
      split <;> simp
    | getFull =>
      have t1 : s.taken (.getFull :: cs)
          = (match (getFullInnerBufferItem s.bf).2 with
              | none => []
              | some item => [item]) ++ (s.step .getFull).taken cs := rfl
      have p1 : s.posted (.getFull :: cs) = (s.step .getFull).posted cs := rfl
      rw [t1, p1, List.append_assoc, ih]
      cases h : s.bf.fullhead <;> simp [Sys.step, getFullInnerBufferItem, h]

theorem initLoop_fullhead (core pool : Nat) :
    ∀ (fuel : Nat) (bf : inner_buffer_t), (initLoop core pool fuel bf).fullhead = bf.fullhead := by
  intro fuel
  induction fuel with
  | zero => intro bf; rfl
  | succ n ih =>
    intro bf
    unfold initLoop
    split_ifs
    · rfl
    · rfl
    · rw [ih]
    · rfl

theorem init_fullhead (bf : inner_buffer_t) (core pool N : Nat) (h0 : 0 < N) :
    (Sys.init bf core pool N).bf.fullhead = [] := by
  unfold Sys.init innerBufferInit
  rw [if_neg (by omega), initLoop_fullhead]
  rfl

theorem getFull_none_iff (bf : inner_buffer_t) :
    (getFullInnerBufferItem bf).2 = none ↔ bf.fullhead = [] := by
  unfold getFullInnerBufferItem
  split <;> simp_all

end InnerBuffer

namespace Sterilizer

/-! ## The result list -/

theorem freeLoop_spec : ∀ (l : List result_item) (res : result_t) (pool : ℕ),
    res.itemnum = l.length → l.length < 256 →
    (freeLoop l res pool).1.head = [] ∧ (freeLoop l res pool).1.itemnum = 0 ∧
    (freeLoop l res pool).2 = pool + l.length ∧
    (res.freeitem + l.length < 256 →
      (freeLoop l res pool).1.freeitem = res.freeitem + l.length) ∧
    (freeLoop l res pool).1.underflow = res.underflow := by
  intro l
  induction l with
  | nil =>
    intro res pool h _
    refine ⟨rfl, ?_, rfl, fun _ => rfl, rfl⟩
    simpa [freeLoop] using h
  | cons a rest ih =>
    intro res pool h hl
    rw [freeLoop]
    rw [List.length_cons] at h hl
    obtain ⟨h1, h2, h3, h4, h5⟩ := ih
      { res with head := rest, itemnum := u8 (res.itemnum + 255),
                 freeitem := u8 (res.freeitem + 1) } (pool + 1)
      (by show u8 (res.itemnum + 255) = rest.length; unfold u8; omega) (by omega)
    refine ⟨h1, h2, ?_, ?_, h5⟩
    · rw [h3, List.length_cons]; omega
    · intro hf
      rw [List.length_cons] at hf ⊢
      have e : u8 (res.freeitem + 1) = res.freeitem + 1 := by unfold u8; omega
      have := h4 (by show u8 (res.freeitem + 1) + rest.length < 256; rw [e]; omega)
      rw [this]
      show u8 (res.freeitem + 1) + rest.length = _
      rw [e]; omega

theorem listInv_init : ListInv sterilizerInit := ⟨rfl, rfl, rfl⟩

theorem listInv_put (s : Sys) (data : Regulator.temperature_t) (h : ListInv s) :
    ListInv (putResultToList s data) := by
  obtain ⟨h1, h2, h3⟩ := h
  unfold RESULT_LIST_SIZE at h1
  unfold putResultToList
  split
  · rename_i hp
    exact ⟨by unfold RESULT_LIST_SIZE; exact h1, h2, h3⟩
  · rename_i p hp
    refine ⟨?_, ?_, ?_⟩
    · show p + (s.result.head ++ [_]).length = RESULT_LIST_SIZE
      rw [List.length_append, List.length_singleton]
      unfold RESULT_LIST_SIZE
      omega
    · show u8 (s.result.itemnum + 1) = (s.result.head ++ [_]).length
      rw [List.length_append, List.length_singleton, h2]
      unfold u8
      omega
    · show (s.result.head ++ [_]).map (fun it : result_item => it.num) = List.range (s.result.head ++ [_]).length
      rw [List.map_append, List.length_append, List.length_singleton, List.range_succ, h3,
        List.map_singleton, h2]

theorem listInv_free (s : Sys) (h : ListInv s) : ListInv (freeResultList s) := by
  obtain ⟨h1, h2, h3⟩ := h
  unfold RESULT_LIST_SIZE at h1
  unfold freeResultList
  split
  · exact ⟨by unfold RESULT_LIST_SIZE; exact h1, h2, h3⟩
  · rename_i a l he
    obtain ⟨f1, f2, f3, _, _⟩ := freeLoop_spec s.result.head s.result s.pool h2 (by omega)
    refine ⟨?_, ?_, ?_⟩
    · show (freeLoop s.result.head s.result s.pool).2
        + (freeLoop s.result.head s.result s.pool).1.head.length = RESULT_LIST_SIZE
      rw [f1, f3]
      unfold RESULT_LIST_SIZE
      simpa using h1
    · show (freeLoop s.result.head s.result s.pool).1.itemnum
        = (freeLoop s.result.head s.result s.pool).1.head.length
      rw [f1, f2]
      rfl
    · show (freeLoop s.result.head s.result s.pool).1.head.map (fun it : result_item => it.num)
        = List.range (freeLoop s.result.head s.result s.pool).1.head.length
      rw [f1]
      rfl

theorem listInv_run : ∀ (calls : List ListCall) (s : Sys), ListInv s →
    ListInv (listRun s calls) := by
  intro calls
  induction calls with
  | nil => intro s h; exact h
  | cons c cs ih =>
    intro s h
    show ListInv (listRun (listStep s c) cs)
    apply ih
    cases c with
    | put data => exact listInv_put s data h
    | free => exact listInv_free s h

/-- Within capacity `freeitem` counts the free pool objects, so that
`itemnum + freeitem = RESULT_LIST_SIZE` after each call. -/
theorem freeitem_within_capacity : ∀ (calls : List ListCall) (s : Sys), ListInv s →
    s.result.freeitem = s.pool → withinCapacity s calls = true →
    (listRun s calls).result.freeitem = (listRun s calls).pool ∧
    (listRun s calls).result.itemnum + (listRun s calls).result.freeitem = RESULT_LIST_SIZE := by
  intro calls
  induction calls with
  | nil =>
    intro s h hf _
    obtain ⟨h1, h2, _⟩ := h
    exact ⟨hf, by show s.result.itemnum + s.result.freeitem = _; rw [h2, hf, ← h1]; omega⟩
  | cons c cs ih =>
    intro s h hf hw
    cases c with
    | put data =>
      have hw2 : s.pool ≠ 0 ∧ withinCapacity (putResultToList s data) cs = true := by
        simpa [withinCapacity] using hw
      show (listRun (putResultToList s data) cs).result.freeitem = _ ∧ _
      refine ih _ (listInv_put s data h) ?_ hw2.2
      obtain ⟨p, hp⟩ := Nat.exists_eq_succ_of_ne_zero hw2.1
      rw [putResultToList_succ s data p hp]
      show u8 (s.result.freeitem + 255) = p
      have := h.1
      unfold RESULT_LIST_SIZE at this
      unfold u8
      omega
    | free =>
      have hw2 : withinCapacity (freeResultList s) cs = true := by
        simpa [withinCapacity] using hw
      show (listRun (freeResultList s) cs).result.freeitem = _ ∧ _
      refine ih _ (listInv_free s h) ?_ hw2
      obtain ⟨h1, h2, _⟩ := h
      unfold RESULT_LIST_SIZE at h1
      unfold freeResultList
      split
      · exact hf
      · obtain ⟨_, _, f3, f4, _⟩ := freeLoop_spec s.result.head s.result s.pool h2 (by omega)
        show (freeLoop s.result.head s.result s.pool).1.freeitem
          = (freeLoop s.result.head s.result s.pool).2
        rw [f3, f4 (by omega), hf]

theorem put_on_empty_pool (s : Sys) (data : Regulator.temperature_t) :
    (putResultToList { s with pool := 0 } data).result.head = s.result.head ∧
    (putResultToList { s with pool := 0 } data).result.itemnum = s.result.itemnum ∧
    (putResultToList { s with pool := 0 } data).result.freeitem = u8 (s.result.freeitem + 255) ∧
    (putResultToList { s with pool := 0 } data).result.underflow
      = u8 (s.result.underflow + 1) ∧
    (putResultToList { s with pool := 0 } data).display = s.display ++ [none] :=
  ⟨rfl, rfl, rfl, rfl, rfl⟩

set_option maxRecDepth 100000 in
/-- C22: along every sequence of `putResultToList` and `freeResultList` calls after
`sterilizerInit` the list holds at most `RESULT_LIST_SIZE = 61` items and `itemnum` is
their number.  A put that finds the pool empty adds no item and leaves `itemnum`, yet
it decrements `freeitem` (the decrement in `uint8_t` comes before the test of the
allocation) and counts an underflow: after 61 puts `itemnum = 61` and `freeitem = 0`,
after the 62nd `itemnum = 61` and `freeitem = 255`, so that `itemnum + freeitem` is `316`,
and the pointer handed to the display is formed from a `NULL` item. -/
theorem put_on_full_list_decrements_freeitem :
    (∀ calls : List ListCall,
      (listRun sterilizerInit calls).result.head.length ≤ RESULT_LIST_SIZE ∧
      (listRun sterilizerInit calls).result.itemnum
        = (listRun sterilizerInit calls).result.head.length) ∧
    (∀ (s : Sys) (data : Regulator.temperature_t),
      (putResultToList { s with pool := 0 } data).result.head = s.result.head ∧
      (putResultToList { s with pool := 0 } data).result.itemnum = s.result.itemnum ∧
      (putResultToList { s with pool := 0 } data).result.freeitem
        = u8 (s.result.freeitem + 255) ∧
      (putResultToList { s with pool := 0 } data).display = s.display ++ [none]) ∧
    (listRun sterilizerInit
      (List.replicate 61 (ListCall.put (sampleInput 0 0 true).temp))).result.itemnum = 61 ∧
    (listRun sterilizerInit
      (List.replicate 61 (ListCall.put (sampleInput 0 0 true).temp))).result.freeitem = 0 ∧
    (listRun sterilizerInit
      (List.replicate 61 (ListCall.put (sampleInput 0 0 true).temp))).pool = 0 ∧
    (listRun sterilizerInit
      (List.replicate 62 (ListCall.put (sampleInput 0 0 true).temp))).result.head.length = 61 ∧
    (listRun sterilizerInit
      (List.replicate 62 (ListCall.put (sampleInput 0 0 true).temp))).result.itemnum = 61 ∧
    (listRun sterilizerInit
      (List.replicate 62 (ListCall.put (sampleInput 0 0 true).temp))).result.freeitem = 255 ∧
    (listRun sterilizerInit
      (List.replicate 62 (ListCall.put (sampleInput 0 0 true).temp))).result.underflow = 1 := by
  refine ⟨?_, ?_, by decide⟩
  · intro calls
    obtain ⟨h1, h2, _⟩ := listInv_run calls sterilizerInit listInv_init
    exact ⟨by omega, h2⟩
  · intro s data
    obtain ⟨h1, h2, h3, _, h5⟩ := put_on_empty_pool s data
    exact ⟨h1, h2, h3, h5⟩

/-- C30: in every state of the result list reached from `sterilizerInit` by
`putResultToList` and `freeResultList` calls (within capacity or not), the numbers of the
items, in list order, are `0, 1, ..., n - 1` for the `n` items held: `putResultToList`
numbers an item with `itemnum`, which is the length of the list, and `freeResultList`
brings `itemnum` back to `0`.  So after seven swings of the thread (list discarded and
rebuilt six times) the two items held carry the numbers `0` and `1`. -/
theorem result_numbers_in_order (calls : List ListCall) :
    (listRun sterilizerInit calls).result.head.map (fun it : result_item => it.num)
      = List.range (listRun sterilizerInit calls).result.head.length ∧
    (listRun sterilizerInit calls).result.itemnum
      = (listRun sterilizerInit calls).result.head.length ∧
    (run 600000 started (swings 7)).result.head.map (fun it : result_item => it.num) = [0, 1] := by
  obtain ⟨_, h2, h3⟩ := listInv_run calls sterilizerInit listInv_init
  exact ⟨h3, h2, by decide⟩


/-! ## The report handed to the file and to the printer -/

theorem saveCase_file (s : Sys) (inp : Input) (hne : s.result.head ≠ [])
    (hopen : u8 inp.open_status = 0) :
    (saveCase s inp).file = s.file ++ report false s.result := by
  have he : s.result.head.isEmpty = false := by
    cases hh : s.result.head with
    | nil => exact absurd hh hne
    | cons a l => rfl
  simp [saveCase, he, hopen]

theorem printCase_printer (s : Sys) (hne : s.result.head ≠ []) :
    (printCase s).printer = s.printer ++ report true s.result := by
  have he : s.result.head.isEmpty = false := by
    cases hh : s.result.head with
    | nil => exact absurd hh hne
    | cons a l => rfl
  simp [printCase, he]

theorem report_text (str : result_item → List Char) (blank : Bool) (res : result_t) :
    (report blank res).map (Line.text str) =
      ((if blank then [LF, LF] else []) ++ headerText res.starttime).take 49 ::
        (columnsText.take 49 :: res.head.map str
          ++ [(footerText res.endtime res.finalresult).take 49]) := by
  simp [report, Line.text, List.map_append, Function.comp_def]

theorem headerText_head (date : RTCDateTime) :
    ((headerText date).take 49).head? = some 'D' := rfl

theorem printHeader_head (date : RTCDateTime) :
    (([LF, LF] ++ headerText date).take 49).head? = some LF := rfl

theorem header_ne (date : RTCDateTime) :
    ([LF, LF] ++ headerText date).take 49 ≠ (headerText date).take 49 := by
  intro h
  have h1 := congrArg List.head? h
  rw [printHeader_head, headerText_head] at h1
  revert h1
  decide

/-- C21 (amended): for every non-empty result list, start date and time, end time and
`finalresult`, a Saving turn whose `openResultFile` succeeds hands the file channel, and a
Printing turn hands the printer channel, the same column line, the same item strings in the
same order and the same footer, character for character; the two headers differ: the
header printed is the format of the header saved behind two line feeds (each cut to the
49 characters of the line buffer), so the two sequences have the same length and are not
equal. -/
theorem print_header_has_line_feeds (s : Sys) (inp : Input)
    (str : result_item → List Char) (hne : s.result.head ≠ [])
    (hopen : u8 inp.open_status = 0) :
    (saveCase s inp).file = s.file ++ report false s.result ∧
    (printCase s).printer = s.printer ++ report true s.result ∧
    (report false s.result).map (Line.text str) =
      (headerText s.result.starttime).take 49 ::
        (columnsText.take 49 :: s.result.head.map str
          ++ [(footerText s.result.endtime s.result.finalresult).take 49]) ∧
    (report true s.result).map (Line.text str) =
      ([LF, LF] ++ headerText s.result.starttime).take 49 ::
        (columnsText.take 49 :: s.result.head.map str
          ++ [(footerText s.result.endtime s.result.finalresult).take 49]) ∧
    ((report true s.result).map (Line.text str)).tail
      = ((report false s.result).map (Line.text str)).tail ∧
    ((report true s.result).map (Line.text str)).length
      = ((report false s.result).map (Line.text str)).length ∧
    (report true s.result).map (Line.text str) ≠ (report false s.result).map (Line.text str) := by
  have hf := report_text str false s.result
  have ht := report_text str true s.result
  simp only [Bool.false_eq_true, if_false, List.nil_append] at hf
  simp only [if_true] at ht
  refine ⟨saveCase_file s inp hne hopen, printCase_printer s hne, hf, ht, ?_, ?_, ?_⟩
  · rw [hf, ht]
    rfl
  · rw [hf, ht]
    rfl
  · rw [hf, ht]
    intro h
    exact header_ne s.result.starttime (List.cons.inj h).1

set_option maxRecDepth 100000 in
/-- Witness of C21 (amended): the state `STERILIZER_SAVE` reached after seven swings. -/
theorem print_header_has_line_feeds_witness :
    (saveCase (run 600000 started (swings 7)) (sampleInput 0 8400000 false)).file
      = (run 600000 started (swings 7)).file
        ++ report false (run 600000 started (swings 7)).result ∧
    (printCase (run 600000 started (swings 7))).printer
      = (run 600000 started (swings 7)).printer
        ++ report true (run 600000 started (swings 7)).result :=
  have h := print_header_has_line_feeds (run 600000 started (swings 7))
    (sampleInput 0 8400000 false) (fun _ => []) (List.ne_nil_of_length_pos (by decide))
    (by decide)
  ⟨h.1, h.2.1⟩

set_option maxRecDepth 100000 in
/-- C21 (counterexample): seven swings after a Start, the Saving turn, then a print
message.  The first string handed to the file channel begins `Da` (of `Date: 2017.01.01`),
the first string handed to the printer channel begins with two line feeds; both channels
get five strings (the item strings stand for their numbers here). -/
theorem saved_and_printed_differ :
    (cycle 600000
      (cycle 600000 (run 600000 started (swings 7)) (sampleInput 0 8400000 false))
      (sampleInput PRINT_RESULT_LIST 8400001 false)).sterilizer.state = .STERILIZER_STOP ∧
    ((cycle 600000
      (cycle 600000 (run 600000 started (swings 7)) (sampleInput 0 8400000 false))
      (sampleInput PRINT_RESULT_LIST 8400001 false)).file.map
        (Line.text fun it => dec2 it.num)).map (List.take 2)
      = [['D', 'a'], ['N', 'r'], ['0', '0'], ['0', '1'], ['E', 'n']] ∧
    ((cycle 600000
      (cycle 600000 (run 600000 started (swings 7)) (sampleInput 0 8400000 false))
      (sampleInput PRINT_RESULT_LIST 8400001 false)).printer.map
        (Line.text fun it => dec2 it.num)).map (List.take 2)
      = [[LF, LF], ['N', 'r'], ['0', '0'], ['0', '1'], ['E', 'n']] ∧
    (cycle 600000
      (cycle 600000 (run 600000 started (swings 7)) (sampleInput 0 8400000 false))
      (sampleInput PRINT_RESULT_LIST 8400001 false)).file.map (Line.text fun it => dec2 it.num)
    ≠ (cycle 600000
      (cycle 600000 (run 600000 started (swings 7)) (sampleInput 0 8400000 false))
      (sampleInput PRINT_RESULT_LIST 8400001 false)).printer.map (Line.text fun it => dec2 it.num) := by
  decide

end Sterilizer

namespace FileBuffer

open InnerBuffer

/-! ## What a released item of the result file buffer holds -/

theorem writeResultItem_spec (st : Store) (item : Item) (rest : List Item) (a : ℕ)
    (hq : st.queue.fullhead = item :: rest) (hd : st.data item = some a)
    (hf : st.queue.freeitem ≠ st.queue.buffersize) :
    writeResultItem st = some
      { st with
        file := st.file ++ (st.pool a).fbuff.take (st.pool a).element_num
        pool := Function.update st.pool a
          { st.pool a with fbuff := List.replicate FILE_BUFFER_ITEM_SIZE 0 }
        queue :=
          { st.queue with
            fullhead := rest, itemnum := u16 (st.queue.itemnum + 65535)
            emptyhead := st.queue.emptyhead ++ [item]
            freeitem := u16 (st.queue.freeitem + 1) } } := by
  unfold writeResultItem
  rw [hq]
  simp only [getFullInnerBufferItem, hq, hd, releaseEmptyInnerBufferItem, if_neg hf]

/-- C24 (amended): an item of the result file buffer that `Threadcardhandler` takes, writes
and releases (its field `data` referring to object `a`, the empty queue not yet holding
all items) is queued behind the empty items with its field `data` unchanged, so it still
refers to object `a`; of that object the 50 bytes of `fbuff` are zero and `element_num`
keeps the length the producer stored; no other object changes; the file got the first
`element_num` bytes of the text.  When no other item is empty, the next
`getEmptyInnerBufferItem` returns this item. -/
theorem released_file_item (st : Store) (item : Item) (rest : List Item) (a : ℕ)
    (hq : st.queue.fullhead = item :: rest) (hd : st.data item = some a)
    (hf : st.queue.freeitem ≠ st.queue.buffersize) :
    ∃ st1, writeResultItem st = some st1 ∧
      st1.queue.emptyhead = st.queue.emptyhead ++ [item] ∧
      st1.data = st.data ∧ st1.data item = some a ∧
      (st1.pool a).fbuff = List.replicate FILE_BUFFER_ITEM_SIZE 0 ∧
      (st1.pool a).element_num = (st.pool a).element_num ∧
      (∀ b, b ≠ a → st1.pool b = st.pool b) ∧
      st1.file = st.file ++ (st.pool a).fbuff.take (st.pool a).element_num ∧
      (st.queue.emptyhead = [] → (getEmptyInnerBufferItem st1.queue).2 = some item) := by
  refine ⟨_, writeResultItem_spec st item rest a hq hd hf, rfl, rfl, hd, ?_, ?_, ?_, rfl, ?_⟩
  · show (Function.update st.pool a _ a).fbuff = _
    rw [Function.update_same]
  · show (Function.update st.pool a _ a).element_num = _
    rw [Function.update_same]
  · intro b hb
    show Function.update st.pool a _ b = _
    rw [Function.update_noteq hb]
  · intro he
    simp [getEmptyInnerBufferItem, he]

/-- Witness of C24 (amended): the store after initialisation and one `saveString` of three
bytes. -/
theorem released_file_item_witness :
    ∃ st1, writeResultItem
        ((saveString (Store.init id fun _ => ⟨List.replicate 50 0, 0⟩) [78, 114, 46]).getD
          (Store.init id fun _ => ⟨List.replicate 50 0, 0⟩)) = some st1 ∧
      (st1.pool 0).fbuff = List.replicate FILE_BUFFER_ITEM_SIZE 0 ∧
      (st1.pool 0).element_num = 3 :=
  (released_file_item
    ((saveString (Store.init id fun _ => ⟨List.replicate 50 0, 0⟩) [78, 114, 46]).getD
      (Store.init id fun _ => ⟨List.replicate 50 0, 0⟩)) 0 [] 0
    (by decide) (by decide) (by decide)).imp fun _ h => ⟨h.1, h.2.2.2.2.1, h.2.2.2.2.2.1⟩

/-- C24 (counterexample): after initialisation (item `i` referring to object `i`, all
objects zero), `saveString` of the three bytes `Nr.`, the turn of the card handler that
writes and releases the item, and nine more `saveString` calls that take the other nine
items, the next `getEmptyInnerBufferItem` returns item `0` again; it still refers to
object `0`, whose `fbuff` is zero and whose `element_num` is `3`, the length the first
producer stored. -/
theorem released_item_keeps_length :
    (((saveString (Store.init id fun _ => ⟨List.replicate 50 0, 0⟩) [78, 114, 46]).bind
        writeResultItem).bind fun st => saveStrings st (List.replicate 9 [69])).map
      (fun st => ((getEmptyInnerBufferItem st.queue).2, st.data 0, (st.pool 0).fbuff,
        (st.pool 0).element_num, st.file))
      = some (some 0, some 0, List.replicate 50 0, 3, [78, 114, 46]) := by
  decide

end FileBuffer

namespace TempFIFO

open InnerBuffer

/-! ## What a released item of the temperature FIFO holds -/

/-- The turn of the regulator on an item of the temperature FIFO (its field `data`
referring to object `a`, the empty queue not yet holding all items): the sample is
copied out, the item is queued behind the empty items with its field `data` `NULL`, and
no object of the pool is written, so the sample stays in object `a`.  When no other item
is empty the next `getEmptyInnerBufferItem` returns this item, and when it comes back
through the filled queue the turn of the regulator dereferences `NULL`. -/
theorem takeTempItem_spec (st : Store) (item : Item) (rest : List Item) (a : ℕ)
    (hq : st.queue.fullhead = item :: rest) (hd : st.data item = some a)
    (hf : st.queue.freeitem ≠ st.queue.buffersize) :
    ∃ st1, takeTempItem st = some (st1, some (st.pool a)) ∧
      st1.queue.emptyhead = st.queue.emptyhead ++ [item] ∧
      st1.data item = none ∧ st1.pool = st.pool ∧
      (st.queue.emptyhead = [] → (getEmptyInnerBufferItem st1.queue).2 = some item) ∧
      (∀ st2 : Store, st2.data = st1.data → st2.queue.fullhead = [item] →
        takeTempItem st2 = none) := by
  refine ⟨{ st with data := Function.update st.data item none
                    queue := releaseEmptyInnerBufferItem
                      (getFullInnerBufferItem st.queue).1 (some item) }, ?_, ?_, ?_, rfl, ?_, ?_⟩
  · simp [takeTempItem, getFullInnerBufferItem, hq, hd]
  · simp [getFullInnerBufferItem, hq, releaseEmptyInnerBufferItem, hf]
  · show Function.update st.data item none item = none
    rw [Function.update_same]
  · intro he
    simp [getFullInnerBufferItem, hq, releaseEmptyInnerBufferItem, hf, getEmptyInnerBufferItem,
      he]
  · intro st2 h2 hq2
    have hn : st2.data item = none := by
      rw [h2]
      show Function.update st.data item none item = none
      rw [Function.update_same]
    simp [takeTempItem, getFullInnerBufferItem, hq2, hn]

end TempFIFO

namespace Regulator

/-! ## Rounding in the normal range -/

/-- In the normal range rounding has a relative error of at most `2 ^ (-24)` and does not
fall below a power of two that the exact value reaches. -/
theorem rnd_rel (q : ℚ) (k : ℤ) (hk : -126 ≤ k) (h1 : 2 ^ k ≤ q) (h2 : q ≤ 2 ^ (100 : ℤ)) :
    ∃ r : ℚ, rnd q = F32.fin r ∧ 2 ^ k ≤ r ∧ |r - q| ≤ q / 2 ^ 24 := by
  have hpos : 0 < q := lt_of_lt_of_le (two_zpow_pos k) h1
  have habs : |q| = q := abs_of_pos hpos
  have hlow : (2 : ℚ) ^ Int.log 2 q ≤ q := by
    have := Int.zpow_log_le_self (R := ℚ) (b := 2) (by norm_num) hpos
    exact_mod_cast this
  have hkL : k ≤ Int.log 2 q := by
    have := (Int.zpow_le_iff_le_log (R := ℚ) (b := 2) (by norm_num) hpos (x := k)).mp
      (by exact_mod_cast h1)
    exact this
  have hL100 : Int.log 2 q < 101 :=
    log_lt_of_lt_zpow q 101 hpos (lt_of_le_of_lt h2 (by norm_num))
  set e := ulpExp q with he
  have heL : e = Int.log 2 q - 23 := by
    rw [he]; unfold ulpExp; rw [habs, max_eq_left (by omega)]
  have hpow : (2 : ℚ) ^ Int.log 2 q = ((2 ^ 23 : ℤ) : ℚ) * 2 ^ e := by
    rw [heL, zpow_sub₀ (by norm_num : (2 : ℚ) ≠ 0)]
    push_cast
    field_simp
    ring
  have hx : ((2 ^ 23 : ℤ) : ℚ) ≤ q / 2 ^ e := by
    rw [le_div_iff₀ (two_zpow_pos e), ← hpow]
    exact hlow
  have hm := int_le_rne _ _ hx
  have hr0 : (2 : ℚ) ^ k ≤ (rne (q / 2 ^ e) : ℚ) * 2 ^ e := by
    calc (2 : ℚ) ^ k ≤ 2 ^ Int.log 2 q := zpow_le_zpow_right₀ (by norm_num) hkL
      _ = ((2 ^ 23 : ℤ) : ℚ) * 2 ^ e := hpow
      _ ≤ (rne (q / 2 ^ e) : ℚ) * 2 ^ e :=
          mul_le_mul_of_nonneg_right (by exact_mod_cast hm) (le_of_lt (two_zpow_pos e))
  have hacc : |(rne (q / 2 ^ e) : ℚ) * 2 ^ e - q| ≤ q / 2 ^ 24 := by
    have hq : q = q / 2 ^ e * 2 ^ e := by
      field_simp
    have h3 : (rne (q / 2 ^ e) : ℚ) * 2 ^ e - q = ((rne (q / 2 ^ e) : ℚ) - q / 2 ^ e) * 2 ^ e := by
      rw [sub_mul, ← hq]
    rw [h3, abs_mul, abs_of_pos (two_zpow_pos e)]
    have h4 : (2 : ℚ) ^ e = 2 ^ Int.log 2 q / 2 ^ 23 := by
      rw [hpow]; push_cast; field_simp; ring
    calc |(rne (q / 2 ^ e) : ℚ) - q / 2 ^ e| * 2 ^ e ≤ 1 / 2 * 2 ^ e :=
          mul_le_mul_of_nonneg_right (rne_abs_sub_le _) (le_of_lt (two_zpow_pos e))
      _ = 2 ^ Int.log 2 q / 2 ^ 24 := by rw [h4]; ring
      _ ≤ q / 2 ^ 24 := div_le_div_of_nonneg_right hlow (by norm_num)
  refine ⟨(rne (q / 2 ^ e) : ℚ) * 2 ^ e, ?_, hr0, hacc⟩
  unfold rnd
  rw [← he, if_neg]
  have hrpos : (0 : ℚ) ≤ (rne (q / 2 ^ e) : ℚ) * 2 ^ e :=
    le_trans (le_of_lt (two_zpow_pos k)) hr0
  rw [abs_of_nonneg hrpos, not_le]
  have hup := (abs_le.mp hacc).2
  have hq24 : q / 2 ^ 24 ≤ q := div_le_self (le_of_lt hpos) (by norm_num)
  have : (2 : ℚ) ^ (100 : ℤ) + 2 ^ (100 : ℤ) < 2 ^ 128 := by norm_num
  linarith

/-- Rounding of a value that is `0` or at least `2 ^ k` in the normal range. -/
theorem rnd_zero_or_rel (q : ℚ) (k : ℤ) (hk : -126 ≤ k) (h1 : q = 0 ∨ 2 ^ k ≤ q)
    (h2 : q ≤ 2 ^ (100 : ℤ)) :
    ∃ r : ℚ, rnd q = F32.fin r ∧ (q = 0 → r = 0) ∧ (2 ^ k ≤ q → 2 ^ k ≤ r) ∧
      (r = 0 ∨ 2 ^ k ≤ r) ∧ 0 ≤ r ∧
      q * (1 - 1 / 2 ^ 24) ≤ r ∧ r ≤ q * (1 + 1 / 2 ^ 24) := by
  rcases h1 with h0 | hq
  · subst h0
    exact ⟨0, rnd_zero, fun _ => rfl, fun h => h, Or.inl rfl, le_refl _, by norm_num,
      by norm_num⟩
  · obtain ⟨r, hr, hkr, hacc⟩ := rnd_rel q k hk hq h2
    have hb := abs_le.mp hacc
    refine ⟨r, hr, ?_, fun _ => hkr, Or.inr hkr, le_trans (le_of_lt (two_zpow_pos k)) hkr,
      ?_, ?_⟩
    · intro h0
      have := two_zpow_pos k
      rw [h0] at hq
      linarith
    · have := hb.1
      linarith
    · have := hb.2
      linarith

/-! ## A sample below the range of every temperature term but `TEMP_MELTING` -/

theorem FUZZY_RULES_melting (j : Fin FUZZY_RULES_NUM) :
    (FUZZY_RULES j).if_side1 = some TEMP_MELTING ↔ j = 0 := by
  revert j
  decide

theorem strength_three (t : F32) : strength t (F32.fin 3) = t := by
  simp [strength, F32.eq]

theorem cold_strengths (temp dtemp : ℤ) (fl : fuzzy_logic_t) (h : temp < 8320) :
    (evaluation_rules (fuzzyfication_input FUZZY_RULES temp dtemp fl)).fuzzy_pwm =
      fun j => F32.fin ((if j = 0 then 1 else 0 : ℤ) : ℚ) := by
  have h0 : TEMP_MELTING.call temp = F32.fin 1 := by
    simp only [input_mf.call, TEMP_MELTING, fuzzyficHalfTrapezeTypeMf, if_true]
    rw [if_pos (by omega)]
  have h1 : TEMP_COLD.call temp = F32.fin 0 := by
    simp only [input_mf.call, TEMP_COLD, fuzzyficTriangleTypeMf]
    rw [if_pos (by omega)]
  have h2 : TEMP_MEDIUM.call temp = F32.fin 0 := by
    simp only [input_mf.call, TEMP_MEDIUM, fuzzyficTriangleTypeMf]
    rw [if_pos (by omega)]
  have h3 : TEMP_HOT.call temp = F32.fin 0 := by
    simp only [input_mf.call, TEMP_HOT, fuzzyficHalfTrapezeTypeMf, halfTrapezeRising]
    rw [if_neg (by decide), if_pos trivial, if_pos (by omega)]
  have h4 : TEMP_STERILE.call temp = F32.fin 0 := by
    simp only [input_mf.call, TEMP_STERILE, fuzzyficTrapezeTypeMf]
    rw [if_pos (by omega)]
  funext j
  rw [(evaluation_rules_eq _).2.2.1 j, fuzzyfication_input_eq]
  show strength (tempDegree FUZZY_RULES temp j) (dtempDegree FUZZY_RULES dtemp j) = _
  by_cases hj : j = 0
  · subst hj
    rw [if_pos rfl]
    show strength (TEMP_MELTING.call temp) (F32.fin 3) = _
    rw [strength_three, h0]
    norm_num
  · rw [if_neg hj]
    have ht : tempDegree FUZZY_RULES temp j = F32.fin 0 := by
      have h1j := FUZZY_RULES_if_side1 j
      have hnj := mt (FUZZY_RULES_melting j).mp hj
      unfold tempDegree
      simp only [TEMP_INPUT_MFS, List.map_cons, List.map_nil, List.mem_cons,
        List.mem_singleton, List.not_mem_nil, or_false] at h1j
      rcases h1j with e | e | e | e | e
      · exact absurd e hnj
      · rw [e]; exact h1
      · rw [e]; exact h2
      · rw [e]; exact h3
      · rw [e]; exact h4
    have hd : strength (F32.fin 0) (dtempDegree FUZZY_RULES dtemp j) = F32.fin 0 := by
      have h2j := FUZZY_RULES_if_side2 j
      unfold dtempDegree
      rw [List.mem_cons] at h2j
      rcases h2j with e | e
      · rw [e]; exact strength_three _
      · obtain ⟨mf, hmf, e⟩ := List.mem_map.mp e
        rw [← e]
        exact strength_zero _
          (configured_unit mf (List.mem_append_right _ hmf) dtemp)
    rw [ht, hd]
    norm_num

/-- A sample below 8320 counts fires rule 0 alone: the duty cycle is `PWM_FULL`. -/
theorem cold_duty (temp dtemp : ℤ) (fl : fuzzy_logic_t) (h : temp < 8320) :
    defuzzyfication FUZZY_RULES
      (evaluation_rules (fuzzyfication_input FUZZY_RULES temp dtemp fl)).fuzzy_pwm
      = some 10000 := by
  rw [cold_strengths temp dtemp fl h,
    defuzzyfication_single FUZZY_RULES FUZZY_RULES_maxpoint 0 1 (by norm_num) (by norm_num)]
  rfl

/-- C26: with the configured tables, for every delta-temperature and every content of the
working structure before the computation, a temperature above 14848 counts (116 degrees)
gives the duty cycle `0`, and a temperature below 8320 counts (65 degrees) gives the full
duty cycle `10000`, which is `PWM_COUNT`. -/
theorem duty_at_the_ends (temp dtemp : ℤ) (fl : fuzzy_logic_t) :
    (14848 < temp →
      defuzzyfication FUZZY_RULES
        (evaluation_rules (fuzzyfication_input FUZZY_RULES temp dtemp fl)).fuzzy_pwm
        = some 0) ∧
    (temp < 8320 →
      defuzzyfication FUZZY_RULES
        (evaluation_rules (fuzzyfication_input FUZZY_RULES temp dtemp fl)).fuzzy_pwm
        = some PWM_COUNT) :=
  ⟨hot_duty temp dtemp fl, cold_duty temp dtemp fl⟩

/-- Witness of C26: 15000 counts with delta 3, and 8000 counts with delta -2. -/
theorem duty_at_the_ends_witness :
    ((14848 : ℤ) < 15000 ∧
      defuzzyfication FUZZY_RULES
        (evaluation_rules (fuzzyfication_input FUZZY_RULES 15000 3 fuzzy_logic_zero)).fuzzy_pwm
        = some 0) ∧
    ((8000 : ℤ) < 8320 ∧
      defuzzyfication FUZZY_RULES
        (evaluation_rules (fuzzyfication_input FUZZY_RULES 8000 (-2) fuzzy_logic_zero)).fuzzy_pwm
        = some PWM_COUNT) :=
  ⟨⟨by decide, (duty_at_the_ends 15000 3 fuzzy_logic_zero).1 (by decide)⟩,
   ⟨by decide, (duty_at_the_ends 8000 (-2) fuzzy_logic_zero).2 (by decide)⟩⟩

/-! ## The least positive degree of a configured membership function -/

/-- A quotient of the configured ramps: in `[0,1]`, and `0` or at least `2 ^ (-12)`. -/
theorem good_of_div (a b : ℤ) (h0 : 0 ≤ a) (hab : a ≤ b) (hb0 : 0 < b) (hb : b ≤ 4096) :
    ∃ r : ℚ, F32.div (ofInt a) (ofInt b) = F32.fin r ∧ 0 ≤ r ∧ r ≤ 1 ∧
      (r = 0 ∨ 2 ^ (-12 : ℤ) ≤ r) ∧ (0 < a → 2 ^ (-12 : ℤ) ≤ r) := by
  obtain ⟨r, hr, hrnd, hr0, hr1, _⟩ := div_ofInt_unit a b h0 hab hb0 (by omega)
  have key : 0 < a → (2 : ℚ) ^ (-12 : ℤ) ≤ r := by
    intro ha
    have hbq : (0 : ℚ) < b := by exact_mod_cast hb0
    have haq : (1 : ℚ) ≤ a := by exact_mod_cast ha
    have hb4 : (b : ℚ) ≤ 4096 := by exact_mod_cast hb
    have hq : (2 : ℚ) ^ (-12 : ℤ) ≤ (a : ℚ) / b := by
      rw [le_div_iff₀ hbq]
      have : (2 : ℚ) ^ (-12 : ℤ) = 1 / 4096 := by norm_num [zpow_neg]
      rw [this]
      linarith
    have hq1 : (a : ℚ) / b ≤ 2 ^ (100 : ℤ) := by
      have : (a : ℚ) / b ≤ 1 := by
        rw [div_le_one hbq]; exact_mod_cast hab
      exact le_trans this (by norm_num)
    obtain ⟨r2, hr2, hk, _⟩ := rnd_rel _ (-12) (by norm_num) hq hq1
    rw [hrnd] at hr2
    injection hr2 with e
    rw [e]
    exact hk
  refine ⟨r, hr, hr0, hr1, ?_, key⟩
  rcases eq_or_lt_of_le h0 with ha | ha
  · left
    rw [← ha] at hrnd
    simp only [Int.cast_zero, zero_div] at hrnd
    rw [rnd_zero] at hrnd
    injection hrnd with e
    exact e.symm
  · exact Or.inr (key ha)

/-- Each configured membership degree is in `[0,1]`, and `0` or at least `2 ^ (-12)`. -/
theorem configured_good (mf : input_mf) (hmf : mf ∈ TEMP_INPUT_MFS ++ DTEMP_INPUT_MFS)
    (x : ℤ) : ∃ r : ℚ, mf.call x = F32.fin r ∧ 0 ≤ r ∧ r ≤ 1 ∧
      (r = 0 ∨ 2 ^ (-12 : ℤ) ≤ r) := by
  have one : (2 : ℚ) ^ (-12 : ℤ) ≤ 1 := by norm_num [zpow_neg]
  simp only [TEMP_INPUT_MFS, DTEMP_INPUT_MFS, List.cons_append, List.nil_append,
    List.mem_cons, List.mem_singleton, List.not_mem_nil, or_false] at hmf
  rcases hmf with h | h | h | h | h | h | h | h | h | h <;> subst h
  all_goals
    simp only [input_mf.call, TEMP_MELTING, TEMP_COLD, TEMP_MEDIUM, TEMP_HOT, TEMP_STERILE,
      DELTATEMP_NEG, DELTATEMP_ZERO, DELTATEMP_SPOS, DELTATEMP_POS, DELTATEMP_VPOS,
      fuzzyficTriangleTypeMf, fuzzyficHalfTrapezeTypeMf, fuzzyficTrapezeTypeMf,
      halfTrapezeRising, ofInt_one]
    split_ifs
    all_goals
      first
        | exact ⟨0, rfl, le_refl _, zero_le_one, Or.inl rfl⟩
        | exact ⟨1, rfl, zero_le_one, le_refl _, Or.inr one⟩
        | (exfalso; omega)
        | (refine (good_of_div _ _ ?_ ?_ ?_ ?_).imp
            fun _ h => ⟨h.1, h.2.1, h.2.2.1, h.2.2.2.1⟩ <;> omega)

/-- Below 9600 counts the degree of `TEMP_MELTING` is positive. -/
theorem melting_pos (temp : ℤ) (h : temp < 9600) :
    ∃ r : ℚ, TEMP_MELTING.call temp = F32.fin r ∧ 2 ^ (-12 : ℤ) ≤ r ∧ r ≤ 1 := by
  have one : (2 : ℚ) ^ (-12 : ℤ) ≤ 1 := by norm_num [zpow_neg]
  simp only [input_mf.call, TEMP_MELTING, fuzzyficHalfTrapezeTypeMf, halfTrapezeRising]
  split_ifs
  all_goals
    first
      | exact ⟨1, rfl, one, le_refl _⟩
      | (exfalso; omega)
      | (obtain ⟨r, hr, _, h1, _, hp⟩ := good_of_div (9600 - temp) (9600 - 8320)
          (by omega) (by omega) (by omega) (by omega)
         exact ⟨r, hr, hp (by omega), h1⟩)

/-- Above 10880 counts the degree of `TEMP_HOT` is positive. -/
theorem hot_pos (temp : ℤ) (h : 10880 < temp) :
    ∃ r : ℚ, TEMP_HOT.call temp = F32.fin r ∧ 2 ^ (-12 : ℤ) ≤ r ∧ r ≤ 1 := by
  have one : (2 : ℚ) ^ (-12 : ℤ) ≤ 1 := by norm_num [zpow_neg]
  simp only [input_mf.call, TEMP_HOT, fuzzyficHalfTrapezeTypeMf, halfTrapezeRising]
  split_ifs
  all_goals
    first
      | exact ⟨1, rfl, one, le_refl _⟩
      | (exfalso; omega)
      | (obtain ⟨r, hr, _, h1, _, hp⟩ := good_of_div (temp - 10880) (14848 - 10880)
          (by omega) (by omega) (by omega) (by omega)
         exact ⟨r, hr, hp (by omega), h1⟩)

/-- From 9600 counts to below 10880 the degree of `TEMP_COLD` is positive. -/
theorem cold_pos (temp : ℤ) (h1 : 9600 ≤ temp) (h2 : temp < 10880) :
    ∃ r : ℚ, TEMP_COLD.call temp = F32.fin r ∧ 2 ^ (-12 : ℤ) ≤ r ∧ r ≤ 1 := by
  simp only [input_mf.call, TEMP_COLD, fuzzyficTriangleTypeMf]
  split_ifs
  all_goals
    first
      | (exfalso; omega)
      | (obtain ⟨r, hr, _, h1, _, hp⟩ := good_of_div (temp - 8320) (9600 - 8320)
          (by omega) (by omega) (by omega) (by omega)
         exact ⟨r, hr, hp (by omega), h1⟩)
      | (obtain ⟨r, hr, _, h1, _, hp⟩ := good_of_div (10880 - temp) (10880 - 9600)
          (by omega) (by omega) (by omega) (by omega)
         exact ⟨r, hr, hp (by omega), h1⟩)

/-- At 10880 counts the degree of `TEMP_MEDIUM` is positive. -/
theorem medium_pos :
    ∃ r : ℚ, TEMP_MEDIUM.call 10880 = F32.fin r ∧ 2 ^ (-12 : ℤ) ≤ r ∧ r ≤ 1 := by
  simp only [input_mf.call, TEMP_MEDIUM, fuzzyficTriangleTypeMf]
  split_ifs
  all_goals
    first
      | (exfalso; omega)
      | (obtain ⟨r, hr, _, h1, _, hp⟩ := good_of_div (10880 - 9600) (10880 - 9600)
          (by omega) (by omega) (by omega) (by omega)
         exact ⟨r, hr, hp (by omega), h1⟩)

/-- Every delta-temperature has a configured term of positive degree. -/
theorem dtemp_pos (dtemp : ℤ) :
    ∃ mf ∈ DTEMP_INPUT_MFS, ∃ r : ℚ, mf.call dtemp = F32.fin r ∧ 2 ^ (-12 : ℤ) ≤ r ∧
      r ≤ 1 := by
  have one : (2 : ℚ) ^ (-12 : ℤ) ≤ 1 := by norm_num [zpow_neg]
  by_cases c1 : dtemp < 0
  · refine ⟨DELTATEMP_NEG, by simp [DTEMP_INPUT_MFS], ?_⟩
    simp only [input_mf.call, DELTATEMP_NEG, fuzzyficHalfTrapezeTypeMf, halfTrapezeRising]
    split_ifs
    all_goals
      first
        | exact ⟨1, rfl, one, le_refl _⟩
        | (exfalso; omega)
        | (obtain ⟨r, hr, _, h1, _, hp⟩ := good_of_div (0 - dtemp) (0 - -1)
            (by omega) (by omega) (by omega) (by omega)
           exact ⟨r, hr, hp (by omega), h1⟩)
  by_cases c2 : dtemp < 2
  · refine ⟨DELTATEMP_ZERO, by simp [DTEMP_INPUT_MFS], ?_⟩
    simp only [input_mf.call, DELTATEMP_ZERO, fuzzyficTriangleTypeMf]
    split_ifs
    all_goals
      first
        | (exfalso; omega)
        | (obtain ⟨r, hr, _, h1, _, hp⟩ := good_of_div (dtemp - -1) (0 - -1)
            (by omega) (by omega) (by omega) (by omega)
           exact ⟨r, hr, hp (by omega), h1⟩)
        | (obtain ⟨r, hr, _, h1, _, hp⟩ := good_of_div (2 - dtemp) (2 - 0)
            (by omega) (by omega) (by omega) (by omega)
           exact ⟨r, hr, hp (by omega), h1⟩)
  by_cases c3 : dtemp < 4
  · refine ⟨DELTATEMP_SPOS, by simp [DTEMP_INPUT_MFS], ?_⟩
    simp only [input_mf.call, DELTATEMP_SPOS, fuzzyficTriangleTypeMf]
    split_ifs
    all_goals
      first
        | (exfalso; omega)
        | (obtain ⟨r, hr, _, h1, _, hp⟩ := good_of_div (dtemp - 0) (2 - 0)
            (by omega) (by omega) (by omega) (by omega)
           exact ⟨r, hr, hp (by omega), h1⟩)
        | (obtain ⟨r, hr, _, h1, _, hp⟩ := good_of_div (4 - dtemp) (4 - 2)
            (by omega) (by omega) (by omega) (by omega)
           exact ⟨r, hr, hp (by omega), h1⟩)
  by_cases c4 : dtemp < 6
  · refine ⟨DELTATEMP_POS, by simp [DTEMP_INPUT_MFS], ?_⟩
    simp only [input_mf.call, DELTATEMP_POS, fuzzyficTriangleTypeMf]
    split_ifs
    all_goals
      first
        | (exfalso; omega)
        | (obtain ⟨r, hr, _, h1, _, hp⟩ := good_of_div (dtemp - 2) (4 - 2)
            (by omega) (by omega) (by omega) (by omega)
           exact ⟨r, hr, hp (by omega), h1⟩)
        | (obtain ⟨r, hr, _, h1, _, hp⟩ := good_of_div (6 - dtemp) (6 - 4)
            (by omega) (by omega) (by omega) (by omega)
           exact ⟨r, hr, hp (by omega), h1⟩)
  · refine ⟨DELTATEMP_VPOS, by simp [DTEMP_INPUT_MFS], ?_⟩
    simp only [input_mf.call, DELTATEMP_VPOS, fuzzyficHalfTrapezeTypeMf, halfTrapezeRising]
    split_ifs
    all_goals
      first
        | exact ⟨1, rfl, one, le_refl _⟩
        | (exfalso; omega)
        | (obtain ⟨r, hr, _, h1, _, hp⟩ := good_of_div (dtemp - 4) (6 - 4)
            (by omega) (by omega) (by omega) (by omega)
           exact ⟨r, hr, hp (by omega), h1⟩)

/-! ## The fire strengths of the configured table -/

theorem FUZZY_RULES_pair :
    ∀ mt ∈ [TEMP_COLD, TEMP_MEDIUM], ∀ md ∈ DTEMP_INPUT_MFS, ∃ j : Fin FUZZY_RULES_NUM,
      (FUZZY_RULES j).if_side1 = some mt ∧ (FUZZY_RULES j).if_side2 = some md := by
  decide

theorem strength_fin (t d : ℚ) (hd : d ≤ 1) :
    strength (F32.fin t) (F32.fin d) = F32.fin (t ⊓ d) := by
  have h3 : ¬ d = 3 := by intro h; rw [h] at hd; norm_num at hd
  simp only [strength, F32.eq, h3, decide_False, Bool.false_eq_true, if_false, min_fin]

/-- The fire strength the two loops leave for rule `j`. -/
theorem fuzzy_pwm_eq (temp dtemp : ℤ) (fl : fuzzy_logic_t) (j : Fin FUZZY_RULES_NUM) :
    (evaluation_rules (fuzzyfication_input FUZZY_RULES temp dtemp fl)).fuzzy_pwm j =
      strength (tempDegree FUZZY_RULES temp j) (dtempDegree FUZZY_RULES dtemp j) := by
  rw [(evaluation_rules_eq _).2.2.1 j, fuzzyfication_input_eq]

/-- Each fire strength is in `[0,1]`, and `0` or at least `2 ^ (-12)`. -/
theorem strength_good (temp dtemp : ℤ) (j : Fin FUZZY_RULES_NUM) :
    ∃ w : ℚ, strength (tempDegree FUZZY_RULES temp j) (dtempDegree FUZZY_RULES dtemp j)
        = F32.fin w ∧ 0 ≤ w ∧ w ≤ 1 ∧ (w = 0 ∨ 2 ^ (-12 : ℤ) ≤ w) := by
  obtain ⟨mt, hmt, e1⟩ := List.mem_map.mp (FUZZY_RULES_if_side1 j)
  obtain ⟨t, ht, ht0, ht1, htg⟩ := configured_good mt (List.mem_append_left _ hmt) temp
  have h2 := FUZZY_RULES_if_side2 j
  unfold tempDegree dtempDegree
  rw [← e1]
  rw [List.mem_cons] at h2
  rcases h2 with e | e
  · rw [e]
    exact ⟨t, by rw [strength_three]; exact ht, ht0, ht1, htg⟩
  · obtain ⟨md, hmd, e2⟩ := List.mem_map.mp e
    obtain ⟨d, hd, hd0, hd1, hdg⟩ := configured_good md (List.mem_append_right _ hmd) dtemp
    rw [← e2]
    refine ⟨t ⊓ d, ?_, le_inf ht0 hd0, le_trans inf_le_left ht1, ?_⟩
    · show strength (mt.call temp) (md.call dtemp) = _
      rw [ht, hd, strength_fin t d hd1]
    · rcases le_total t d with c | c
      · rw [inf_eq_left.mpr c]; exact htg
      · rw [inf_eq_right.mpr c]; exact hdg

/-- For every temperature and delta-temperature some rule fires. -/
theorem some_rule_fires (temp dtemp : ℤ) :
    ∃ j : Fin FUZZY_RULES_NUM, ∃ w : ℚ,
      strength (tempDegree FUZZY_RULES temp j) (dtempDegree FUZZY_RULES dtemp j)
        = F32.fin w ∧ 2 ^ (-12 : ℤ) ≤ w := by
  by_cases c1 : temp < 9600
  · obtain ⟨r, hr, hp, _⟩ := melting_pos temp c1
    refine ⟨0, r, ?_, hp⟩
    show strength (TEMP_MELTING.call temp) (F32.fin 3) = _
    rw [strength_three, hr]
  by_cases c2 : 10880 < temp
  · obtain ⟨r, hr, hp, _⟩ := hot_pos temp c2
    refine ⟨11, r, ?_, hp⟩
    show strength (TEMP_HOT.call temp) (F32.fin 3) = _
    rw [strength_three, hr]
  have middle : ∃ mt ∈ [TEMP_COLD, TEMP_MEDIUM], ∃ r : ℚ,
      mt.call temp = F32.fin r ∧ 2 ^ (-12 : ℤ) ≤ r ∧ r ≤ 1 := by
    by_cases c3 : temp < 10880
    · exact ⟨TEMP_COLD, by simp, cold_pos temp (by omega) c3⟩
    · have e : temp = 10880 := by omega
      rw [e]
      exact ⟨TEMP_MEDIUM, by simp, medium_pos⟩
  obtain ⟨mt, hmt, t, ht, htp, _⟩ := middle
  obtain ⟨md, hmd, d, hd, hdp, hd1⟩ := dtemp_pos dtemp
  obtain ⟨j, e1, e2⟩ := FUZZY_RULES_pair mt hmt md hmd
  refine ⟨j, t ⊓ d, ?_, le_inf htp hdp⟩
  unfold tempDegree dtempDegree
  rw [e1, e2]
  show strength (mt.call temp) (md.call dtemp) = _
  rw [ht, hd, strength_fin t d hd1]

/-! ## The two sums of `defuzzyfication` on the configured table -/

theorem FUZZY_RULES_maxpoint_le (j : Fin FUZZY_RULES_NUM) :
    (FUZZY_RULES j).then_side.maxpoint ≤ 100 := by
  revert j; decide

theorem ratio_step (K a p b w : ℚ) (hK0 : 100 ≤ K) (hK1 : K ≤ 101 - 1 / 1000) (hb0 : 0 ≤ b)
    (hw0 : 0 ≤ w) (hab : a ≤ K * b) (hpw : p ≤ 100 * w * (1 + 1 / 2 ^ 24)) :
    (a + p) * (1 + 1 / 2 ^ 24) ≤ (K + 1 / 1000) * ((b + w) * (1 - 1 / 2 ^ 24)) := by
  have h1 : 0 ≤ (101 - 1 / 1000 - K) * b := mul_nonneg (by linarith) hb0
  have h2 : 0 ≤ (K - 100) * w := mul_nonneg (by linarith) hw0
  linarith

/-- One turn of the loop of `defuzzyfication`: after `n` turns the sum of the weights is
at most `2 n`, the sum of the maximums at most `100 + n / 1000` times the sum of the
weights, and each sum is `0` or at least `2 ^ (-12)`. -/
theorem accumulate_bounds (s : Fin FUZZY_RULES_NUM → F32) (j : Fin FUZZY_RULES_NUM) (w : ℚ)
    (hs : s j = F32.fin w) (hw0 : 0 ≤ w) (hw1 : w ≤ 1) (hwg : w = 0 ∨ 2 ^ (-12 : ℤ) ≤ w)
    (n : ℕ) (hn : n < 1000) (a b : ℚ)
    (ha : a = 0 ∨ 2 ^ (-12 : ℤ) ≤ a) (hb : b = 0 ∨ 2 ^ (-12 : ℤ) ≤ b)
    (hbn : b ≤ 2 * n) (hab : a ≤ (100 + n / 1000) * b) :
    ∃ a2 b2 : ℚ,
      accumulate FUZZY_RULES s (F32.fin a, F32.fin b) j = (F32.fin a2, F32.fin b2) ∧
      (a2 = 0 ∨ 2 ^ (-12 : ℤ) ≤ a2) ∧ (b2 = 0 ∨ 2 ^ (-12 : ℤ) ≤ b2) ∧
      b2 ≤ 2 * (n + 1 : ℕ) ∧ a2 ≤ (100 + (n + 1 : ℕ) / 1000) * b2 ∧
      (2 ^ (-12 : ℤ) ≤ b ∨ 2 ^ (-12 : ℤ) ≤ w → 2 ^ (-12 : ℤ) ≤ b2) := by
  have P : (0 : ℚ) < 2 ^ (-12 : ℤ) := two_zpow_pos _
  have big : (1000000 : ℚ) ≤ 2 ^ (100 : ℤ) := by norm_num
  have ha0 : 0 ≤ a := by rcases ha with h | h <;> linarith
  have hb0 : 0 ≤ b := by rcases hb with h | h <;> linarith
  have hnq : (n : ℚ) ≤ 999 := by exact_mod_cast (by omega : n ≤ 999)
  have hn0 : (0 : ℚ) ≤ n := Nat.cast_nonneg n
  have hm : ((FUZZY_RULES j).then_side.maxpoint : ℚ) ≤ 100 := by
    exact_mod_cast FUZZY_RULES_maxpoint_le j
  have hm0 : (0 : ℚ) ≤ ((FUZZY_RULES j).then_side.maxpoint : ℚ) := Nat.cast_nonneg _
  have hof : ofInt ((FUZZY_RULES j).then_side.maxpoint : ℤ) =
      F32.fin ((FUZZY_RULES j).then_side.maxpoint : ℚ) := by
    have := ofInt_eq ((FUZZY_RULES j).then_side.maxpoint : ℤ)
      (by rw [abs_of_nonneg (Int.natCast_nonneg _)]
          have := FUZZY_RULES_maxpoint_le j
          omega)
    simpa using this
  -- the product
  have hq1 : w * ((FUZZY_RULES j).then_side.maxpoint : ℚ) = 0 ∨
      2 ^ (-12 : ℤ) ≤ w * ((FUZZY_RULES j).then_side.maxpoint : ℚ) := by
    rcases hwg with h | h
    · left; rw [h, zero_mul]
    · rcases Nat.eq_zero_or_pos (FUZZY_RULES j).then_side.maxpoint with e | e
      · left; rw [e]; simp
      · right
        have : (1 : ℚ) ≤ ((FUZZY_RULES j).then_side.maxpoint : ℚ) := by exact_mod_cast e
        nlinarith
  have hq1u : w * ((FUZZY_RULES j).then_side.maxpoint : ℚ) ≤ 100 * w := by
    have := mul_le_mul_of_nonneg_left hm hw0
    linarith
  obtain ⟨p, hp, _, _, hpg, hp0, _, hpu⟩ :=
    rnd_zero_or_rel _ (-12) (by norm_num) hq1 (by linarith)
  have hp200 : p ≤ 200 := by nlinarith
  have hpw : p ≤ 100 * w * (1 + 1 / 2 ^ 24) := by nlinarith
  -- the sum of the maximums
  have h1 : 0 ≤ (101 - 1 / 1000 - (100 + (n : ℚ) / 1000)) * b :=
    mul_nonneg (by linarith) hb0
  have h2 : 0 ≤ ((100 + (n : ℚ) / 1000) - 100) * w :=
    mul_nonneg (by linarith [div_nonneg hn0 (by norm_num : (0 : ℚ) ≤ 1000)]) hw0
  have hq2 : a + p = 0 ∨ 2 ^ (-12 : ℤ) ≤ a + p := by
    rcases ha with h | h
    · rcases hpg with g | g
      · left; rw [h, g, add_zero]
      · right; linarith
    · right; linarith
  obtain ⟨a2, ha2, _, _, ha2g, ha20, _, ha2u⟩ :=
    rnd_zero_or_rel (a + p) (-12) (by norm_num) hq2 (by nlinarith)
  -- the sum of the weights
  have hq3 : b + w = 0 ∨ 2 ^ (-12 : ℤ) ≤ b + w := by
    rcases hb with h | h
    · rcases hwg with g | g
      · left; rw [h, g, add_zero]
      · right; linarith
    · right; linarith
  obtain ⟨b2, hb2, _, hb2k, hb2g, hb20, hb2l, hb2u⟩ :=
    rnd_zero_or_rel (b + w) (-12) (by norm_num) hq3 (by linarith)
  refine ⟨a2, b2, ?_, ha2g, hb2g, ?_, ?_, ?_⟩
  · show (F32.add (F32.fin a) (F32.mul (s j) (ofInt _)), F32.add (F32.fin b) (s j)) = _
    rw [hs, hof]
    show (F32.add (F32.fin a) (rnd (w * _)), rnd (b + w)) = _
    rw [hp, hb2]
    show (rnd (a + p), _) = _
    rw [ha2]
  · push_cast
    nlinarith
  · push_cast
    have e : (100 + ((n : ℚ) + 1) / 1000) = (100 + (n : ℚ) / 1000) + 1 / 1000 := by ring
    rw [e]
    have hK : (0 : ℚ) ≤ 100 + (n : ℚ) / 1000 + 1 / 1000 := by
      have := div_nonneg hn0 (by norm_num : (0 : ℚ) ≤ 1000)
      linarith
    have step : (a + p) * (1 + 1 / 2 ^ 24) ≤
        (100 + (n : ℚ) / 1000 + 1 / 1000) * ((b + w) * (1 - 1 / 2 ^ 24)) :=
      ratio_step _ a p b w (by linarith [div_nonneg hn0 (by norm_num : (0 : ℚ) ≤ 1000)])
        (by linarith) hb0 hw0 hab hpw
    calc a2 ≤ (a + p) * (1 + 1 / 2 ^ 24) := ha2u
      _ ≤ (100 + (n : ℚ) / 1000 + 1 / 1000) * ((b + w) * (1 - 1 / 2 ^ 24)) := step
      _ ≤ (100 + (n : ℚ) / 1000 + 1 / 1000) * b2 := mul_le_mul_of_nonneg_left hb2l hK
  · intro h
    apply hb2k
    rcases h with h | h <;> linarith

/-- The loop of `defuzzyfication` over strengths in `[0,1]` that are `0` or at least
`2 ^ (-12)`: the bounds of `accumulate_bounds` after each turn. -/
theorem foldl_accumulate_bounds (s : Fin FUZZY_RULES_NUM → F32)
    (hs : ∀ j, ∃ w : ℚ, s j = F32.fin w ∧ 0 ≤ w ∧ w ≤ 1 ∧ (w = 0 ∨ 2 ^ (-12 : ℤ) ≤ w)) :
    ∀ (l : List (Fin FUZZY_RULES_NUM)) (n : ℕ) (a b : ℚ), n + l.length ≤ 1000 →
      (a = 0 ∨ 2 ^ (-12 : ℤ) ≤ a) → (b = 0 ∨ 2 ^ (-12 : ℤ) ≤ b) →
      b ≤ 2 * n → a ≤ (100 + n / 1000) * b →
      ∃ a2 b2 : ℚ,
        l.foldl (accumulate FUZZY_RULES s) (F32.fin a, F32.fin b) = (F32.fin a2, F32.fin b2) ∧
        (a2 = 0 ∨ 2 ^ (-12 : ℤ) ≤ a2) ∧ (b2 = 0 ∨ 2 ^ (-12 : ℤ) ≤ b2) ∧
        b2 ≤ 2 * (n + l.length : ℕ) ∧ a2 ≤ (100 + (n + l.length : ℕ) / 1000) * b2 ∧
        ((2 ^ (-12 : ℤ) ≤ b ∨ ∃ j ∈ l, ∃ w : ℚ, s j = F32.fin w ∧ 2 ^ (-12 : ℤ) ≤ w) →
          2 ^ (-12 : ℤ) ≤ b2) := by
  intro l
  induction l with
  | nil =>
    intro n a b _ ha hb hbn hab
    refine ⟨a, b, rfl, ha, hb, by simpa using hbn, by simpa using hab, ?_⟩
    rintro (h | ⟨j, hj, _⟩)
    · exact h
    · exact absurd hj (List.not_mem_nil j)
  | cons j l ih =>
    intro n a b hlen ha hb hbn hab
    rw [List.length_cons] at hlen
    obtain ⟨w, hw, hw0, hw1, hwg⟩ := hs j
    obtain ⟨a1, b1, e1, ha1, hb1, hbn1, hab1, hpos1⟩ :=
      accumulate_bounds s j w hw hw0 hw1 hwg n (by omega) a b ha hb hbn hab
    obtain ⟨a2, b2, e2, ha2, hb2, hbn2, hab2, hpos2⟩ :=
      ih (n + 1) a1 b1 (by omega) ha1 hb1 hbn1 hab1
    have hl : n + (j :: l).length = n + 1 + l.length := by
      rw [List.length_cons]; omega
    refine ⟨a2, b2, ?_, ha2, hb2, ?_, ?_, ?_⟩
    · rw [List.foldl_cons, e1, e2]
    · rw [hl]; exact hbn2
    · rw [hl]; exact hab2
    · intro h
      apply hpos2
      rcases h with h | ⟨i, hi, v, hv, hvp⟩
      · exact Or.inl (hpos1 (Or.inl h))
      · rcases List.mem_cons.mp hi with e | e
        · left
          apply hpos1
          right
          rw [e, hw] at hv
          injection hv with hv
          rw [hv]
          exact hvp
        · exact Or.inr ⟨i, e, v, hv, hvp⟩

/-- The two sums of `defuzzyfication` over the configured table: both finite, the sum of
the weights at least `2 ^ (-12)` and the sum of the maximums at most `100.014` times
the sum of the weights. -/
theorem sums_bounds (temp dtemp : ℤ) (fl : fuzzy_logic_t) :
    ∃ a b : ℚ,
      sums FUZZY_RULES (evaluation_rules (fuzzyfication_input FUZZY_RULES temp dtemp fl)).fuzzy_pwm
        = (F32.fin a, F32.fin b) ∧
      (a = 0 ∨ 2 ^ (-12 : ℤ) ≤ a) ∧ 2 ^ (-12 : ℤ) ≤ b ∧ b ≤ 28 ∧
      a ≤ (100 + 14 / 1000) * b := by
  have hs : ∀ j, ∃ w : ℚ,
      (evaluation_rules (fuzzyfication_input FUZZY_RULES temp dtemp fl)).fuzzy_pwm j
        = F32.fin w ∧ 0 ≤ w ∧ w ≤ 1 ∧ (w = 0 ∨ 2 ^ (-12 : ℤ) ≤ w) := by
    intro j
    rw [fuzzy_pwm_eq]
    exact strength_good temp dtemp j
  obtain ⟨a, b, e, ha, hb, hbn, hab, hpos⟩ :=
    foldl_accumulate_bounds _ hs (List.finRange FUZZY_RULES_NUM) 0 0 0
      (by simp [FUZZY_RULES_NUM]) (Or.inl rfl) (Or.inl rfl) (by simp) (by simp)
  obtain ⟨j, w, hw, hwp⟩ := some_rule_fires temp dtemp
  have hbp : (2 : ℚ) ^ (-12 : ℤ) ≤ b :=
    hpos (Or.inr ⟨j, List.mem_finRange j, w, by rw [fuzzy_pwm_eq]; exact hw, hwp⟩)
  refine ⟨a, b, e, ha, hbp, ?_, ?_⟩
  · have : ((0 + (List.finRange FUZZY_RULES_NUM).length : ℕ) : ℚ) = 14 := by
      simp
    rw [this] at hbn
    linarith
  · have : ((0 + (List.finRange FUZZY_RULES_NUM).length : ℕ) : ℚ) = 14 := by
      simp
    rw [this] at hab
    exact hab

/-- The quotient of `defuzzyfication` over the configured table is a finite value from `0`
to below `101`. -/
theorem quotient_bounds (temp dtemp : ℤ) (fl : fuzzy_logic_t) :
    ∃ q : ℚ,
      F32.div
        (sums FUZZY_RULES
          (evaluation_rules (fuzzyfication_input FUZZY_RULES temp dtemp fl)).fuzzy_pwm).1
        (sums FUZZY_RULES
          (evaluation_rules (fuzzyfication_input FUZZY_RULES temp dtemp fl)).fuzzy_pwm).2
        = F32.fin q ∧ 0 ≤ q ∧ q < 101 := by
  obtain ⟨a, b, e, ha, hbp, hb28, hab⟩ := sums_bounds temp dtemp fl
  have P : (0 : ℚ) < 2 ^ (-12 : ℤ) := two_zpow_pos _
  have hb0 : 0 < b := lt_of_lt_of_le P hbp
  have hq : a / b = 0 ∨ 2 ^ (-17 : ℤ) ≤ a / b := by
    rcases ha with h | h
    · left; rw [h, zero_div]
    · right
      rw [le_div_iff₀ hb0]
      have e17 : (2 : ℚ) ^ (-17 : ℤ) = 1 / 131072 := by norm_num [zpow_neg]
      have e12 : (2 : ℚ) ^ (-12 : ℤ) = 1 / 4096 := by norm_num [zpow_neg]
      rw [e17]
      rw [e12] at h
      linarith
  have hqu : a / b ≤ 100 + 14 / 1000 := by
    rw [div_le_iff₀ hb0]
    exact hab
  obtain ⟨q, hq1, _, _, _, hq0, _, hq2⟩ :=
    rnd_zero_or_rel (a / b) (-17) (by norm_num) hq
      (le_trans hqu (by norm_num))
  refine ⟨q, ?_, hq0, ?_⟩
  · rw [e]
    show F32.div (F32.fin a) (F32.fin b) = _
    rw [div_fin a b (ne_of_gt hb0), hq1]
  · have : a / b * (1 + 1 / 2 ^ 24) ≤ (100 + 14 / 1000) * (1 + 1 / 2 ^ 24) :=
      mul_le_mul_of_nonneg_right hqu (by norm_num)
    have : (100 + 14 / 1000 : ℚ) * (1 + 1 / 2 ^ 24) < 101 := by norm_num
    linarith

/-- C25: with the configured table and membership functions, for every temperature and
delta-temperature (every integer, the `int16_t` values among them) and every content of
the working structure before the computation, the sum of the 14 fire strengths that
`defuzzyfication` computes is a finite value above `0` (at least `2 ^ (-12)`, at most
`28`), beside a finite sum of the maximums, so the division of `defuzzyfication` is the
rounded quotient of two numbers with a divisor that is not `0`. -/
theorem sum_of_strengths_positive (temp dtemp : ℤ) (fl : fuzzy_logic_t) :
    ∃ a b : ℚ,
      sums FUZZY_RULES (evaluation_rules (fuzzyfication_input FUZZY_RULES temp dtemp fl)).fuzzy_pwm
        = (F32.fin a, F32.fin b) ∧ 0 < b ∧ 2 ^ (-12 : ℤ) ≤ b ∧ b ≤ 28 ∧
      F32.div (F32.fin a) (F32.fin b) = rnd (a / b) := by
  obtain ⟨a, b, e, _, hbp, hb28, _⟩ := sums_bounds temp dtemp fl
  have hb0 : 0 < b := lt_of_lt_of_le (two_zpow_pos _) hbp
  exact ⟨a, b, e, hb0, hbp, hb28, div_fin a b (ne_of_gt hb0)⟩

/-- The duty cycle of the configured table is `100 * k` with `k` from `0` to `100`. -/
theorem duty_percent (temp dtemp : ℤ) (fl : fuzzy_logic_t) :
    ∃ k : ℕ, k ≤ 100 ∧
      defuzzyfication FUZZY_RULES
        (evaluation_rules (fuzzyfication_input FUZZY_RULES temp dtemp fl)).fuzzy_pwm
        = some (100 * k) := by
  obtain ⟨q, hq, hq0, hq1⟩ := quotient_bounds temp dtemp fl
  have hk : ⌊q⌋₊ ≤ 100 := by
    have : ⌊q⌋₊ < 101 := (Nat.floor_lt hq0).mpr (by exact_mod_cast hq1)
    omega
  exact ⟨⌊q⌋₊, hk, defuzzyfication_of_div FUZZY_RULES _ q hq hq0 (by linarith)⟩

/-- C27: with the configured tables, for every temperature and delta-temperature (every
integer, the `int16_t` values among them) and every content of the working structure
before the computation, `fuzzyfication_input`, `evaluation_rules` and `defuzzyfication`
yield a duty cycle `100 * k` with `k` a whole number from `0` to `100`: a multiple of
`100` between `0` and `PWM_COUNT` inclusive. -/
theorem duty_is_whole_percent (temp dtemp : ℤ) (fl : fuzzy_logic_t) :
    ∃ duty : ℕ,
      defuzzyfication FUZZY_RULES
        (evaluation_rules (fuzzyfication_input FUZZY_RULES temp dtemp fl)).fuzzy_pwm
        = some duty ∧ 100 ∣ duty ∧ 0 ≤ duty ∧ duty ≤ PWM_COUNT := by
  obtain ⟨k, hk, hd⟩ := duty_percent temp dtemp fl
  refine ⟨100 * k, hd, Dvd.intro k rfl, Nat.zero_le _, ?_⟩
  unfold PWM_COUNT
  omega

/-! ## The duty cycles outside `FUZZYREG_ACTIVE` -/

theorem critCheck_state (r : fuzzyreg_t) (i : Fin CHANNEL_NUM) :
    (critCheck r i).state = r.state := by
  unfold critCheck
  split <;> rfl

theorem idleBranch_state (r : fuzzyreg_t) (i : Fin CHANNEL_NUM) :
    (idleBranch r i).state = r.state := by
  unfold idleBranch
  simp only []
  split_ifs <;> simp only [critCheck_state]

theorem meltingBranch_state (r : fuzzyreg_t) (i : Fin CHANNEL_NUM) :
    (meltingBranch r i).state = r.state := by
  unfold meltingBranch
  simp only []
  split_ifs <;> simp only [critCheck_state]

theorem checkTgAlpha_state (r : fuzzyreg_t) (i : Fin CHANNEL_NUM) :
    (checkTgAlpha r i).state = r.state := by
  unfold checkTgAlpha
  split_ifs
  · exact idleBranch_state r i
  · exact meltingBranch_state r i

theorem critTemp_state (r : fuzzyreg_t) (i : Fin CHANNEL_NUM) :
    (critTemp r i).state = r.state := by
  unfold critTemp
  split <;> rfl

theorem fuzzyErrorMail_state (r : fuzzyreg_t) : (fuzzyErrorMail r).state = r.state := by
  unfold fuzzyErrorMail
  split <;> rfl

/-- The loop body of `case FUZZYREG_ACTIVE` always completes and keeps the state. -/
theorem channelStep_state (r : fuzzyreg_t) (i : Fin CHANNEL_NUM) :
    ∃ r1, channelStep r i = some r1 ∧ r1.state = r.state := by
  obtain ⟨k, _, hd⟩ := duty_percent (r.curr_temp.temp i) (r.curr_temp.dtemp i) (critTemp r i).fl
  unfold channelStep
  rw [hd]
  refine ⟨_, rfl, ?_⟩
  rw [checkTgAlpha_state]
  exact critTemp_state r i

/-- The case `FUZZYREG_ACTIVE` always completes and keeps the state. -/
theorem activeCase_state (r : fuzzyreg_t) :
    ∃ r1, activeCase r = some r1 ∧ r1.state = r.state := by
  obtain ⟨r0, e0, s0⟩ := channelStep_state r 0
  obtain ⟨r1, e1, s1⟩ := channelStep_state r0 1
  obtain ⟨r2, e2, s2⟩ := channelStep_state r1 2
  refine ⟨fuzzyErrorMail r2, ?_, ?_⟩
  · unfold activeCase
    rw [e0, Option.some_bind, e1, Option.some_bind, e2, Option.map_some']
  · rw [fuzzyErrorMail_state, s2, s1, s0]

/-- The `switch` on the message keeps "not active, so every duty cycle is `0`". -/
theorem handleMsg_off (r : fuzzyreg_t) (msg : ℕ)
    (h : r.state ≠ .FUZZYREG_ACTIVE → ∀ i, r.dutycycle i = 0) :
    (handleMsg r msg).state ≠ .FUZZYREG_ACTIVE → ∀ i, (handleMsg r msg).dutycycle i = 0 := by
  unfold handleMsg startRoutine stopRoutine disableRoutine
  split_ifs
  · intro hn; exact absurd rfl hn
  · exact h
  · intro _ _; rfl
  · exact h
  · intro _ _; rfl
  · exact h

theorem takeSample_active (r : fuzzyreg_t) (sample : temperature_t)
    (h : r.state = .FUZZYREG_ACTIVE) :
    takeSample r sample = activeCase { r with curr_temp := sample } := by
  simp only [takeSample, h]

theorem takeSample_other (r : fuzzyreg_t) (sample : temperature_t)
    (h : r.state ≠ .FUZZYREG_ACTIVE) :
    takeSample r sample = some { r with curr_temp := sample } := by
  cases hs : r.state with
  | FUZZYREG_ACTIVE => exact absurd hs h
  | FUZZYREG_STOP => simp only [takeSample, hs]
  | FUZZYREG_DISABLE => simp only [takeSample, hs]

/-- One turn of the loop completes and keeps "not active, so every duty cycle is `0`". -/
theorem cycle_off (r : fuzzyreg_t) (msg : ℕ) (item : Option temperature_t)
    (h : r.state ≠ .FUZZYREG_ACTIVE → ∀ i, r.dutycycle i = 0) :
    ∃ r1, cycle r msg item = some r1 ∧
      (r1.state ≠ .FUZZYREG_ACTIVE → ∀ i, r1.dutycycle i = 0) := by
  have hm := handleMsg_off r msg h
  cases item with
  | none => exact ⟨_, rfl, hm⟩
  | some sample =>
    show ∃ r1, takeSample (handleMsg r msg) sample = some r1 ∧ _
    by_cases hs : (handleMsg r msg).state = .FUZZYREG_ACTIVE
    · obtain ⟨r1, e1, s1⟩ := activeCase_state { handleMsg r msg with curr_temp := sample }
      rw [takeSample_active _ _ hs]
      refine ⟨r1, e1, ?_⟩
      intro hn
      exact absurd (s1.trans hs) hn
    · rw [takeSample_other _ _ hs]
      refine ⟨_, rfl, ?_⟩
      intro _ i
      exact hm hs i

/-- Every sequence of turns completes and keeps "not active, so every duty cycle is `0`". -/
theorem run_off : ∀ (turns : List (ℕ × Option temperature_t)) (r : fuzzyreg_t),
    (r.state ≠ .FUZZYREG_ACTIVE → ∀ i, r.dutycycle i = 0) →
    ∃ r1, run r turns = some r1 ∧
      (r1.state ≠ .FUZZYREG_ACTIVE → ∀ i, r1.dutycycle i = 0) := by
  intro turns
  induction turns with
  | nil => intro r h; exact ⟨r, rfl, h⟩
  | cons t rest ih =>
    intro r h
    obtain ⟨msg, item⟩ := t
    obtain ⟨r1, e1, h1⟩ := cycle_off r msg item h
    obtain ⟨r2, e2, h2⟩ := ih r1 h1
    refine ⟨r2, ?_, h2⟩
    show (cycle r msg item).bind (fun r1 => run r1 rest) = some r2
    rw [e1, Option.some_bind, e2]

/-- C28: from `regulatorInit`, every sequence of turns of the loop of `Threadregulator`
(each with any message code, `0` for none, and with or without a temperature item of any
content) completes, and in the state it ends in, whenever `state` is not
`FUZZYREG_ACTIVE`, all three duty cycles are `0`. -/
theorem heaters_off_outside_active (turns : List (ℕ × Option temperature_t)) :
    ∃ r, run regulatorInit turns = some r ∧
      (r.state ≠ .FUZZYREG_ACTIVE → ∀ i : Fin CHANNEL_NUM, r.dutycycle i = 0) :=
  run_off turns regulatorInit (fun _ _ => rfl)

/-! ## Rounding of values on the binary32 grid -/

/-- C4 (amended): `defuzzyfication` defines no fallback.  Whenever the accumulated
`sum_wight` is `0.0`, the quotient `sum_maximums / sum_wight` is a NaN or an infinity, never
a number, and its conversion to `uint32_t` is undefined.  The call of `defuzzyfication`
in the loop of the regulator, after `fuzzyfication_input` and `evaluation_rules` on the
configured tables, does not meet that case: for every temperature and
delta-temperature the accumulated `sum_wight` is at least `2 ^ (-12)` and a duty cycle is
returned. -/
theorem zero_sum_has_no_fallback (rules : Fin FUZZY_RULES_NUM → fuzzy_rule)
    (fuzzy_pwm : Fin FUZZY_RULES_NUM → F32) (temp dtemp : ℤ) (fl : fuzzy_logic_t) :
    ((sums rules fuzzy_pwm).2 = F32.fin 0 →
      (∀ q : ℚ, F32.div (sums rules fuzzy_pwm).1 (sums rules fuzzy_pwm).2 ≠ F32.fin q) ∧
      defuzzyfication rules fuzzy_pwm = none) ∧
    (∃ b : ℚ,
      (sums FUZZY_RULES
        (evaluation_rules (fuzzyfication_input FUZZY_RULES temp dtemp fl)).fuzzy_pwm).2
        = F32.fin b ∧ 2 ^ (-12 : ℤ) ≤ b) ∧
    (∃ duty : ℕ,
      defuzzyfication FUZZY_RULES
        (evaluation_rules (fuzzyfication_input FUZZY_RULES temp dtemp fl)).fuzzy_pwm
        = some duty) := by
  refine ⟨zero_sum_undefined rules fuzzy_pwm, ?_, ?_⟩
  · obtain ⟨a, b, e, _, hbp, _, _⟩ := sums_bounds temp dtemp fl
    exact ⟨b, by rw [e], hbp⟩
  · obtain ⟨k, _, hd⟩ := duty_percent temp dtemp fl
    exact ⟨100 * k, hd⟩

/-- Witness of C4 (amended): strengths all `0.0` for the first part, a sample of 10000
counts with delta `0` for the second. -/
theorem zero_sum_has_no_fallback_witness :
    (sums FUZZY_RULES fun _ => F32.fin 0).2 = F32.fin 0 ∧
    defuzzyfication FUZZY_RULES (fun _ => F32.fin 0) = none ∧
    ∃ duty : ℕ,
      defuzzyfication FUZZY_RULES
        (evaluation_rules (fuzzyfication_input FUZZY_RULES 10000 0 fuzzy_logic_zero)).fuzzy_pwm
        = some duty :=
  have h : (sums FUZZY_RULES fun _ => F32.fin 0).2 = F32.fin 0 := by rw [sums_zero]
  have t := zero_sum_has_no_fallback FUZZY_RULES (fun _ => F32.fin 0) 10000 0 fuzzy_logic_zero
  ⟨h, (t.1 h).2, t.2.2⟩

end Regulator

namespace InnerBuffer.Linked

/-! ## The linked queues and the lists they stand for -/

theorem chain_update (next : Links) (x : Item) (v : Option Item) :
    ∀ (l : List Item) (p : Option Item), x ∉ l → Chain next p l →
      Chain (Function.update next x v) p l := by
  intro l
  induction l with
  | nil => intro p _ h; exact h
  | cons a t ih =>
    intro p hx h
    obtain ⟨hp, ht⟩ := h
    have hax : a ≠ x := fun e => hx (e ▸ List.mem_cons_self _ _)
    refine ⟨hp, ?_⟩
    rw [Function.update_noteq hax]
    exact ih _ (fun hm => hx (List.mem_cons_of_mem _ hm)) ht

theorem chain_snoc (next : Links) (x : Item) :
    ∀ (l : List Item) (p : Option Item) (y : Item), l.Nodup → x ∉ l →
      l.getLast? = some y → Chain next p l →
      Chain (Function.update (Function.update next x none) y (some x)) p (l ++ [x]) := by
  intro l
  induction l with
  | nil => intro p y _ _ hy _; simp at hy
  | cons a t ih =>
    intro p y hnd hx hy h
    obtain ⟨hp, ht⟩ := h
    have hax : a ≠ x := fun e => hx (e ▸ List.mem_cons_self _ _)
    cases t with
    | nil =>
      have hya : a = y := by simpa using hy
      subst hya
      refine ⟨hp, ?_, ?_⟩
      · rw [Function.update_same]
      · show Function.update (Function.update next x none) a (some x) x = none
        rw [Function.update_noteq (Ne.symm hax), Function.update_same]
    | cons b t2 =>
      have hy2 : (b :: t2).getLast? = some y := by
        simpa [List.getLast?_cons_cons] using hy
      have hymem : y ∈ b :: t2 := List.mem_of_getLast?_eq_some hy2
      have hnd2 := List.nodup_cons.mp hnd
      have hay : a ≠ y := fun e => hnd2.1 (e ▸ hymem)
      refine ⟨hp, ?_⟩
      show Chain _ (Function.update (Function.update next x none) y (some x) a)
        ((b :: t2) ++ [x])
      rw [Function.update_noteq hay, Function.update_noteq hax]
      exact ih (next a) y hnd2.2 (fun hm => hx (List.mem_cons_of_mem _ hm)) hy2 ht

theorem chain_first (next : Links) (p : Option Item) (l : List Item) (h : Chain next p l) :
    p = l.head? := by
  cases l with
  | nil => exact h
  | cons a t => exact h.1

theorem queue_nil_iff (head : stailq_head) (next : Links) (l : List Item)
    (h : Queue head next l) : head.stqh_first = none ↔ l = [] := by
  have := chain_first next _ l h.1
  rw [this]
  cases l <;> simp

theorem queue_remove_head (head : stailq_head) (next : Links) (x : Item) (xs : List Item)
    (h : Queue head next (x :: xs)) :
    head.stqh_first = some x ∧ Queue (STAILQ_REMOVE_HEAD head next) next xs := by
  obtain ⟨⟨hf, hc⟩, hl⟩ := h
  refine ⟨hf, ?_⟩
  unfold STAILQ_REMOVE_HEAD
  rw [hf]
  cases xs with
  | nil =>
    have hn : next x = none := hc
    simp only [hn]
    exact ⟨rfl, rfl⟩
  | cons y ys =>
    have hn : next x = some y := hc.1
    simp only [hn]
    refine ⟨⟨rfl, ?_⟩, ?_⟩
    · have := hc.2
      exact this
    · show head.stqh_last = _
      rw [hl, List.getLast?_cons_cons]

theorem queue_insert (head : stailq_head) (next : Links) (l : List Item) (x : Item)
    (h : Queue head next l) (hnd : l.Nodup) (hx : x ∉ l) :
    Queue (insert head next x).1 (insert head next x).2 (l ++ [x]) := by
  have hnil := queue_nil_iff head next l h
  obtain ⟨hc, hl⟩ := h
  unfold insert
  by_cases he : head.stqh_first = none
  · have hl0 : l = [] := hnil.mp he
    subst hl0
    rw [if_pos he]
    unfold STAILQ_INSERT_HEAD
    rw [he]
    refine ⟨⟨rfl, ?_⟩, ?_⟩
    · show Function.update next x none x = none
      rw [Function.update_same]
    · simp
  · have hl0 : l ≠ [] := fun e => he (hnil.mpr e)
    rw [if_neg he]
    obtain ⟨y, hy⟩ : ∃ y, l.getLast? = some y := by
      cases hg : l.getLast? with
      | none => exact absurd (List.getLast?_eq_none_iff.mp hg) hl0
      | some y => exact ⟨y, rfl⟩
    unfold STAILQ_INSERT_TAIL
    rw [hl, hy]
    refine ⟨chain_snoc next x l _ y hnd hx hy hc, ?_⟩
    show some x = (l ++ [x]).getLast?
    simp

/-- An insertion into one queue leaves a queue that shares no item with it as it is. -/
theorem queue_frame (head : stailq_head) (next : Links) (l : List Item) (x : Item)
    (head2 : stailq_head) (l2 : List Item)
    (h : Queue head next l) (h2 : Queue head2 next l2) (hx : x ∉ l2)
    (hd : ∀ y ∈ l, y ∉ l2) : Queue head2 (insert head next x).2 l2 := by
  obtain ⟨hc2, hl2⟩ := h2
  refine ⟨?_, hl2⟩
  unfold insert
  by_cases he : head.stqh_first = none
  · rw [if_pos he]
    exact chain_update next x _ l2 _ hx hc2
  · rw [if_neg he]
    unfold STAILQ_INSERT_TAIL
    cases hlast : head.stqh_last with
    | none => exact chain_update next x _ l2 _ hx hc2
    | some y =>
      have hy : y ∈ l := by
        have := h.2
        rw [hlast] at this
        exact List.mem_of_getLast?_eq_some this.symm
      exact chain_update _ y _ l2 _ (hd y hy) (chain_update next x _ l2 _ hx hc2)

theorem getEmpty_none (p : inner_buffer_t) (h : p.emptyhead.stqh_first = none) :
    getEmptyInnerBufferItem p = ({ p with underflow := u16 (p.underflow + 1) }, none) := by
  unfold getEmptyInnerBufferItem
  split
  · rfl
  · rename_i item hi
    rw [h] at hi
    cases hi

theorem getEmpty_some (p : inner_buffer_t) (x : Item) (h : p.emptyhead.stqh_first = some x) :
    getEmptyInnerBufferItem p =
      ({ p with emptyhead := STAILQ_REMOVE_HEAD p.emptyhead p.next
                freeitem := u16 (p.freeitem + 65535) }, some x) := by
  unfold getEmptyInnerBufferItem
  split
  · rename_i hi
    rw [h] at hi
    cases hi
  · rename_i item hi
    rw [h] at hi
    cases hi
    rfl

theorem getFull_none (p : inner_buffer_t) (h : p.fullhead.stqh_first = none) :
    getFullInnerBufferItem p = (p, none) := by
  unfold getFullInnerBufferItem
  split
  · rfl
  · rename_i item hi
    rw [h] at hi
    cases hi

theorem getFull_some (p : inner_buffer_t) (x : Item) (h : p.fullhead.stqh_first = some x) :
    getFullInnerBufferItem p =
      ({ p with fullhead := STAILQ_REMOVE_HEAD p.fullhead p.next
                itemnum := u16 (p.itemnum + 65535) }, some x) := by
  unfold getFullInnerBufferItem
  split
  · rename_i hi
    rw [h] at hi
    cases hi
  · rename_i item hi
    rw [h] at hi
    cases hi
    rfl

theorem rep_getEmpty (p : inner_buffer_t) (l : InnerBuffer.inner_buffer_t) (hr : Rep p l) :
    Rep (getEmptyInnerBufferItem p).1 (InnerBuffer.getEmptyInnerBufferItem l).1 ∧
    (getEmptyInnerBufferItem p).2 = (InnerBuffer.getEmptyInnerBufferItem l).2 := by
  obtain ⟨he, hf, h1, h2, h3, h4, h5, h6, h7, h8⟩ := hr
  cases hl : l.emptyhead with
  | nil =>
    have hn : p.emptyhead.stqh_first = none := (queue_nil_iff _ _ _ he).mpr hl
    have e2 : InnerBuffer.getEmptyInnerBufferItem l
        = ({ l with underflow := u16 (l.underflow + 1) }, none) := by
      simp only [InnerBuffer.getEmptyInnerBufferItem, hl]
    rw [getEmpty_none p hn, e2]
    refine ⟨⟨he, hf, h1, h2, h3, ?_, h5, h6, h7, h8⟩, rfl⟩
    show u16 (p.underflow + 1) = u16 (l.underflow + 1)
    rw [h4]
  | cons x xs =>
    have he2 := he
    rw [hl] at he2
    obtain ⟨hfirst, hq⟩ := queue_remove_head _ _ x xs he2
    have e2 : InnerBuffer.getEmptyInnerBufferItem l
        = ({ l with emptyhead := xs, freeitem := u16 (l.freeitem + 65535) }, some x) := by
      simp only [InnerBuffer.getEmptyInnerBufferItem, hl]
    rw [getEmpty_some p x hfirst, e2]
    refine ⟨⟨hq, hf, h1, h2, ?_, h4, h5, h6, h7, h8⟩, rfl⟩
    show u16 (p.freeitem + 65535) = u16 (l.freeitem + 65535)
    rw [h3]

theorem rep_getFull (p : inner_buffer_t) (l : InnerBuffer.inner_buffer_t) (hr : Rep p l) :
    Rep (getFullInnerBufferItem p).1 (InnerBuffer.getFullInnerBufferItem l).1 ∧
    (getFullInnerBufferItem p).2 = (InnerBuffer.getFullInnerBufferItem l).2 := by
  obtain ⟨he, hf, h1, h2, h3, h4, h5, h6, h7, h8⟩ := hr
  cases hl : l.fullhead with
  | nil =>
    have hn : p.fullhead.stqh_first = none := (queue_nil_iff _ _ _ hf).mpr hl
    have e2 : InnerBuffer.getFullInnerBufferItem l = (l, none) := by
      simp only [InnerBuffer.getFullInnerBufferItem, hl]
    rw [getFull_none p hn, e2]
    exact ⟨⟨he, hf, h1, h2, h3, h4, h5, h6, h7, h8⟩, rfl⟩
  | cons x xs =>
    have hf2 := hf
    rw [hl] at hf2
    obtain ⟨hfirst, hq⟩ := queue_remove_head _ _ x xs hf2
    have e2 : InnerBuffer.getFullInnerBufferItem l
        = ({ l with fullhead := xs, itemnum := u16 (l.itemnum + 65535) }, some x) := by
      simp only [InnerBuffer.getFullInnerBufferItem, hl]
    rw [getFull_some p x hfirst, e2]
    refine ⟨⟨he, hq, h1, ?_, h3, h4, h5, h6, h7, h8⟩, rfl⟩
    show u16 (p.itemnum + 65535) = u16 (l.itemnum + 65535)
    rw [h2]

theorem rep_postFull (p : inner_buffer_t) (l : InnerBuffer.inner_buffer_t) (item : Item)
    (hr : Rep p l) (hnd : (l.emptyhead ++ l.fullhead).Nodup)
    (hx : item ∉ l.emptyhead ++ l.fullhead) :
    Rep (postFullInnerBufferItem p (some item))
      (InnerBuffer.postFullInnerBufferItem l (some item)) := by
  obtain ⟨he, hf, h1, h2, h3, h4, h5, h6, h7, h8⟩ := hr
  have hxe : item ∉ l.emptyhead := fun h => hx (List.mem_append_left _ h)
  have hxf : item ∉ l.fullhead := fun h => hx (List.mem_append_right _ h)
  have hndf : l.fullhead.Nodup := (List.nodup_append.mp hnd).2.1
  have hdis : ∀ y ∈ l.fullhead, y ∉ l.emptyhead := by
    intro y hy hy2
    exact (List.nodup_append.mp hnd).2.2 hy2 hy
  by_cases hfull : l.itemnum = l.buffersize
  · have hfullp : p.itemnum = p.buffersize := by rw [h1, h2]; exact hfull
    have e1 : postFullInnerBufferItem p (some item)
        = { p with postoverflow := u16 (p.postoverflow + 1) } := by
      simp only [postFullInnerBufferItem, if_pos hfullp]
    have e2 : InnerBuffer.postFullInnerBufferItem l (some item)
        = { l with postoverflow := u16 (l.postoverflow + 1) } := by
      simp only [InnerBuffer.postFullInnerBufferItem, if_pos hfull]
    rw [e1, e2]
    refine ⟨he, hf, h1, h2, h3, h4, h5, ?_, h7, h8⟩
    show u16 (p.postoverflow + 1) = u16 (l.postoverflow + 1)
    rw [h6]
  · have hfullp : ¬ p.itemnum = p.buffersize := by rw [h1, h2]; exact hfull
    have e1 : postFullInnerBufferItem p (some item)
        = { p with fullhead := (insert p.fullhead p.next item).1
                   next := (insert p.fullhead p.next item).2
                   itemnum := u16 (p.itemnum + 1) } := by
      simp only [postFullInnerBufferItem, if_neg hfullp]
    have e2 : InnerBuffer.postFullInnerBufferItem l (some item)
        = { l with fullhead := l.fullhead ++ [item], itemnum := u16 (l.itemnum + 1) } := by
      simp only [InnerBuffer.postFullInnerBufferItem, if_neg hfull]
    rw [e1, e2]
    refine ⟨queue_frame _ _ _ item _ _ hf he hxe hdis, queue_insert _ _ _ item hf hndf hxf,
      h1, ?_, h3, h4, h5, h6, h7, h8⟩
    show u16 (p.itemnum + 1) = u16 (l.itemnum + 1)
    rw [h2]

theorem rep_releaseEmpty (p : inner_buffer_t) (l : InnerBuffer.inner_buffer_t) (item : Item)
    (hr : Rep p l) (hnd : (l.emptyhead ++ l.fullhead).Nodup)
    (hx : item ∉ l.emptyhead ++ l.fullhead) :
    Rep (releaseEmptyInnerBufferItem p (some item))
      (InnerBuffer.releaseEmptyInnerBufferItem l (some item)) := by
  obtain ⟨he, hf, h1, h2, h3, h4, h5, h6, h7, h8⟩ := hr
  have hxe : item ∉ l.emptyhead := fun h => hx (List.mem_append_left _ h)
  have hxf : item ∉ l.fullhead := fun h => hx (List.mem_append_right _ h)
  have hnde : l.emptyhead.Nodup := (List.nodup_append.mp hnd).1
  have hdis : ∀ y ∈ l.emptyhead, y ∉ l.fullhead := by
    intro y hy hy2
    exact (List.nodup_append.mp hnd).2.2 hy hy2
  by_cases hfull : l.freeitem = l.buffersize
  · have hfullp : p.freeitem = p.buffersize := by rw [h1, h3]; exact hfull
    have e1 : releaseEmptyInnerBufferItem p (some item)
        = { p with overflow := u16 (p.overflow + 1) } := by
      simp only [releaseEmptyInnerBufferItem, if_pos hfullp]
    have e2 : InnerBuffer.releaseEmptyInnerBufferItem l (some item)
        = { l with overflow := u16 (l.overflow + 1) } := by
      simp only [InnerBuffer.releaseEmptyInnerBufferItem, if_pos hfull]
    rw [e1, e2]
    refine ⟨he, hf, h1, h2, h3, h4, ?_, h6, h7, h8⟩
    show u16 (p.overflow + 1) = u16 (l.overflow + 1)
    rw [h5]
  · have hfullp : ¬ p.freeitem = p.buffersize := by rw [h1, h3]; exact hfull
    have e1 : releaseEmptyInnerBufferItem p (some item)
        = { p with emptyhead := (insert p.emptyhead p.next item).1
                   next := (insert p.emptyhead p.next item).2
                   freeitem := u16 (p.freeitem + 1) } := by
      simp only [releaseEmptyInnerBufferItem, if_neg hfullp]
    have e2 : InnerBuffer.releaseEmptyInnerBufferItem l (some item)
        = { l with emptyhead := l.emptyhead ++ [item], freeitem := u16 (l.freeitem + 1) } := by
      simp only [InnerBuffer.releaseEmptyInnerBufferItem, if_neg hfull]
    rw [e1, e2]
    refine ⟨queue_insert _ _ _ item he hnde hxe, queue_frame _ _ _ item _ _ he hf hxf hdis,
      h1, h2, ?_, h4, h5, h6, h7, h8⟩
    show u16 (p.freeitem + 1) = u16 (l.freeitem + 1)
    rw [h3]

/-- The items of the queues and of the callers are distinct under the invariant. -/
theorem inv_nodup (N : Nat) (s : InnerBuffer.Sys) (hi : Inv N s) :
    (s.bf.emptyhead ++ s.bf.fullhead ++ s.held).Nodup :=
  (List.Perm.nodup_iff hi.2.2.2.2).mpr (List.nodup_range N)

theorem held_not_queued (N : Nat) (s : InnerBuffer.Sys) (hi : Inv N s) (item : Item)
    (h : item ∈ s.held) : item ∉ s.bf.emptyhead ++ s.bf.fullhead := by
  intro hq
  exact (List.nodup_append.mp (inv_nodup N s hi)).2.2 hq h

/-- One well-formed call has the same effect on the linked queues as on the lists. -/
theorem sim_step (N : Nat) (p : Sys) (l : InnerBuffer.Sys) (c : Call)
    (hr : Rep p.bf l.bf) (hh : p.held = l.held) (hi : Inv N l) (hok : l.ok c = true) :
    Rep (p.step c).bf (l.step c).bf ∧ (p.step c).held = (l.step c).held := by
  have hnd : (l.bf.emptyhead ++ l.bf.fullhead).Nodup :=
    (List.nodup_append.mp (inv_nodup N l hi)).1
  cases c with
  | getEmpty =>
    obtain ⟨r1, r2⟩ := rep_getEmpty p.bf l.bf hr
    exact ⟨r1, by simp only [Sys.step, InnerBuffer.Sys.step, r2, hh]⟩
  | getFull =>
    obtain ⟨r1, r2⟩ := rep_getFull p.bf l.bf hr
    exact ⟨r1, by simp only [Sys.step, InnerBuffer.Sys.step, r2, hh]⟩
  | postFull item =>
    have hmem : item ∈ l.held := by simpa [InnerBuffer.Sys.ok] using hok
    refine ⟨rep_postFull p.bf l.bf item hr hnd (held_not_queued N l hi item hmem), ?_⟩
    simp only [Sys.step, InnerBuffer.Sys.step, hh, hr.2.2.1, hr.2.2.2.1]
  | releaseEmpty item =>
    have hmem : item ∈ l.held := by simpa [InnerBuffer.Sys.ok] using hok
    refine ⟨rep_releaseEmpty p.bf l.bf item hr hnd (held_not_queued N l hi item hmem), ?_⟩
    simp only [Sys.step, InnerBuffer.Sys.step, hh, hr.2.2.1, hr.2.2.2.2.1]

theorem ok_eq (p : Sys) (l : InnerBuffer.Sys) (c : Call) (hh : p.held = l.held) :
    p.ok c = l.ok c := by
  cases c <;> simp only [Sys.ok, InnerBuffer.Sys.ok, hh]

/-- Along well-formed calls the linked queues and the lists return and accept the same
items. -/
theorem sim_run (N : Nat) (hN : N < 65536) :
    ∀ (calls : List Call) (p : Sys) (l : InnerBuffer.Sys),
      Rep p.bf l.bf → p.held = l.held → Inv N l → p.valid calls = true →
      l.valid calls = true ∧ p.taken calls = l.taken calls ∧
      p.posted calls = l.posted calls ∧
      Rep (p.run calls).bf (l.run calls).bf ∧ (p.run calls).held = (l.run calls).held := by
  intro calls
  induction calls with
  | nil => intro p l hr hh _ _; exact ⟨rfl, rfl, rfl, hr, hh⟩
  | cons c cs ih =>
    intro p l hr hh hi hv
    have hv2 : p.ok c = true ∧ (p.step c).valid cs = true := by
      simpa only [Sys.valid, Bool.and_eq_true] using hv
    have hok : l.ok c = true := by rw [← ok_eq p l c hh]; exact hv2.1
    obtain ⟨hr1, hh1⟩ := sim_step N p l c hr hh hi hok
    obtain ⟨i1, i2, i3, i4, i5⟩ :=
      ih (p.step c) (l.step c) hr1 hh1 (inv_step N hN l c hi hok) hv2.2
    have hrunp : p.run (c :: cs) = (p.step c).run cs := rfl
    have hrunl : l.run (c :: cs) = (l.step c).run cs := rfl
    rw [hrunp, hrunl]
    refine ⟨?_, ?_, ?_, i4, i5⟩
    · simp only [InnerBuffer.Sys.valid, Bool.and_eq_true]
      exact ⟨hok, i1⟩
    · cases c with
      | getFull =>
        have t1 : p.taken (.getFull :: cs)
            = (match (getFullInnerBufferItem p.bf).2 with
                | none => []
                | some item => [item]) ++ (p.step .getFull).taken cs := rfl
        have t2 : l.taken (.getFull :: cs)
            = (match (InnerBuffer.getFullInnerBufferItem l.bf).2 with
                | none => []
                | some item => [item]) ++ (l.step .getFull).taken cs := rfl
        rw [t1, t2, i2, (rep_getFull p.bf l.bf hr).2]
      | getEmpty => exact i2
      | postFull item => exact i2
      | releaseEmpty item => exact i2
    · cases c with
      | postFull item =>
        have t1 : p.posted (.postFull item :: cs)
            = (if p.bf.itemnum = p.bf.buffersize then [] else [item]) ++
              (p.step (.postFull item)).posted cs := rfl
        have t2 : l.posted (.postFull item :: cs)
            = (if l.bf.itemnum = l.bf.buffersize then [] else [item]) ++
              (l.step (.postFull item)).posted cs := rfl
        rw [t1, t2, i3, hr.2.2.1, hr.2.2.2.1]
      | getEmpty => exact i3
      | getFull => exact i3
      | releaseEmpty item => exact i3

/-! ## The filled queue along well-formed calls -/

theorem initLoop_queue (core pool N : Nat) (hN : N < 65536) (hc : N ≤ core) (hp : N ≤ pool) :
    ∀ (fuel k : Nat) (p : inner_buffer_t), p.buffersize = N → p.freeitem = k →
      Queue p.emptyhead p.next (List.range k) → k ≤ N → N - k ≤ fuel →
      ∃ (eh : stailq_head) (nx : Links),
        initLoop core pool fuel p = { p with emptyhead := eh, next := nx, freeitem := N } ∧
        Queue eh nx (List.range N) := by
  intro fuel
  induction fuel with
  | zero =>
    intro k p hb hf hq hk hfu
    have hkN : k = N := by omega
    subst hkN
    refine ⟨p.emptyhead, p.next, ?_, hq⟩
    obtain ⟨eh, fh, nx, bs, inum, fi, uf, ovf, pof, me, pe⟩ := p
    simp only at hf
    subst hf
    rfl
  | succ fuel ih =>
    intro k p hb hf hq hk hfu
    obtain ⟨eh, fh, nx, bs, inum, fi, uf, ovf, pof, me, pe⟩ := p
    simp only at hb hf hq
    subst hb hf
    by_cases hlt : fi < bs
    · have hu : u16 (fi + 1) = fi + 1 := by unfold u16; omega
      have h1 : ¬ core ≤ fi := by omega
      have h2 : ¬ pool ≤ fi := by omega
      have hq1 : Queue eh (Function.update nx fi none) (List.range fi) :=
        ⟨chain_update nx fi none _ _ (by simp) hq.1, hq.2⟩
      have hq2 := queue_insert eh (Function.update nx fi none) (List.range fi) fi hq1
        (List.nodup_range fi) (by simp)
      rw [← List.range_succ] at hq2
      obtain ⟨eh2, nx2, e2, hq3⟩ := ih (fi + 1)
        { emptyhead := (insert eh (Function.update nx fi none) fi).1, fullhead := fh,
          next := (insert eh (Function.update nx fi none) fi).2, buffersize := bs,
          itemnum := inum, freeitem := u16 (fi + 1), underflow := uf, overflow := ovf,
          postoverflow := pof, malloc_error := me, pool_error := pe }
        rfl hu hq2 (by omega) (by omega)
      refine ⟨eh2, nx2, ?_, hq3⟩
      rw [initLoop, if_pos hlt, if_neg h1, if_neg h2, e2]
    · have hkN : fi = bs := by omega
      subst hkN
      refine ⟨eh, nx, ?_, hq⟩
      rw [initLoop, if_neg (by simp)]

/-- After `innerBufferInit` the linked buffer holds the queues of the list buffer. -/
theorem rep_init (bf : inner_buffer_t) (lbf : InnerBuffer.inner_buffer_t)
    (core pool N : Nat) (h0 : 0 < N) (hN : N < 65536) (hc : N ≤ core) (hp : N ≤ pool) :
    Rep (innerBufferInit bf core pool N) (InnerBuffer.innerBufferInit lbf core pool N) := by
  rw [innerBufferInit_spec lbf core pool N h0 hN hc hp]
  unfold innerBufferInit
  rw [if_neg (by omega)]
  obtain ⟨eh, nx, e, hq⟩ := initLoop_queue core pool N hN hc hp N 0
    { zeroed with buffersize := N } rfl rfl ⟨rfl, rfl⟩ (by omega) (by omega)
  rw [e]
  exact ⟨hq, ⟨rfl, rfl⟩, rfl, rfl, rfl, rfl, rfl, rfl, rfl, rfl⟩

theorem linked_valid_take : ∀ (calls : List Call) (s : Sys) (k : Nat),
    s.valid calls = true → s.valid (calls.take k) = true := by
  intro calls
  induction calls with
  | nil => intro s k h; simp [Sys.valid]
  | cons c cs ih =>
    intro s k h
    cases k with
    | zero => simp [Sys.valid]
    | succ k =>
      simp only [Sys.valid, Bool.and_eq_true, List.take_succ_cons] at h ⊢
      exact ⟨h.1, ih _ k h.2⟩

/-- C29 (amended): the filled queue is first-in first-out along calls that give
`postFullInnerBufferItem` and `releaseEmptyInnerBufferItem` only items the caller holds
(taken from the buffer and not yet given back).  From a buffer initialised with a capacity
`N` (`0 < N`, all `N` allocations succeeding), after each call of every such sequence: the
items returned so far by `getFullInnerBufferItem` are the first of the items posted with
success so far, in the order they were posted; the next `getFullInnerBufferItem` returns
the oldest posted item not yet taken; and it returns `NULL` exactly when every posted item
has been taken, and then leaves the buffer object as it is. -/
theorem held_calls_are_fifo (bf : inner_buffer_t) (core pool N : Nat) (calls : List Call)
    (h0 : 0 < N) (hN : N < 65536) (hc : N ≤ core) (hp : N ≤ pool)
    (hv : (Sys.init bf core pool N).valid calls = true) (k : Nat) :
    (∃ rest, (Sys.init bf core pool N).posted (calls.take k)
        = (Sys.init bf core pool N).taken (calls.take k) ++ rest) ∧
    (∀ item, (getFullInnerBufferItem
        ((Sys.init bf core pool N).run (calls.take k)).bf).2 = some item →
      ∃ rest, (Sys.init bf core pool N).posted (calls.take k)
        = (Sys.init bf core pool N).taken (calls.take k) ++ item :: rest) ∧
    ((getFullInnerBufferItem ((Sys.init bf core pool N).run (calls.take k)).bf).2 = none ↔
      (Sys.init bf core pool N).taken (calls.take k)
        = (Sys.init bf core pool N).posted (calls.take k)) ∧
    ((getFullInnerBufferItem ((Sys.init bf core pool N).run (calls.take k)).bf).2 = none →
      (getFullInnerBufferItem ((Sys.init bf core pool N).run (calls.take k)).bf).1
        = ((Sys.init bf core pool N).run (calls.take k)).bf) := by
  have hr0 : Rep (Sys.init bf core pool N).bf
      (InnerBuffer.Sys.init InnerBuffer.zeroed core pool N).bf :=
    rep_init bf InnerBuffer.zeroed core pool N h0 hN hc hp
  obtain ⟨_, ht, hpo, hr, _⟩ := sim_run N hN (calls.take k) (Sys.init bf core pool N)
    (InnerBuffer.Sys.init InnerBuffer.zeroed core pool N) hr0 rfl
    (inv_init InnerBuffer.zeroed core pool N h0 hN hc hp) (linked_valid_take calls _ k hv)
  have key := fifo_run (calls.take k) (InnerBuffer.Sys.init InnerBuffer.zeroed core pool N)
  rw [init_fullhead InnerBuffer.zeroed core pool N h0, List.nil_append] at key
  have hget := (rep_getFull _ _ hr).2
  rw [ht, hpo, hget]
  refine ⟨⟨_, key.symm⟩, ?_, ?_, ?_⟩
  · intro item hitem
    unfold InnerBuffer.getFullInnerBufferItem at hitem
    split at hitem
    · simp at hitem
    · rename_i it rest he
      simp only [Option.some.injEq] at hitem
      subst hitem
      exact ⟨rest, by rw [← key, he]⟩
  · rw [getFull_none_iff]
    constructor
    · intro he
      rw [← key, he, List.append_nil]
    · intro he
      rw [← key] at he
      exact List.append_right_eq_self.mp he.symm
  · intro hnone
    rw [← hget] at hnone
    cases hfirst : ((Sys.init bf core pool N).run (calls.take k)).bf.fullhead.stqh_first with
    | none => rw [getFull_none _ hfirst]
    | some x =>
      rw [getFull_some _ x hfirst] at hnone
      cases hnone

/-- Witness of C29 (amended): capacity 2, items 0 and 1 taken, posted in that order, and
one taken back. -/
theorem held_calls_are_fifo_witness :
    (Sys.init zeroed 2 2 2).valid
        [Call.getEmpty, Call.getEmpty, Call.postFull 0, Call.postFull 1, Call.getFull] = true ∧
    ∃ rest, (Sys.init zeroed 2 2 2).posted
        ([Call.getEmpty, Call.getEmpty, Call.postFull 0, Call.postFull 1, Call.getFull].take 5)
      = (Sys.init zeroed 2 2 2).taken
        ([Call.getEmpty, Call.getEmpty, Call.postFull 0, Call.postFull 1, Call.getFull].take 5)
        ++ rest :=
  ⟨by decide,
   (held_calls_are_fifo zeroed 2 2 2
      [Call.getEmpty, Call.getEmpty, Call.postFull 0, Call.postFull 1, Call.getFull]
      (by decide) (by decide) (by decide) (by decide) (by decide) 5).1⟩

/-- C29 (counterexample): capacity 2; item 0 is taken from the empty queue and posted
twice, the second time while it is linked in the filled queue.  The second insertion
makes the link of item 0 point to item 0: three calls of `getFullInnerBufferItem` return
item 0 three times, one more than was posted; the third one returns an item although
every posted item has been taken, and `itemnum` goes from `0` to `65535`. -/
theorem twice_posted_item_comes_back :
    (Sys.init zeroed 2 2 2).posted
      [Call.getEmpty, Call.postFull 0, Call.postFull 0, Call.getFull, Call.getFull,
        Call.getFull] = [0, 0] ∧
    (Sys.init zeroed 2 2 2).taken
      [Call.getEmpty, Call.postFull 0, Call.postFull 0, Call.getFull, Call.getFull,
        Call.getFull] = [0, 0, 0] ∧
    (Sys.init zeroed 2 2 2).taken
      [Call.getEmpty, Call.postFull 0, Call.postFull 0, Call.getFull, Call.getFull]
      = (Sys.init zeroed 2 2 2).posted
        [Call.getEmpty, Call.postFull 0, Call.postFull 0, Call.getFull, Call.getFull] ∧
    (getFullInnerBufferItem ((Sys.init zeroed 2 2 2).run
      [Call.getEmpty, Call.postFull 0, Call.postFull 0, Call.getFull,
        Call.getFull]).bf).2 = some 0 ∧
    ((Sys.init zeroed 2 2 2).run
      [Call.getEmpty, Call.postFull 0, Call.postFull 0, Call.getFull,
        Call.getFull]).bf.itemnum = 0 ∧
    ((Sys.init zeroed 2 2 2).run
      [Call.getEmpty, Call.postFull 0, Call.postFull 0, Call.getFull, Call.getFull,
        Call.getFull]).bf.itemnum = 65535 ∧
    ((Sys.init zeroed 2 2 2).run
      [Call.getEmpty, Call.postFull 0, Call.postFull 0]).bf.next 0 = some 0 := by
  decide

end InnerBuffer.Linked
